import Mathlib

set_option maxHeartbeats 1000000

/-!
# A shallow embedding of the Minesweeper game engine

This file embeds the game-state engine of the Minesweeper program
(`Minesweeper.pyw`, with its near-identical second entry point) in Lean 4 and
proves properties of the embedded code.

Modelling notes, mirroring the Python source:

* A square is identified by its list index `y * size + x`.  `get_square`
  returns `Option Nat`: the Python function returns the special value `None`
  for out-of-range coordinates, and that sentinel can flow into the
  bookkeeping lists, so `marked` and `activated` are lists of `Option Nat`.
* `random.sample` is modelled by passing the sampled list `rng` as an
  explicit argument; theorems that depend on the sample being a real sample
  (distinct elements of the population) carry that as a hypothesis.
* Python exceptions are modelled by a `Bool` component of the result:
  `(s, false)` means an exception escaped with the object left in state `s`
  (mutations made before the raise persist).  `none` (at the `Option` layer)
  means the modelling fuel ran out; a later theorem shows enough fuel always
  exists, so this is an artefact of the embedding only.
* The labels that the code uses as counters (`__mines_label` text and
  `__undiscovered_squares` text) are the `Int` fields `minesLabel` and
  `undiscovered`; the per-square images are the `img : Nat → Nat` field
  (values are indices into `IMAGE_FILES`: 0-8 digit, 9 bomb, 10 empty,
  11 flagged, 12 exploded bomb).  The ending label is `ending`; `bound`
  records whether the mouse bindings are still attached (after `end_game`
  unbinds them no further commands can reach the engine).
-/

namespace Minesweeper

/-- A square handle: `some i` is the square at list index `i`; `none` is the
Python `None` returned by `get_square` for out-of-range coordinates. -/
abbrev Square := Option Nat

/-- The mutable state of the `Minesweeper` object that the game logic
touches (GUI-only fields are omitted). -/
structure GameState where
  size : Nat
  mineCount : Nat
  marked : List Square
  activated : List Square
  mines : List Nat
  minesLabel : Int
  undiscovered : Int
  img : Nat → Nat
  ending : String
  bound : Bool

/-- Number of squares of the grid. -/
def nsq (s : GameState) : Nat := s.size * s.size

/-- `get_square`: index lookup with the out-of-range guard of the source
(`None` when a coordinate falls outside `[0, size)`). -/
def get_square (s : GameState) (x y : Int) : Square :=
  if (s.size : Int) ≤ y ∨ (s.size : Int) ≤ x ∨ y < 0 ∨ x < 0 then none
  else some (y * (s.size : Int) + x).toNat

/-- Membership of a square handle in the mine list; the Python test
`square in self.__mine_squares` is `False` for `None` since the mine list
holds real squares only. -/
def memMines (q : Square) (l : List Nat) : Bool :=
  match q with
  | some i => l.contains i
  | none => false

/-- The 3x3 block of coordinates around square `i` in the iteration order of
the source (`y` outer, `x` inner), centre included. -/
def nbhd (s : GameState) (i : Nat) : List (Int × Int) :=
  let a : Int := (i % s.size : Nat)
  let b : Int := (i / s.size : Nat)
  [(a - 1, b - 1), (a, b - 1), (a + 1, b - 1),
   (a - 1, b), (a, b), (a + 1, b),
   (a - 1, b + 1), (a, b + 1), (a + 1, b + 1)]

/-- `calculate_mines_and_flags`: counts mines and flags in the 3x3 block
around square `i`, skipping the square itself (`current_square is square`). -/
def calculate_mines_and_flags (s : GameState) (i : Nat) : Nat × Nat :=
  (nbhd s i).foldl
    (fun mf p =>
      let cur := get_square s p.1 p.2
      if cur = some i then mf
      else
        (if memMines cur s.mines then mf.1 + 1 else mf.1,
         if cur ∈ s.marked then mf.2 + 1 else mf.2))
    (0, 0)

/-- Pointwise update of the image table (`square.configure(image=...)`). -/
def updImg (g : Nat → Nat) (i v : Nat) : Nat → Nat :=
  fun j => if j = i then v else g j

/-- The population `list(range(size ** 2))` with the element at position
`idx` removed, as built by `generate_mines` before sampling. -/
def sampleUniverse (s : GameState) (idx : Nat) : List Nat :=
  (List.range (nsq s)).eraseIdx idx

/-- Python's `list.pop(e)` index normalisation: a negative index counts from
the end. -/
def popIdx (n : Nat) (e : Int) : Nat :=
  if e < 0 then (e + n).toNat else e.toNat

/-- `generate_mines`: removes the excluded index from the population and
appends the sample to the mine list.  `none` models the exceptions of the
source: `list.pop` raises for an index outside `[-len, len)` and
`random.sample` raises when asked for more elements than the population has;
both raise before any field of the object is mutated. -/
def generate_mines (s : GameState) (exclude : Int) (rng : List Nat) :
    Option GameState :=
  if (nsq s : Int) ≤ exclude ∨ exclude < -(nsq s : Int) then none
  else if (sampleUniverse s (popIdx (nsq s) exclude)).length < s.mineCount then
    none
  else some { s with mines := s.mines ++ rng }

/-- `mark_square`: toggles a flag.  The `Bool` is `false` when the Python
code would raise (`square.configure` on the `None` returned by `get_square`
for out-of-range coordinates); the state component keeps the mutations made
before the raise, exactly as the Python object does. -/
def mark_square (s : GameState) (x y : Int) : GameState × Bool :=
  let sq := get_square s x y
  if sq ∈ s.activated then (s, true)
  else
    let old := s.minesLabel
    if sq ∈ s.marked then
      let s1 := { s with marked := s.marked.erase sq }
      match sq with
      | some i => ({ s1 with img := updImg s1.img i 10, minesLabel := old + 1 }, true)
      | none => (s1, false)
    else if 0 < old then
      let s1 := { s with marked := s.marked ++ [sq] }
      match sq with
      | some i => ({ s1 with img := updImg s1.img i 11, minesLabel := old - 1 }, true)
      | none => (s1, false)
    else (s, true)

/-- All grid coordinates in the sweep order of `end_game` (`y` outer). -/
def allCoords (s : GameState) : List (Int × Int) :=
  (List.range s.size).flatMap
    (fun y => (List.range s.size).map (fun x => (Int.ofNat x, Int.ofNat y)))

mutual

/-- `activate_square`: the reveal command.  `ca` is the `check_adjacent`
parameter, `rng` the sample `random.sample` would return on the first click.
Result `none` means fuel ran out; `some (s, false)` means an exception
escaped with the object in state `s`. -/
def activate_square (fuel : Nat) (s : GameState) (x y : Int) (ca : Bool)
    (rng : List Nat) : Option (GameState × Bool) :=
  match fuel with
  | 0 => none
  | f + 1 =>
    match (if s.activated = [] then generate_mines s (y * (s.size : Int) + x) rng
           else some s) with
    | none => some (s, false)
    | some s1 =>
      let sq := get_square s1 x y
      if sq ∈ s1.marked then some (s1, true)
      else if sq ∈ s1.activated then
        match sq with
        | none => some (s1, false)
        | some i =>
          let mf := calculate_mines_and_flags s1 i
          if mf.1 = mf.2 then activate_adjacent f s1 i rng
          else some (s1, true)
      else
        let s2 := { s1 with activated := s1.activated ++ [sq] }
        if memMines sq s2.mines then
          match sq with
          | some i =>
            end_game f { s2 with img := updImg s2.img i (if ca then 12 else 9) }
              "You lose" rng
          | none => some (s2, false)
        else
          let s3 := { s2 with undiscovered := s2.undiscovered - 1 }
          match sq with
          | none => some (s3, false)
          | some i =>
            let m := (calculate_mines_and_flags s3 i).1
            let s4 := { s3 with img := updImg s3.img i m }
            if m = 0 ∧ ca then
              match activate_adjacent f s4 i rng with
              | none => none
              | some (s5, false) => some (s5, false)
              | some (s5, true) => check_win f s5 rng
            else check_win f s4 rng

/-- `activate_adjacent_squares`: runs `activate_square` over the 3x3 block
around square `i`. -/
def activate_adjacent (fuel : Nat) (s : GameState) (i : Nat)
    (rng : List Nat) : Option (GameState × Bool) :=
  match fuel with
  | 0 => none
  | f + 1 => adjacent_go f s (nbhd s i) rng

/-- The loop body of `activate_adjacent_squares`: skip squares that are
already activated or out of range, reveal the rest (recursively). -/
def adjacent_go (fuel : Nat) (s : GameState) (ps : List (Int × Int))
    (rng : List Nat) : Option (GameState × Bool) :=
  match fuel with
  | 0 => none
  | f + 1 =>
    match ps with
    | [] => some (s, true)
    | p :: rest =>
      let sq := get_square s p.1 p.2
      if sq ∈ s.activated then adjacent_go f s rest rng
      else
        match sq with
        | none => adjacent_go f s rest rng
        | some _ =>
          match activate_square f s p.1 p.2 true rng with
          | none => none
          | some (s', false) => some (s', false)
          | some (s', true) => adjacent_go f s' rest rng

/-- `end_game`: sweeps the whole grid activating what is not yet activated
(without cascading), then sets the ending label and unbinds the mouse
buttons. -/
def end_game (fuel : Nat) (s : GameState) (msg : String) (rng : List Nat) :
    Option (GameState × Bool) :=
  match fuel with
  | 0 => none
  | f + 1 =>
    match end_go f s (allCoords s) rng with
    | none => none
    | some (s', false) => some (s', false)
    | some (s', true) => some ({ s' with ending := msg, bound := false }, true)

/-- The sweep loop of `end_game` over a list of coordinates. -/
def end_go (fuel : Nat) (s : GameState) (ps : List (Int × Int))
    (rng : List Nat) : Option (GameState × Bool) :=
  match fuel with
  | 0 => none
  | f + 1 =>
    match ps with
    | [] => some (s, true)
    | p :: rest =>
      if get_square s p.1 p.2 ∈ s.activated then end_go f s rest rng
      else
        match activate_square f s p.1 p.2 false rng with
        | none => none
        | some (s', false) => some (s', false)
        | some (s', true) => end_go f s' rest rng

/-- `check_win`: ends the game with the winning message when no safe square
is left unrevealed. -/
def check_win (fuel : Nat) (s : GameState) (rng : List Nat) :
    Option (GameState × Bool) :=
  match fuel with
  | 0 => none
  | f + 1 =>
    if s.undiscovered ≤ 0 then end_game f s "You won" rng
    else some (s, true)

end

/-- `start_game` for a fresh `Minesweeper` instance: 10x10 grid, `m` mines
as read from the spinbox, all squares hidden. -/
def start_game (m : Nat) : GameState :=
  { size := 10
    mineCount := m
    marked := []
    activated := []
    mines := []
    minesLabel := (m : Int)
    undiscovered := (100 : Int) - (m : Int)
    img := fun _ => 10
    ending := ""
    bound := true }

/-! ## Basic facts about the embedded definitions -/

/-- In-range coordinates (the ones the GUI can produce). -/
def InRange (s : GameState) (x y : Int) : Prop :=
  0 ≤ x ∧ x < (s.size : Int) ∧ 0 ≤ y ∧ y < (s.size : Int)

/-- The index of an in-range coordinate pair. -/
def idx (s : GameState) (x y : Int) : Nat := (y * (s.size : Int) + x).toNat

theorem get_square_eq_some {s : GameState} {x y : Int} {i : Nat}
    (h : get_square s x y = some i) :
    InRange s x y ∧ (i : Int) = y * (s.size : Int) + x ∧ i < nsq s := by
  unfold get_square at h
  split at h
  · exact absurd h (by simp)
  · next hc =>
    push_neg at hc
    obtain ⟨h1, h2, h3, h4⟩ := hc
    simp only [Option.some.injEq] at h
    subst h
    have hnn : 0 ≤ y * (s.size : Int) + x :=
      add_nonneg (mul_nonneg h3 (Int.ofNat_nonneg _)) h4
    have hlt : y * (s.size : Int) + x < (s.size : Int) * (s.size : Int) := by
      nlinarith
    refine ⟨⟨h4, h2, h3, h1⟩, ?_, ?_⟩
    · exact Int.toNat_of_nonneg hnn
    · show _ < s.size * s.size
      omega

theorem get_square_inRange {s : GameState} {x y : Int} (h : InRange s x y) :
    get_square s x y = some (idx s x y) := by
  obtain ⟨h1, h2, h3, h4⟩ := h
  unfold get_square idx
  rw [if_neg]
  push_neg
  exact ⟨h4, h2, h3, h1⟩

/-- Number of activated squares that are not mines (the quantity the
`__undiscovered_squares` label tracks). -/
def actSafe (s : GameState) : Nat :=
  (s.activated.filter (fun q => !(memMines q s.mines))).length

/-- What a single engine call may do to the state: the frame of fields it
never touches, monotonicity of the activated list, and the bookkeeping
equations tying the counter to the activated list. -/
structure Ext (s s' : GameState) : Prop where
  size_eq : s'.size = s.size
  mc_eq : s'.mineCount = s.mineCount
  marked_eq : s'.marked = s.marked
  label_eq : s'.minesLabel = s.minesLabel
  und_le : s'.undiscovered ≤ s.undiscovered
  act_ext : ∃ l, s'.activated = s.activated ++ l
  mines_eq : s.activated ≠ [] → s'.mines = s.mines
  nodup : s.activated.Nodup → s'.activated.Nodup
  new_unmarked : ∀ q, q ∈ s'.activated → q ∉ s.activated → q ∉ s.marked
  new_shape : ∀ q, q ∈ s'.activated → q ∉ s.activated →
    q = none ∨ ∃ i, i < s.size * s.size ∧ q = some i
  counter : s.activated ≠ [] →
    s'.undiscovered + (actSafe s' : Int) = s.undiscovered + (actSafe s : Int)
  text : s'.ending = "" → s.ending = "" ∧ s'.bound = s.bound
  text_cases : s'.ending = s.ending ∨ s'.ending = "You lose" ∨ s'.ending = "You won"

theorem Ext.refl (s : GameState) : Ext s s :=
  ⟨rfl, rfl, rfl, rfl, le_refl _, ⟨[], by simp⟩, fun _ => rfl, id,
   fun _ h h' => absurd h h', fun _ h h' => absurd h h',
   fun _ => rfl, fun h => ⟨h, rfl⟩, Or.inl rfl⟩

theorem Ext.trans {s1 s2 s3 : GameState} (a : Ext s1 s2) (b : Ext s2 s3) :
    Ext s1 s3 := by
  have hact2 : s1.activated ≠ [] → s2.activated ≠ [] := by
    intro h
    obtain ⟨l, hl⟩ := a.act_ext
    simp [hl, h]
  have hin : ∀ q, q ∈ s2.activated → q ∈ s3.activated := by
    intro q hq
    obtain ⟨l, hl⟩ := b.act_ext
    simp [hl, hq]
  refine ⟨b.size_eq.trans a.size_eq, b.mc_eq.trans a.mc_eq,
    b.marked_eq.trans a.marked_eq, b.label_eq.trans a.label_eq,
    le_trans b.und_le a.und_le, ?_, ?_, ?_, ?_, ?_, ?_, ?_, ?_⟩
  · obtain ⟨l, hl⟩ := a.act_ext
    obtain ⟨l', hl'⟩ := b.act_ext
    exact ⟨l ++ l', by simp [hl', hl]⟩
  · intro h
    rw [b.mines_eq (hact2 h), a.mines_eq h]
  · intro h
    exact b.nodup (a.nodup h)
  · intro q hq hq1
    by_cases hq2 : q ∈ s2.activated
    · exact a.new_unmarked q hq2 hq1
    · have := b.new_unmarked q hq hq2
      rwa [a.marked_eq] at this
  · intro q hq hq1
    by_cases hq2 : q ∈ s2.activated
    · exact a.new_shape q hq2 hq1
    · have := b.new_shape q hq hq2
      rwa [a.size_eq] at this
  · intro h
    have e1 := a.counter h
    have e2 := b.counter (hact2 h)
    omega
  · intro h
    obtain ⟨h1, h2⟩ := b.text h
    obtain ⟨h3, h4⟩ := a.text h1
    exact ⟨h3, h2.trans h4⟩
  · rcases b.text_cases with h | h | h
    · rw [h]
      exact a.text_cases
    · exact Or.inr (Or.inl h)
    · exact Or.inr (Or.inr h)

theorem first_click_cases {s : GameState} {e : Int} {rng : List Nat}
    {s1 : GameState}
    (h : (if s.activated = [] then generate_mines s e rng else some s) = some s1) :
    s1 = s ∨ (s.activated = [] ∧ s1 = { s with mines := s.mines ++ rng }) := by
  split at h
  · unfold generate_mines at h
    split at h
    · simp at h
    · split at h
      · simp at h
      · simp only [Option.some.injEq] at h
        exact Or.inr ⟨by assumption, h.symm⟩
  · simp only [Option.some.injEq] at h
    exact Or.inl h.symm

theorem ext_gen {s : GameState} {rng : List Nat} (h : s.activated = []) :
    Ext s { s with mines := s.mines ++ rng } :=
  ⟨rfl, rfl, rfl, rfl, le_refl _, ⟨[], by simp⟩, fun h' => absurd h h', id,
   fun _ h1 h2 => absurd h1 h2, fun _ h1 h2 => absurd h1 h2,
   fun h' => absurd h h', fun h' => ⟨h', rfl⟩, Or.inl rfl⟩

theorem first_click_ext {s : GameState} {e : Int} {rng : List Nat}
    {s1 : GameState}
    (h : (if s.activated = [] then generate_mines s e rng else some s) = some s1) :
    Ext s s1 ∧ s1.activated = s.activated ∧ s1.marked = s.marked ∧
      s1.size = s.size ∧ s1.undiscovered = s.undiscovered ∧
      s1.ending = s.ending ∧ s1.bound = s.bound ∧ s1.minesLabel = s.minesLabel ∧
      s1.mineCount = s.mineCount := by
  rcases first_click_cases h with h1 | ⟨h1, h2⟩
  · subst h1
    exact ⟨Ext.refl _, rfl, rfl, rfl, rfl, rfl, rfl, rfl, rfl⟩
  · subst h2
    exact ⟨ext_gen h1, rfl, rfl, rfl, rfl, rfl, rfl, rfl, rfl⟩

theorem actSafe_append {s : GameState} {sq : Square} {l : List Square}
    {g : Nat → Nat} {u : Int} :
    actSafe { s with activated := l ++ [sq], img := g, undiscovered := u } =
      (l.filter (fun q => !(memMines q s.mines))).length +
        (if memMines sq s.mines then 0 else 1) := by
  unfold actSafe
  simp only [List.filter_append]
  cases hm : memMines sq s.mines <;> simp [hm]

/-- `Ext` for the composite state produced by activating one fresh square:
activated list extended, counter decremented iff the square is safe, image
table arbitrary. -/
theorem ext_append {s : GameState} {sq : Square} {g : Nat → Nat} {u : Int}
    (h1 : sq ∉ s.activated) (h2 : sq ∉ s.marked)
    (h3 : sq = none ∨ ∃ i, i < s.size * s.size ∧ sq = some i)
    (hu : u = if memMines sq s.mines then s.undiscovered else s.undiscovered - 1) :
    Ext s { s with activated := s.activated ++ [sq], img := g,
                   undiscovered := u } := by
  refine ⟨rfl, rfl, rfl, rfl, ?_, ⟨[sq], rfl⟩, fun _ => rfl, ?_, ?_, ?_, ?_,
    fun h => ⟨h, rfl⟩, Or.inl rfl⟩
  · show u ≤ s.undiscovered
    rw [hu]
    split <;> omega
  · intro hn
    simp [List.nodup_append, hn, h1]
  · intro q hq hq'
    simp only [List.mem_append, List.mem_singleton] at hq
    rcases hq with hq | hq
    · exact absurd hq hq'
    · subst hq; exact h2
  · intro q hq hq'
    simp only [List.mem_append, List.mem_singleton] at hq
    rcases hq with hq | hq
    · exact absurd hq hq'
    · subst hq; exact h3
  · intro _
    show u + (actSafe _ : Int) = s.undiscovered + (actSafe s : Int)
    rw [actSafe_append, hu]
    unfold actSafe
    cases hm : memMines sq s.mines <;> simp [hm]

/-- `Ext` for the final step of `end_game` (set the ending label, unbind). -/
theorem ext_end_final {s : GameState} {msg : String}
    (hmsg : msg = "You lose" ∨ msg = "You won") :
    Ext s { s with ending := msg, bound := false } := by
  refine ⟨rfl, rfl, rfl, rfl, le_refl _, ⟨[], by simp⟩, fun _ => rfl, id,
    fun _ h h' => absurd h h', fun _ h h' => absurd h h', fun _ => rfl, ?_, ?_⟩
  · intro h
    rcases hmsg with h' | h' <;> simp [h'] at h
  · rcases hmsg with h' | h'
    · exact Or.inr (Or.inl h')
    · exact Or.inr (Or.inr h')

/-- Every engine call (reveal, cascade step, sweep, win check) relates its
input state to its output state by `Ext`: proved by one induction on the
fuel across the six mutually recursive functions. -/
theorem ext_all (f : Nat) :
    (∀ s x y ca rng r, activate_square f s x y ca rng = some r → Ext s r.1) ∧
    (∀ s i rng r, activate_adjacent f s i rng = some r → Ext s r.1) ∧
    (∀ s ps rng r, adjacent_go f s ps rng = some r → Ext s r.1) ∧
    (∀ s msg rng r, (msg = "You lose" ∨ msg = "You won") →
      end_game f s msg rng = some r → Ext s r.1) ∧
    (∀ s ps rng r, end_go f s ps rng = some r → Ext s r.1) ∧
    (∀ s rng r, check_win f s rng = some r → Ext s r.1) := by
  induction f with
  | zero =>
    refine ⟨fun s x y ca rng r h => ?_, fun s i rng r h => ?_,
      fun s ps rng r h => ?_, fun s msg rng r _ h => ?_,
      fun s ps rng r h => ?_, fun s rng r h => ?_⟩ <;>
      simp [activate_square, activate_adjacent, adjacent_go, end_game,
        end_go, check_win] at h
  | succ f ih =>
    obtain ⟨ihA, ihJ, ihG, ihE, ihO, ihW⟩ := ih
    refine ⟨?_, ?_, ?_, ?_, ?_, ?_⟩
    · -- activate_square
      intro s x y ca rng r h
      simp only [activate_square] at h
      split at h
      · -- first click raised: no mutation
        simp only [Option.some.injEq] at h
        subst h
        exact Ext.refl s
      · next s1 hfc =>
        obtain ⟨hext1, ha1, hmk1, hsz1, hund1, hend1, hbd1, hlb1, hmc1⟩ :=
          first_click_ext hfc
        by_cases hm : get_square s1 x y ∈ s1.marked
        · rw [if_pos hm] at h
          simp only [Option.some.injEq] at h
          subst h
          exact hext1
        · rw [if_neg hm] at h
          by_cases hac : get_square s1 x y ∈ s1.activated
          · rw [if_pos hac] at h
            cases hsq : get_square s1 x y with
            | none =>
              rw [hsq] at h
              dsimp only at h
              simp only [Option.some.injEq] at h
              subst h
              exact hext1
            | some i =>
              rw [hsq] at h
              dsimp only at h
              by_cases hmf : (calculate_mines_and_flags s1 i).1 =
                  (calculate_mines_and_flags s1 i).2
              · rw [if_pos hmf] at h
                exact hext1.trans (ihJ s1 i rng r h)
              · rw [if_neg hmf] at h
                simp only [Option.some.injEq] at h
                subst h
                exact hext1
          · rw [if_neg hac] at h
            cases hsq : get_square s1 x y with
            | none =>
              rw [hsq] at h
              rw [hsq] at hac hm
              dsimp only at h
              simp only [memMines, Bool.false_eq_true, if_false,
                Option.some.injEq] at h
              subst h
              refine hext1.trans (ext_append hac hm (Or.inl rfl) ?_)
              simp [memMines]
            | some i =>
              rw [hsq] at h
              rw [hsq] at hac hm
              dsimp only at h
              have hi : i < s1.size * s1.size := (get_square_eq_some hsq).2.2
              by_cases hmn : memMines (some i) s1.mines = true
              · rw [if_pos hmn] at h
                have hext2 : Ext s1 { s1 with
                    activated := s1.activated ++ [some i],
                    img := updImg s1.img i (if ca then 12 else 9) } := by
                  have := ext_append (s := s1)
                    (g := updImg s1.img i (if ca then 12 else 9))
                    (u := s1.undiscovered) hac hm (Or.inr ⟨i, hi, rfl⟩)
                    (by rw [if_pos hmn])
                  exact this
                exact (hext1.trans hext2).trans
                  (ihE _ "You lose" rng r (Or.inl rfl) h)
              · rw [if_neg hmn] at h
                simp only [Bool.not_eq_true] at hmn
                have hext2 : Ext s1 { s1 with
                    activated := s1.activated ++ [some i],
                    undiscovered := s1.undiscovered - 1,
                    img := updImg s1.img i
                      (calculate_mines_and_flags
                        { s1 with activated := s1.activated ++ [some i],
                                  undiscovered := s1.undiscovered - 1 } i).1 } := by
                  have := ext_append (s := s1)
                    (g := updImg s1.img i
                      (calculate_mines_and_flags
                        { s1 with activated := s1.activated ++ [some i],
                                  undiscovered := s1.undiscovered - 1 } i).1)
                    (u := s1.undiscovered - 1) hac hm (Or.inr ⟨i, hi, rfl⟩)
                    (by rw [hmn]; simp)
                  exact this
                split at h
                · -- zero count and check_adjacent: cascade then check_win
                  cases heq : activate_adjacent f
                      { s1 with activated := s1.activated ++ [some i],
                                undiscovered := s1.undiscovered - 1,
                                img := updImg s1.img i
                                  (calculate_mines_and_flags
                                    { s1 with
                                        activated := s1.activated ++ [some i],
                                        undiscovered := s1.undiscovered - 1 }
                                    i).1 } i rng with
                  | none =>
                    rw [heq] at h
                    exact absurd h (by simp)
                  | some pr =>
                    rw [heq] at h
                    obtain ⟨s5, ok⟩ := pr
                    cases ok with
                    | false =>
                      dsimp only at h
                      simp only [Option.some.injEq] at h
                      subst h
                      exact (hext1.trans hext2).trans (ihJ _ _ rng _ heq)
                    | true =>
                      dsimp only at h
                      exact ((hext1.trans hext2).trans
                        (ihJ _ _ rng _ heq)).trans (ihW s5 rng r h)
                · exact (hext1.trans hext2).trans (ihW _ rng r h)
    · -- activate_adjacent
      intro s i rng r h
      simp only [activate_adjacent] at h
      exact ihG s (nbhd s i) rng r h
    · -- adjacent_go
      intro s ps rng r h
      cases ps with
      | nil =>
        simp only [adjacent_go, Option.some.injEq] at h
        subst h
        exact Ext.refl s
      | cons p rest =>
        simp only [adjacent_go] at h
        by_cases hac : get_square s p.1 p.2 ∈ s.activated
        · rw [if_pos hac] at h
          exact ihG s rest rng r h
        · rw [if_neg hac] at h
          cases hsq : get_square s p.1 p.2 with
          | none =>
            rw [hsq] at h
            exact ihG s rest rng r h
          | some j =>
            rw [hsq] at h
            cases heq : activate_square f s p.1 p.2 true rng with
            | none =>
              rw [heq] at h
              exact absurd h (by simp)
            | some pr =>
              rw [heq] at h
              obtain ⟨s', ok⟩ := pr
              cases ok with
              | false =>
                dsimp only at h
                simp only [Option.some.injEq] at h
                subst h
                exact ihA _ _ _ _ rng _ heq
              | true =>
                dsimp only at h
                exact (ihA _ _ _ _ rng _ heq).trans (ihG s' rest rng r h)
    · -- end_game
      intro s msg rng r hmsg h
      simp only [end_game] at h
      cases heq : end_go f s (allCoords s) rng with
      | none =>
        rw [heq] at h
        exact absurd h (by simp)
      | some pr =>
        rw [heq] at h
        obtain ⟨s', ok⟩ := pr
        cases ok with
        | false =>
          dsimp only at h
          simp only [Option.some.injEq] at h
          subst h
          exact ihO _ _ rng _ heq
        | true =>
          dsimp only at h
          simp only [Option.some.injEq] at h
          subst h
          exact (ihO _ _ rng _ heq).trans (ext_end_final hmsg)
    · -- end_go
      intro s ps rng r h
      cases ps with
      | nil =>
        simp only [end_go, Option.some.injEq] at h
        subst h
        exact Ext.refl s
      | cons p rest =>
        simp only [end_go] at h
        by_cases hac : get_square s p.1 p.2 ∈ s.activated
        · rw [if_pos hac] at h
          exact ihO s rest rng r h
        · rw [if_neg hac] at h
          cases heq : activate_square f s p.1 p.2 false rng with
          | none =>
            rw [heq] at h
            exact absurd h (by simp)
          | some pr =>
            rw [heq] at h
            obtain ⟨s', ok⟩ := pr
            cases ok with
            | false =>
              dsimp only at h
              simp only [Option.some.injEq] at h
              subst h
              exact ihA _ _ _ _ rng _ heq
            | true =>
              dsimp only at h
              exact (ihA _ _ _ _ rng _ heq).trans (ihO s' rest rng r h)
    · -- check_win
      intro s rng r h
      simp only [check_win] at h
      by_cases hc : s.undiscovered ≤ 0
      · rw [if_pos hc] at h
        exact ihE s "You won" rng r (Or.inr rfl) h
      · rw [if_neg hc] at h
        simp only [Option.some.injEq] at h
        subst h
        exact Ext.refl s

theorem ext_activate {f : Nat} {s : GameState} {x y : Int} {ca : Bool}
    {rng : List Nat} {r : GameState × Bool}
    (h : activate_square f s x y ca rng = some r) : Ext s r.1 :=
  (ext_all f).1 s x y ca rng r h

theorem ext_adjacent {f : Nat} {s : GameState} {i : Nat} {rng : List Nat}
    {r : GameState × Bool} (h : activate_adjacent f s i rng = some r) :
    Ext s r.1 :=
  (ext_all f).2.1 s i rng r h

theorem ext_adjacent_go {f : Nat} {s : GameState} {ps : List (Int × Int)}
    {rng : List Nat} {r : GameState × Bool}
    (h : adjacent_go f s ps rng = some r) : Ext s r.1 :=
  (ext_all f).2.2.1 s ps rng r h

theorem ext_end_game {f : Nat} {s : GameState} {msg : String} {rng : List Nat}
    {r : GameState × Bool} (hmsg : msg = "You lose" ∨ msg = "You won")
    (h : end_game f s msg rng = some r) : Ext s r.1 :=
  (ext_all f).2.2.2.1 s msg rng r hmsg h

theorem ext_end_go {f : Nat} {s : GameState} {ps : List (Int × Int)}
    {rng : List Nat} {r : GameState × Bool}
    (h : end_go f s ps rng = some r) : Ext s r.1 :=
  (ext_all f).2.2.2.2.1 s ps rng r h

theorem ext_check_win {f : Nat} {s : GameState} {rng : List Nat}
    {r : GameState × Bool} (h : check_win f s rng = some r) : Ext s r.1 :=
  (ext_all f).2.2.2.2.2 s rng r h

theorem Ext.act_mono {s s' : GameState} (e : Ext s s') {q : Square}
    (h : q ∈ s.activated) : q ∈ s'.activated := by
  obtain ⟨l, hl⟩ := e.act_ext
  simp [hl, h]

/-! ## Games and reachable states -/

/-- `newGame(size, mineCount)` of the specified engine interface: a fresh
game on an `n` by `n` grid with `m` mines to be placed.  The program's
`start_game` is `new_game 10 m` with `m` read from the spinbox. -/
def new_game (n m : Nat) : GameState :=
  { size := n
    mineCount := m
    marked := []
    activated := []
    mines := []
    minesLabel := (m : Int)
    undiscovered := ((n * n : Nat) : Int) - (m : Int)
    img := fun _ => 10
    ending := ""
    bound := true }

theorem start_game_eq_new_game (m : Nat) : start_game m = new_game 10 m := rfl

/-- `rng` is a legitimate return value of `random.sample(pop, k)`:
`k` distinct elements of the population. -/
def SampleOk (pop : List Nat) (k : Nat) (rng : List Nat) : Prop :=
  rng.Nodup ∧ rng.length = k ∧ ∀ i ∈ rng, i ∈ pop

/-- A sample that `random.sample` could return for a first click at
`(x, y)` (irrelevant when mines are already generated). -/
def SampleFor (s : GameState) (x y : Int) (rng : List Nat) : Prop :=
  s.activated = [] →
    SampleOk (sampleUniverse s (idx s x y)) s.mineCount rng

instance (s : GameState) (x y : Int) : Decidable (InRange s x y) := by
  unfold InRange
  exact inferInstance

instance (pop : List Nat) (k : Nat) (rng : List Nat) :
    Decidable (SampleOk pop k rng) := by
  unfold SampleOk
  exact inferInstance

/-- The states one game can reach: a fresh game followed by any sequence of
in-range clicks, while the mouse bindings are still attached.  Reveal steps
carry the sample the random generator produced. -/
inductive Reachable : GameState → Prop
  | start (n m : Nat) (hn : 0 < n) (hm : m < n * n) : Reachable (new_game n m)
  | flag (s : GameState) (x y : Int) (hs : Reachable s) (hb : s.bound = true)
      (hr : InRange s x y) : Reachable (mark_square s x y).1
  | reveal (s : GameState) (x y : Int) (rng : List Nat) (f : Nat)
      (s' : GameState) (hs : Reachable s) (hb : s.bound = true)
      (hr : InRange s x y) (hsmp : SampleFor s x y rng)
      (h : activate_square f s x y true rng = some (s', true)) : Reachable s'

theorem mem_sampleUniverse {s : GameState} {j i : Nat} (hj : j < nsq s) :
    i ∈ sampleUniverse s j ↔ i < nsq s ∧ i ≠ j := by
  unfold sampleUniverse
  rw [List.mem_eraseIdx_iff_getElem]
  constructor
  · rintro ⟨k, hk, hkj, rfl⟩
    simp only [List.getElem_range]
    simp only [List.length_range] at hk
    exact ⟨hk, hkj⟩
  · rintro ⟨hi, hij⟩
    exact ⟨i, by simpa using hi, hij, by simp⟩

theorem length_sampleUniverse {s : GameState} {j : Nat} (hj : j < nsq s) :
    (sampleUniverse s j).length = nsq s - 1 := by
  unfold sampleUniverse
  rw [List.length_eraseIdx]
  simp [hj]

/-- What the mine list of the result of a reveal can be: unchanged, or (on a
first click) extended by the sample. -/
theorem activate_mines {f : Nat} {s : GameState} {x y : Int} {ca : Bool}
    {rng : List Nat} {r : GameState × Bool}
    (h : activate_square f s x y ca rng = some r) :
    r.1.mines = s.mines ∨ (s.activated = [] ∧ r.1.mines = s.mines ++ rng) := by
  match f with
  | 0 => simp [activate_square] at h
  | f + 1 =>
    simp only [activate_square] at h
    split at h
    · simp only [Option.some.injEq] at h
      subst h
      exact Or.inl rfl
    · next s1 hfc =>
      have htail : r.1.mines = s1.mines := by
        by_cases hm : get_square s1 x y ∈ s1.marked
        · rw [if_pos hm] at h
          simp only [Option.some.injEq] at h
          subst h
          rfl
        · rw [if_neg hm] at h
          by_cases hac : get_square s1 x y ∈ s1.activated
          · rw [if_pos hac] at h
            cases hsq : get_square s1 x y with
            | none =>
              rw [hsq] at h
              dsimp only at h
              simp only [Option.some.injEq] at h
              subst h
              rfl
            | some i =>
              rw [hsq] at h
              dsimp only at h
              split at h
              · have hne : s1.activated ≠ [] := by
                  intro he
                  rw [hsq, he] at hac
                  simp at hac
                exact (ext_adjacent h).mines_eq hne
              · simp only [Option.some.injEq] at h
                subst h
                rfl
          · rw [if_neg hac] at h
            cases hsq : get_square s1 x y with
            | none =>
              rw [hsq] at h
              dsimp only at h
              simp only [memMines, Bool.false_eq_true, if_false,
                Option.some.injEq] at h
              subst h
              rfl
            | some i =>
              rw [hsq] at h
              dsimp only at h
              have hne2 : ({ s1 with activated := s1.activated ++ [some i]}
                  : GameState).activated ≠ [] := by simp
              split at h
              · -- mine branch: end_game from the appended state
                have := (ext_end_game (Or.inl rfl) h).mines_eq hne2
                exact this
              · -- safe branch
                split at h
                · -- cascade then check_win
                  cases heq : activate_adjacent f
                      { s1 with activated := s1.activated ++ [some i],
                                undiscovered := s1.undiscovered - 1,
                                img := updImg s1.img i
                                  (calculate_mines_and_flags
                                    { s1 with
                                        activated := s1.activated ++ [some i],
                                        undiscovered := s1.undiscovered - 1 }
                                    i).1 } i rng with
                  | none =>
                    rw [heq] at h
                    exact absurd h (by simp)
                  | some pr =>
                    rw [heq] at h
                    obtain ⟨s5, ok⟩ := pr
                    have h5 : s5.mines = s1.mines := (ext_adjacent heq).mines_eq hne2
                    cases ok with
                    | false =>
                      dsimp only at h
                      simp only [Option.some.injEq] at h
                      subst h
                      exact h5
                    | true =>
                      dsimp only at h
                      have h6 := (ext_check_win h).mines_eq
                      rw [h6, h5]
                      intro he
                      obtain ⟨l, hl⟩ := (ext_adjacent heq).act_ext
                      rw [he] at hl
                      simp at hl
                · have := (ext_check_win h).mines_eq hne2
                  exact this
      rcases first_click_cases hfc with h1 | ⟨h1, h2⟩
      · subst h1
        exact Or.inl htail
      · refine Or.inr ⟨h1, ?_⟩
        rw [htail, h2]

theorem get_square_congr {s t : GameState} (h : t.size = s.size)
    (x y : Int) : get_square t x y = get_square s x y := by
  unfold get_square
  rw [h]

theorem memMines_some {i : Nat} {l : List Nat} :
    memMines (some i) l = true ↔ i ∈ l := by
  simp [memMines]

theorem mem_allCoords {s : GameState} {x y : Int} :
    (x, y) ∈ allCoords s ↔ InRange s x y := by
  unfold allCoords InRange
  simp only [List.mem_flatMap, List.mem_map, List.mem_range, Prod.mk.injEq]
  constructor
  · rintro ⟨b, hb, a, ha, rfl, rfl⟩
    refine ⟨?_, ?_, ?_, ?_⟩ <;> (try simp only [Int.ofNat_eq_natCast]) <;> omega
  · rintro ⟨h1, h2, h3, h4⟩
    refine ⟨y.toNat, ?_, x.toNat, ?_, ?_, ?_⟩ <;>
      (try simp only [Int.ofNat_eq_natCast]) <;> omega

/-- After a successful reveal call, the clicked square is activated unless
it was flagged. -/
theorem activate_clicked {f : Nat} {s : GameState} {x y : Int} {ca : Bool}
    {rng : List Nat} {s' : GameState}
    (h : activate_square f s x y ca rng = some (s', true)) :
    get_square s x y ∈ s'.activated ∨ get_square s x y ∈ s.marked := by
  match f with
  | 0 => simp [activate_square] at h
  | f + 1 =>
    simp only [activate_square] at h
    split at h
    · simp at h
    · next s1 hfc =>
      obtain ⟨hext1, ha1, hmk1, hsz1, _, _, _, _, _⟩ := first_click_ext hfc
      have hgc : get_square s1 x y = get_square s x y := get_square_congr hsz1 x y
      rw [hgc] at h
      by_cases hm : get_square s x y ∈ s1.marked
      · rw [if_pos hm] at h
        rw [hmk1] at hm
        exact Or.inr hm
      · rw [if_neg hm] at h
        by_cases hac : get_square s x y ∈ s1.activated
        · rw [if_pos hac] at h
          rw [ha1] at hac
          left
          cases hsq : get_square s x y with
          | none =>
            rw [hsq] at h
            dsimp only at h
            simp at h
          | some i =>
            rw [hsq] at h
            dsimp only at h
            rw [hsq] at hac
            split at h
            · exact (ext_adjacent h).act_mono (hext1.act_mono hac)
            · simp only [Option.some.injEq, Prod.mk.injEq] at h
              rw [← h.1]
              exact hext1.act_mono hac
        · rw [if_neg hac] at h
          cases hsq : get_square s x y with
          | none =>
            rw [hsq] at h
            dsimp only at h
            simp only [memMines, Bool.false_eq_true, if_false] at h
            simp at h
          | some i =>
            rw [hsq] at h
            dsimp only at h
            have hmem : (some i : Square) ∈
                (s1.activated ++ [some i] : List Square) := by simp
            left
            split at h
            · exact (ext_end_game (Or.inl rfl) h).act_mono hmem
            · split at h
              · cases heq : activate_adjacent f
                    { s1 with activated := s1.activated ++ [some i],
                              undiscovered := s1.undiscovered - 1,
                              img := updImg s1.img i
                                (calculate_mines_and_flags
                                  { s1 with
                                      activated := s1.activated ++ [some i],
                                      undiscovered := s1.undiscovered - 1 }
                                  i).1 } i rng with
                | none =>
                  rw [heq] at h
                  exact absurd h (by simp)
                | some pr =>
                  rw [heq] at h
                  obtain ⟨s5, ok⟩ := pr
                  cases ok with
                  | false => simp at h
                  | true =>
                    dsimp only at h
                    exact (ext_check_win h).act_mono
                      ((ext_adjacent heq).act_mono hmem)
              · exact (ext_check_win h).act_mono hmem

/-- Every in-range square is activated or flagged. -/
def FullySwept (s : GameState) : Prop :=
  ∀ x y : Int, InRange s x y →
    some (idx s x y) ∈ s.activated ∨ some (idx s x y) ∈ s.marked

theorem FullySwept.mono {s s' : GameState} (e : Ext s s')
    (h : FullySwept s) : FullySwept s' := by
  intro x y hin
  have hin' : InRange s x y := by
    unfold InRange at hin ⊢
    rw [← e.size_eq]
    exact hin
  have hidx : idx s' x y = idx s x y := by
    unfold idx
    rw [e.size_eq]
  rw [hidx, e.marked_eq]
  rcases h x y hin' with h1 | h1
  · exact Or.inl (e.act_mono h1)
  · exact Or.inr h1

theorem InRange_congr {s t : GameState} (h : t.size = s.size) {x y : Int} :
    InRange t x y ↔ InRange s x y := by
  unfold InRange
  rw [h]

/-- Facts every engine call guarantees beyond `Ext`: the image of a square
that is already activated or flagged is not rewritten; the ending label is
unchanged, or set to the losing text, or set to the winning text with the
safe counter exhausted; and while the ending label is still empty no mine
has been newly activated. -/
structure AuxFacts (s s' : GameState) : Prop where
  img_stable : ∀ j, (some j ∈ s.activated ∨ some j ∈ s.marked) →
    s'.img j = s.img j
  text3 : s'.ending = s.ending ∨ s'.ending = "You lose" ∨
    (s'.ending = "You won" ∧ s'.undiscovered ≤ 0)
  nomine : s'.ending = "" → ∀ j ∈ s'.mines, some j ∈ s'.activated →
    some j ∈ s.activated

theorem auxFacts_refl (s : GameState) : AuxFacts s s :=
  ⟨fun _ _ => rfl, Or.inl rfl, fun _ _ _ h => h⟩

theorem auxFacts_trans {s s1 s2 : GameState} (hne1 : s1.activated ≠ [])
    (e1 : Ext s s1) (e2 : Ext s1 s2) (a : AuxFacts s s1) (b : AuxFacts s1 s2) :
    AuxFacts s s2 := by
  refine ⟨?_, ?_, ?_⟩
  · intro j hj
    have hj1 : some j ∈ s1.activated ∨ some j ∈ s1.marked := by
      rcases hj with h | h
      · exact Or.inl (e1.act_mono h)
      · rw [e1.marked_eq]
        exact Or.inr h
    rw [b.img_stable j hj1, a.img_stable j hj]
  · rcases b.text3 with h | h | h
    · rcases a.text3 with h' | h' | h'
      · exact Or.inl (h.trans h')
      · exact Or.inr (Or.inl (h.trans h'))
      · exact Or.inr (Or.inr ⟨h.trans h'.1, le_trans e2.und_le h'.2⟩)
    · exact Or.inr (Or.inl h)
    · exact Or.inr (Or.inr h)
  · intro hend j hjm hja
    have hend1 : s1.ending = "" := (e2.text hend).1
    have hm1 : j ∈ s1.mines := by
      rw [← e2.mines_eq hne1]
      exact hjm
    exact a.nomine hend1 j hm1 (b.nomine hend j hjm hja)

/-- `AuxFacts` for activating one fresh non-mine square. -/
theorem aux_append {s : GameState} {sq : Square} {g : Nat → Nat} {u : Int}
    (hg : ∀ j, (some j ∈ s.activated ∨ some j ∈ s.marked) → g j = s.img j)
    (hsafe : ∀ i, sq = some i → i ∉ s.mines) :
    AuxFacts s { s with activated := s.activated ++ [sq], img := g,
                        undiscovered := u } := by
  refine ⟨hg, Or.inl rfl, ?_⟩
  intro _ j hjm hja
  simp only [List.mem_append, List.mem_singleton] at hja
  rcases hja with h | h
  · exact h
  · exact absurd hjm (hsafe j h.symm)

/-- Composing `AuxFacts` through the (possible) first-click mine generation:
the generation step only touches the mine list, and every `AuxFacts` field
reads the pre-state only through fields the generation step preserves. -/
theorem aux_first_click_comp {s s1 s' : GameState} {e : Int} {rng : List Nat}
    (hfc : (if s.activated = [] then generate_mines s e rng else some s) =
      some s1)
    (b : AuxFacts s1 s') : AuxFacts s s' := by
  rcases first_click_cases hfc with h1 | ⟨h1, h2⟩
  · subst h1
    exact b
  · subst h2
    exact ⟨b.img_stable, b.text3, b.nomine⟩

/-- The grand pass over the six mutually recursive functions: each call
satisfies `AuxFacts`; in-range calls on a started game never raise; and a
completed `end_game` sets its message and unbinds the buttons. -/
theorem aux_all (f : Nat) :
    (∀ s x y ca rng s' ok, activate_square f s x y ca rng = some (s', ok) →
      AuxFacts s s' ∧ (s.activated ≠ [] → InRange s x y → ok = true)) ∧
    (∀ s i rng s' ok, s.activated ≠ [] →
      activate_adjacent f s i rng = some (s', ok) →
      AuxFacts s s' ∧ ok = true) ∧
    (∀ s ps rng s' ok, s.activated ≠ [] →
      adjacent_go f s ps rng = some (s', ok) →
      AuxFacts s s' ∧ ok = true) ∧
    (∀ s msg rng s' ok, s.activated ≠ [] →
      end_game f s msg rng = some (s', ok) →
      (∀ j, (some j ∈ s.activated ∨ some j ∈ s.marked) →
        s'.img j = s.img j) ∧ ok = true ∧ s'.ending = msg ∧
        s'.bound = false) ∧
    (∀ s ps rng s' ok, s.activated ≠ [] →
      (∀ p ∈ ps, InRange s p.1 p.2) →
      end_go f s ps rng = some (s', ok) →
      AuxFacts s s' ∧ ok = true) ∧
    (∀ s rng s' ok, s.activated ≠ [] →
      check_win f s rng = some (s', ok) →
      AuxFacts s s' ∧ ok = true) := by
  induction f with
  | zero =>
    refine ⟨fun s x y ca rng s' ok h => ?_, fun s i rng s' ok _ h => ?_,
      fun s ps rng s' ok _ h => ?_, fun s msg rng s' ok _ h => ?_,
      fun s ps rng s' ok _ _ h => ?_, fun s rng s' ok _ h => ?_⟩ <;>
      simp [activate_square, activate_adjacent, adjacent_go, end_game,
        end_go, check_win] at h
  | succ f ih =>
    obtain ⟨ihA, ihJ, ihG, ihE, ihO, ihW⟩ := ih
    refine ⟨?_, ?_, ?_, ?_, ?_, ?_⟩
    · -- activate_square
      intro s x y ca rng s' ok h
      simp only [activate_square] at h
      split at h
      · next hfc =>
        simp only [Option.some.injEq, Prod.mk.injEq] at h
        obtain ⟨h1, h2⟩ := h
        subst h1
        refine ⟨auxFacts_refl s, fun hne _ => ?_⟩
        rw [if_neg hne] at hfc
        simp at hfc
      · next s1 hfc =>
        obtain ⟨hext1, ha1, hmk1, hsz1, _, hend1, _, _, _⟩ :=
          first_click_ext hfc
        refine (fun step : AuxFacts s1 s' ∧
            (s.activated ≠ [] → InRange s x y → ok = true) =>
          ⟨aux_first_click_comp hfc step.1, step.2⟩) ?_
        by_cases hm : get_square s1 x y ∈ s1.marked
        · rw [if_pos hm] at h
          simp only [Option.some.injEq, Prod.mk.injEq] at h
          obtain ⟨h1, h2⟩ := h
          subst h1
          exact ⟨auxFacts_refl s1, fun _ _ => h2.symm⟩
        · rw [if_neg hm] at h
          by_cases hac : get_square s1 x y ∈ s1.activated
          · rw [if_pos hac] at h
            have hne1 : s1.activated ≠ [] := by
              intro he
              rw [he] at hac
              simp at hac
            cases hsq : get_square s1 x y with
            | none =>
              rw [hsq] at h
              dsimp only at h
              simp only [Option.some.injEq, Prod.mk.injEq] at h
              obtain ⟨h1, h2⟩ := h
              subst h1
              refine ⟨auxFacts_refl s1, fun _ hinr => ?_⟩
              rw [get_square_inRange ((InRange_congr hsz1).mpr hinr)] at hsq
              simp at hsq
            | some i =>
              rw [hsq] at h
              dsimp only at h
              split at h
              · obtain ⟨aux2, hok⟩ := ihJ s1 i rng s' ok hne1 h
                exact ⟨aux2, fun _ _ => hok⟩
              · simp only [Option.some.injEq, Prod.mk.injEq] at h
                obtain ⟨h1, h2⟩ := h
                subst h1
                exact ⟨auxFacts_refl s1, fun _ _ => h2.symm⟩
          · rw [if_neg hac] at h
            cases hsq : get_square s1 x y with
            | none =>
              rw [hsq] at h
              dsimp only at h
              simp only [memMines, Bool.false_eq_true, if_false,
                Option.some.injEq, Prod.mk.injEq] at h
              obtain ⟨h1, h2⟩ := h
              subst h1
              rw [hsq] at hac hm
              refine ⟨aux_append (fun _ _ => rfl) (by simp), fun _ hinr => ?_⟩
              exfalso
              have := get_square_inRange ((InRange_congr hsz1).mpr hinr)
              rw [hsq] at this
              simp at this
            | some i =>
              rw [hsq] at h
              dsimp only at h
              rw [hsq] at hac hm
              have hi : i < s1.size * s1.size :=
                (get_square_eq_some hsq).2.2
              have hne2 : ({ s1 with activated := s1.activated ++ [some i] }
                  : GameState).activated ≠ [] := by simp
              split at h
              · -- mine branch
                next hmn =>
                obtain ⟨himg, hok, hmsg, hbd⟩ := ihE _ "You lose" rng s' ok
                  (by simp) h
                refine ⟨⟨?_, Or.inr (Or.inl hmsg), ?_⟩, fun _ _ => hok⟩
                · intro j hj
                  have hji : j ≠ i := by
                    rintro rfl
                    rcases hj with hc | hc
                    · exact hac hc
                    · exact hm hc
                  have h2 := himg j (by
                    rcases hj with hc | hc
                    · exact Or.inl (by simp [hc])
                    · exact Or.inr hc)
                  rw [h2]
                  show updImg s1.img i _ j = s1.img j
                  unfold updImg
                  rw [if_neg hji]
                · intro hend
                  rw [hmsg] at hend
                  simp at hend
              · -- safe branch
                next hmn =>
                simp only [Bool.not_eq_true] at hmn
                have aux14 : AuxFacts s1 { s1 with
                    activated := s1.activated ++ [some i],
                    undiscovered := s1.undiscovered - 1,
                    img := updImg s1.img i
                      (calculate_mines_and_flags
                        { s1 with activated := s1.activated ++ [some i],
                                  undiscovered := s1.undiscovered - 1 } i).1 } := by
                  refine aux_append ?_ ?_
                  · intro j hj
                    have hji : j ≠ i := by
                      rintro rfl
                      rcases hj with hc | hc
                      · exact hac hc
                      · exact hm hc
                    unfold updImg
                    rw [if_neg hji]
                  · rintro i' hi' hmem
                    injection hi' with hi'
                    subst hi'
                    rw [← memMines_some] at hmem
                    rw [hmn] at hmem
                    simp at hmem
                have ext14 : Ext s1 { s1 with
                    activated := s1.activated ++ [some i],
                    undiscovered := s1.undiscovered - 1,
                    img := updImg s1.img i
                      (calculate_mines_and_flags
                        { s1 with activated := s1.activated ++ [some i],
                                  undiscovered := s1.undiscovered - 1 } i).1 } := by
                  refine ext_append hac hm (Or.inr ⟨i, hi, rfl⟩) ?_
                  rw [hmn]
                  simp
                split at h
                · -- zero count, cascading
                  cases heq : activate_adjacent f
                      { s1 with activated := s1.activated ++ [some i],
                                undiscovered := s1.undiscovered - 1,
                                img := updImg s1.img i
                                  (calculate_mines_and_flags
                                    { s1 with
                                        activated := s1.activated ++ [some i],
                                        undiscovered := s1.undiscovered - 1 }
                                    i).1 } i rng with
                  | none =>
                    rw [heq] at h
                    exact absurd h (by simp)
                  | some pr =>
                    rw [heq] at h
                    obtain ⟨s5, ok5⟩ := pr
                    obtain ⟨aux45, hok5⟩ := ihJ _ i rng s5 ok5 (by simp) heq
                    subst hok5
                    dsimp only at h
                    have hne5 : s5.activated ≠ [] := by
                      obtain ⟨l, hl⟩ := (ext_adjacent heq).act_ext
                      rw [hl]
                      simp
                    obtain ⟨aux5', hok'⟩ := ihW s5 rng s' ok hne5 h
                    have aux15 : AuxFacts s1 s5 :=
                      auxFacts_trans (by simp) ext14 (ext_adjacent heq) aux14 aux45
                    exact ⟨auxFacts_trans hne5 (ext14.trans (ext_adjacent heq))
                      (ext_check_win h) aux15 aux5', fun _ _ => hok'⟩
                · obtain ⟨aux4', hok'⟩ := ihW _ rng s' ok (by simp) h
                  exact ⟨auxFacts_trans (by simp) ext14 (ext_check_win h) aux14 aux4',
                    fun _ _ => hok'⟩
    · -- activate_adjacent
      intro s i rng s' ok hne h
      simp only [activate_adjacent] at h
      exact ihG s (nbhd s i) rng s' ok hne h
    · -- adjacent_go
      intro s ps rng s' ok hne h
      cases ps with
      | nil =>
        simp only [adjacent_go, Option.some.injEq, Prod.mk.injEq] at h
        obtain ⟨h1, h2⟩ := h
        subst h1
        exact ⟨auxFacts_refl s, h2.symm⟩
      | cons p rest =>
        simp only [adjacent_go] at h
        by_cases hac : get_square s p.1 p.2 ∈ s.activated
        · rw [if_pos hac] at h
          exact ihG s rest rng s' ok hne h
        · rw [if_neg hac] at h
          cases hsq : get_square s p.1 p.2 with
          | none =>
            rw [hsq] at h
            exact ihG s rest rng s' ok hne h
          | some j =>
            rw [hsq] at h
            cases heq : activate_square f s p.1 p.2 true rng with
            | none =>
              rw [heq] at h
              exact absurd h (by simp)
            | some pr =>
              rw [heq] at h
              obtain ⟨t, okt⟩ := pr
              obtain ⟨auxt, hokt⟩ := ihA s p.1 p.2 true rng t okt heq
              have hinr : InRange s p.1 p.2 := by
                obtain ⟨hin, _, _⟩ := get_square_eq_some hsq
                exact hin
              have hokt' := hokt hne hinr
              subst hokt'
              dsimp only at h
              have hnet : t.activated ≠ [] := by
                obtain ⟨l, hl⟩ := (ext_activate heq).act_ext
                rw [hl]
                simp [hne]
              obtain ⟨auxr, hokr⟩ := ihG t rest rng s' ok hnet h
              exact ⟨auxFacts_trans hnet (ext_activate heq)
                (ext_adjacent_go h) auxt auxr, hokr⟩
    · -- end_game
      intro s msg rng s' ok hne h
      simp only [end_game] at h
      cases heq : end_go f s (allCoords s) rng with
      | none =>
        rw [heq] at h
        exact absurd h (by simp)
      | some pr =>
        rw [heq] at h
        obtain ⟨t, okt⟩ := pr
        have hinr : ∀ p ∈ allCoords s, InRange s p.1 p.2 := by
          intro p hp
          obtain ⟨px, py⟩ := p
          exact mem_allCoords.mp hp
        obtain ⟨auxt, hokt⟩ := ihO s (allCoords s) rng t okt hne hinr heq
        subst hokt
        dsimp only at h
        simp only [Option.some.injEq, Prod.mk.injEq] at h
        obtain ⟨h1, h2⟩ := h
        subst h1
        refine ⟨?_, h2.symm, rfl, rfl⟩
        intro j hj
        exact auxt.img_stable j hj
    · -- end_go
      intro s ps rng s' ok hne hinr h
      cases ps with
      | nil =>
        simp only [end_go, Option.some.injEq, Prod.mk.injEq] at h
        obtain ⟨h1, h2⟩ := h
        subst h1
        exact ⟨auxFacts_refl s, h2.symm⟩
      | cons p rest =>
        simp only [end_go] at h
        have hinr' : ∀ q ∈ rest, InRange s q.1 q.2 := by
          intro q hq
          exact hinr q (by simp [hq])
        by_cases hac : get_square s p.1 p.2 ∈ s.activated
        · rw [if_pos hac] at h
          exact ihO s rest rng s' ok hne hinr' h
        · rw [if_neg hac] at h
          cases heq : activate_square f s p.1 p.2 false rng with
          | none =>
            rw [heq] at h
            exact absurd h (by simp)
          | some pr =>
            rw [heq] at h
            obtain ⟨t, okt⟩ := pr
            obtain ⟨auxt, hokt⟩ := ihA s p.1 p.2 false rng t okt heq
            have hokt' := hokt hne (hinr p (by simp))
            subst hokt'
            dsimp only at h
            have hnet : t.activated ≠ [] := by
              obtain ⟨l, hl⟩ := (ext_activate heq).act_ext
              rw [hl]
              simp [hne]
            have hinrt : ∀ q ∈ rest, InRange t q.1 q.2 := by
              intro q hq
              exact (InRange_congr (ext_activate heq).size_eq).mpr
                (hinr' q hq)
            obtain ⟨auxr, hokr⟩ := ihO t rest rng s' ok hnet hinrt h
            exact ⟨auxFacts_trans hnet (ext_activate heq)
              (ext_end_go h) auxt auxr, hokr⟩
    · -- check_win
      intro s rng s' ok hne h
      simp only [check_win] at h
      by_cases hc : s.undiscovered ≤ 0
      · rw [if_pos hc] at h
        obtain ⟨himg, hok, hmsg, hbd⟩ := ihE s "You won" rng s' ok hne h
        refine ⟨⟨himg, Or.inr (Or.inr ⟨hmsg, ?_⟩), ?_⟩, hok⟩
        · exact le_trans (ext_end_game (Or.inr rfl) h).und_le hc
        · intro hend
          rw [hmsg] at hend
          simp at hend
      · rw [if_neg hc] at h
        simp only [Option.some.injEq, Prod.mk.injEq] at h
        obtain ⟨h1, h2⟩ := h
        subst h1
        exact ⟨auxFacts_refl s, h2.symm⟩

/-- The sweep pass: `end_game` leaves every square activated or flagged,
and any call that changes the ending label has run such a sweep. -/
theorem sweep_all (f : Nat) :
    (∀ s x y ca rng s', s.activated ≠ [] →
      activate_square f s x y ca rng = some (s', true) →
      s'.ending = s.ending ∨ FullySwept s') ∧
    (∀ s i rng s', s.activated ≠ [] →
      activate_adjacent f s i rng = some (s', true) →
      s'.ending = s.ending ∨ FullySwept s') ∧
    (∀ s ps rng s', s.activated ≠ [] →
      adjacent_go f s ps rng = some (s', true) →
      s'.ending = s.ending ∨ FullySwept s') ∧
    (∀ s msg rng s', s.activated ≠ [] →
      end_game f s msg rng = some (s', true) → FullySwept s') ∧
    (∀ s ps rng s', s.activated ≠ [] →
      end_go f s ps rng = some (s', true) →
      ∀ p ∈ ps, get_square s p.1 p.2 ∈ s'.activated ∨
        get_square s p.1 p.2 ∈ s'.marked ∨ get_square s p.1 p.2 = none) ∧
    (∀ s rng s', s.activated ≠ [] →
      check_win f s rng = some (s', true) →
      s'.ending = s.ending ∨ FullySwept s') := by
  induction f with
  | zero =>
    refine ⟨fun s x y ca rng s' _ h => ?_, fun s i rng s' _ h => ?_,
      fun s ps rng s' _ h => ?_, fun s msg rng s' _ h => ?_,
      fun s ps rng s' _ h => ?_, fun s rng s' _ h => ?_⟩ <;>
      simp [activate_square, activate_adjacent, adjacent_go, end_game,
        end_go, check_win] at h
  | succ f ih =>
    obtain ⟨ihA, ihJ, ihG, ihE, ihO, ihW⟩ := ih
    refine ⟨?_, ?_, ?_, ?_, ?_, ?_⟩
    · -- activate_square
      intro s x y ca rng s' hne h
      simp only [activate_square] at h
      split at h
      · next hfc =>
        rw [if_neg hne] at hfc
        simp at hfc
      · next s1 hfc =>
        obtain ⟨hext1, ha1, hmk1, hsz1, _, hend1, _, _, _⟩ :=
          first_click_ext hfc
        have hne1 : s1.activated ≠ [] := by
          rw [ha1]
          exact hne
        have htx : ∀ t : GameState, t.ending = s1.ending →
            t.ending = s.ending := fun t ht => ht.trans hend1
        by_cases hm : get_square s1 x y ∈ s1.marked
        · rw [if_pos hm] at h
          simp only [Option.some.injEq, Prod.mk.injEq] at h
          obtain ⟨h1, _⟩ := h
          subst h1
          exact Or.inl hend1
        · rw [if_neg hm] at h
          by_cases hac : get_square s1 x y ∈ s1.activated
          · rw [if_pos hac] at h
            cases hsq : get_square s1 x y with
            | none =>
              rw [hsq] at h
              dsimp only at h
              simp at h
            | some i =>
              rw [hsq] at h
              dsimp only at h
              split at h
              · rcases ihJ s1 i rng s' hne1 h with h1 | h1
                · exact Or.inl (htx _ h1)
                · exact Or.inr h1
              · simp only [Option.some.injEq, Prod.mk.injEq] at h
                obtain ⟨h1, _⟩ := h
                subst h1
                exact Or.inl hend1
          · rw [if_neg hac] at h
            cases hsq : get_square s1 x y with
            | none =>
              rw [hsq] at h
              dsimp only at h
              simp only [memMines, Bool.false_eq_true, if_false,
                Option.some.injEq, Prod.mk.injEq] at h
              exact absurd h.2 (by simp)
            | some i =>
              rw [hsq] at h
              dsimp only at h
              split at h
              · exact Or.inr (ihE _ "You lose" rng s' (by simp) h)
              · split at h
                · cases heq : activate_adjacent f
                      { s1 with activated := s1.activated ++ [some i],
                                undiscovered := s1.undiscovered - 1,
                                img := updImg s1.img i
                                  (calculate_mines_and_flags
                                    { s1 with
                                        activated := s1.activated ++ [some i],
                                        undiscovered := s1.undiscovered - 1 }
                                    i).1 } i rng with
                  | none =>
                    rw [heq] at h
                    exact absurd h (by simp)
                  | some pr =>
                    rw [heq] at h
                    obtain ⟨s5, ok5⟩ := pr
                    cases ok5 with
                    | false =>
                      dsimp only at h
                      simp only [Option.some.injEq, Prod.mk.injEq] at h
                      exact absurd h.2 (by simp)
                    | true =>
                      dsimp only at h
                      have hne5 : s5.activated ≠ [] := by
                        obtain ⟨l, hl⟩ := (ext_adjacent heq).act_ext
                        rw [hl]
                        simp
                      rcases ihW s5 rng s' hne5 h with h1 | h1
                      · rcases ihJ _ i rng s5 (by simp) heq with h2 | h2
                        · exact Or.inl (htx _ (h1.trans h2))
                        · exact Or.inr (FullySwept.mono (ext_check_win h) h2)
                      · exact Or.inr h1
                · rcases ihW _ rng s' (by simp) h with h1 | h1
                  · exact Or.inl (htx _ h1)
                  · exact Or.inr h1
    · -- activate_adjacent
      intro s i rng s' hne h
      simp only [activate_adjacent] at h
      exact ihG s (nbhd s i) rng s' hne h
    · -- adjacent_go
      intro s ps rng s' hne h
      cases ps with
      | nil =>
        simp only [adjacent_go, Option.some.injEq, Prod.mk.injEq] at h
        obtain ⟨h1, _⟩ := h
        subst h1
        exact Or.inl rfl
      | cons p rest =>
        simp only [adjacent_go] at h
        by_cases hac : get_square s p.1 p.2 ∈ s.activated
        · rw [if_pos hac] at h
          exact ihG s rest rng s' hne h
        · rw [if_neg hac] at h
          cases hsq : get_square s p.1 p.2 with
          | none =>
            rw [hsq] at h
            exact ihG s rest rng s' hne h
          | some j =>
            rw [hsq] at h
            cases heq : activate_square f s p.1 p.2 true rng with
            | none =>
              rw [heq] at h
              exact absurd h (by simp)
            | some pr =>
              rw [heq] at h
              obtain ⟨t, okt⟩ := pr
              cases okt with
              | false =>
                dsimp only at h
                simp only [Option.some.injEq, Prod.mk.injEq] at h
                exact absurd h.2 (by simp)
              | true =>
                dsimp only at h
                have hnet : t.activated ≠ [] := by
                  obtain ⟨l, hl⟩ := (ext_activate heq).act_ext
                  rw [hl]
                  simp [hne]
                rcases ihG t rest rng s' hnet h with h1 | h1
                · rcases ihA s p.1 p.2 true rng t hne heq with h2 | h2
                  · exact Or.inl (h1.trans h2)
                  · exact Or.inr (FullySwept.mono (ext_adjacent_go h) h2)
                · exact Or.inr h1
    · -- end_game
      intro s msg rng s' hne h
      simp only [end_game] at h
      cases heq : end_go f s (allCoords s) rng with
      | none =>
        rw [heq] at h
        exact absurd h (by simp)
      | some pr =>
        rw [heq] at h
        obtain ⟨t, okt⟩ := pr
        cases okt with
        | false =>
          dsimp only at h
          simp only [Option.some.injEq, Prod.mk.injEq] at h
          exact absurd h.2 (by simp)
        | true =>
          dsimp only at h
          simp only [Option.some.injEq, Prod.mk.injEq] at h
          obtain ⟨h1, _⟩ := h
          subst h1
          have hcov := ihO s (allCoords s) rng t hne heq
          intro x y hin
          have hszt : t.size = s.size := (ext_end_go heq).size_eq
          have hin' : InRange s x y := (InRange_congr (by simp [hszt])).mp hin
          have hp : ((x, y) : Int × Int) ∈ allCoords s := mem_allCoords.mpr hin'
          have := hcov (x, y) hp
          rw [get_square_inRange hin'] at this
          have hidx : idx ({ t with ending := msg, bound := false } :
              GameState) x y = idx s x y := by
            unfold idx
            rw [show ({ t with ending := msg, bound := false } :
              GameState).size = s.size from hszt]
          rcases this with h2 | h2 | h2
          · exact Or.inl (by rw [hidx]; exact h2)
          · exact Or.inr (by rw [hidx]; exact h2)
          · simp at h2
    · -- end_go
      intro s ps rng s' hne h
      cases ps with
      | nil =>
        intro q hq
        simp at hq
      | cons p rest =>
        simp only [end_go] at h
        by_cases hac : get_square s p.1 p.2 ∈ s.activated
        · rw [if_pos hac] at h
          intro q hq
          simp only [List.mem_cons] at hq
          rcases hq with rfl | hq
          · exact Or.inl ((ext_end_go h).act_mono hac)
          · exact ihO s rest rng s' hne h q hq
        · rw [if_neg hac] at h
          cases heq : activate_square f s p.1 p.2 false rng with
          | none =>
            rw [heq] at h
            exact absurd h (by simp)
          | some pr =>
            rw [heq] at h
            obtain ⟨t, okt⟩ := pr
            cases okt with
            | false =>
              dsimp only at h
              simp only [Option.some.injEq, Prod.mk.injEq] at h
              exact absurd h.2 (by simp)
            | true =>
              dsimp only at h
              have hnet : t.activated ≠ [] := by
                obtain ⟨l, hl⟩ := (ext_activate heq).act_ext
                rw [hl]
                simp [hne]
              have hszt : t.size = s.size := (ext_activate heq).size_eq
              intro q hq
              simp only [List.mem_cons] at hq
              rcases hq with rfl | hq
              · rcases activate_clicked heq with h2 | h2
                · exact Or.inl ((ext_end_go h).act_mono h2)
                · rw [(ext_end_go h).marked_eq, (ext_activate heq).marked_eq]
                  exact Or.inr (Or.inl h2)
              · have := ihO t rest rng s' hnet h q hq
                rw [get_square_congr hszt] at this
                exact this
    · -- check_win
      intro s rng s' hne h
      simp only [check_win] at h
      by_cases hc : s.undiscovered ≤ 0
      · rw [if_pos hc] at h
        exact Or.inr (ihE s "You won" rng s' hne h)
      · rw [if_neg hc] at h
        simp only [Option.some.injEq, Prod.mk.injEq] at h
        obtain ⟨h1, _⟩ := h
        subst h1
        exact Or.inl rfl

theorem aux_activate {f : Nat} {s : GameState} {x y : Int} {ca : Bool}
    {rng : List Nat} {s' : GameState} {ok : Bool}
    (h : activate_square f s x y ca rng = some (s', ok)) : AuxFacts s s' :=
  ((aux_all f).1 s x y ca rng s' ok h).1

theorem okt_activate {f : Nat} {s : GameState} {x y : Int} {ca : Bool}
    {rng : List Nat} {s' : GameState} {ok : Bool} (hne : s.activated ≠ [])
    (hinr : InRange s x y)
    (h : activate_square f s x y ca rng = some (s', ok)) : ok = true :=
  ((aux_all f).1 s x y ca rng s' ok h).2 hne hinr

theorem end_game_spec {f : Nat} {s : GameState} {msg : String}
    {rng : List Nat} {s' : GameState} {ok : Bool} (hne : s.activated ≠ [])
    (h : end_game f s msg rng = some (s', ok)) :
    (∀ j, (some j ∈ s.activated ∨ some j ∈ s.marked) →
      s'.img j = s.img j) ∧ ok = true ∧ s'.ending = msg ∧ s'.bound = false :=
  (aux_all f).2.2.2.1 s msg rng s' ok hne h

/-- Revealing an unflagged, unrevealed mine on a started game: the game is
lost, the board is unbound, the square is shown as the exploded bomb. -/
theorem activate_mine_lose {f : Nat} {s : GameState} {x y : Int} {i : Nat}
    {rng : List Nat} {s' : GameState} {ok : Bool}
    (hne : s.activated ≠ []) (hsq : get_square s x y = some i)
    (hmn : i ∈ s.mines) (hnm : some i ∉ s.marked) (hna : some i ∉ s.activated)
    (h : activate_square f s x y true rng = some (s', ok)) :
    ok = true ∧ s'.ending = "You lose" ∧ s'.bound = false ∧
      some i ∈ s'.activated ∧ s'.img i = 12 := by
  match f with
  | 0 => simp [activate_square] at h
  | f + 1 =>
    simp only [activate_square] at h
    rw [if_neg hne] at h
    dsimp only at h
    rw [hsq, if_neg hnm, if_neg hna] at h
    have hmem : memMines (some i)
        ({ s with activated := s.activated ++ [some i] } : GameState).mines =
        true := memMines_some.mpr hmn
    rw [if_pos hmem] at h
    dsimp only at h
    obtain ⟨himg, hok, hmsg, hbd⟩ := end_game_spec (by simp) h
    subst hok
    refine ⟨rfl, hmsg, hbd, ?_, ?_⟩
    · exact (ext_end_game (Or.inl rfl) h).act_mono (by simp)
    · have := himg i (Or.inl (by simp))
      rw [this]
      show updImg s.img i _ i = 12
      unfold updImg
      simp

/-! ## C1: first-click safety -/

/-- C1.  First-click safety: a first reveal at in-range `(x, y)` on a fresh
game places exactly `mineCount` distinct mines, all drawn from the grid
minus the clicked square, so the clicked square is revealed and is not a
mine. -/
theorem C1_first_click_safety (n m : Nat) (x y : Int) (rng : List Nat)
    (f : Nat) (r : GameState × Bool) (hm : m < n * n)
    (hin : InRange (new_game n m) x y)
    (hs : SampleOk (sampleUniverse (new_game n m) (idx (new_game n m) x y))
      m rng)
    (h : activate_square f (new_game n m) x y true rng = some r) :
    r.1.mines.length = m ∧ r.1.mines.Nodup ∧
      (∀ i ∈ r.1.mines, i < n * n) ∧ idx (new_game n m) x y ∉ r.1.mines ∧
      some (idx (new_game n m) x y) ∈ r.1.activated ∧ r.2 = true := by
  obtain ⟨hx0, hxn, hy0, hyn⟩ := hin
  obtain ⟨hnd, hlen, hmem⟩ := hs
  set s0 := new_game n m with hs0
  have hnsq : nsq s0 = n * n := rfl
  have he1 : (0:Int) ≤ y * ((s0.size : Nat) : Int) + x := by
    have : (s0.size : Int) = (n : Int) := rfl
    rw [this]
    nlinarith
  have he2 : y * ((s0.size : Nat) : Int) + x < ((n * n : Nat) : Int) := by
    have hsz : (s0.size : Int) = (n : Int) := rfl
    rw [hsz]
    push_cast
    nlinarith
  have hidx : idx s0 x y < n * n := by
    unfold idx
    omega
  have hsmem : ∀ i ∈ rng, i < n * n ∧ i ≠ idx s0 x y := by
    intro i hi
    have := hmem i hi
    rw [mem_sampleUniverse (by rw [hnsq]; exact hidx)] at this
    rw [hnsq] at this
    exact this
  have hg : generate_mines s0 (y * ((s0.size : Nat) : Int) + x) rng =
      some { s0 with mines := s0.mines ++ rng } := by
    unfold generate_mines
    rw [if_neg, if_neg]
    · rw [length_sampleUniverse]
      · show ¬(nsq s0 - 1 < m)
        rw [hnsq]
        omega
      · show popIdx (nsq s0) _ < nsq s0
        unfold popIdx
        rw [if_neg (by omega)]
        rw [hnsq]
        omega
    · rw [hnsq]
      push_cast at he2 ⊢
      omega
  match f with
  | 0 => simp [activate_square] at h
  | f + 1 =>
    simp only [activate_square] at h
    have hact : s0.activated = [] := rfl
    rw [if_pos hact, hg] at h
    dsimp only at h
    set s1 : GameState := { s0 with mines := s0.mines ++ rng } with hs1
    have hmines1 : s1.mines = rng := by
      rw [hs1]
      show s0.mines ++ rng = rng
      rw [hs0]
      rfl
    have hsq1 : get_square s1 x y = some (idx s1 x y) :=
      get_square_inRange ⟨hx0, hxn, hy0, hyn⟩
    have hidx1 : idx s1 x y = idx s0 x y := rfl
    have hnm1 : get_square s1 x y ∉ s1.marked := by
      rw [hsq1]
      show ¬ _ ∈ ([] : List Square)
      simp
    have hna1 : get_square s1 x y ∉ s1.activated := by
      rw [hsq1]
      show ¬ _ ∈ ([] : List Square)
      simp
    rw [if_neg hnm1, if_neg hna1, hsq1] at h
    dsimp only at h
    have hsafe : memMines (some (idx s1 x y))
        ({ s1 with activated := s1.activated ++ [some (idx s1 x y)] } :
          GameState).mines = false := by
      show memMines _ s1.mines = false
      rw [hmines1, Bool.eq_false_iff, Ne, memMines_some]
      intro hc
      exact (hsmem _ hc).2 hidx1
    rw [if_neg (by rw [hsafe]; simp)] at h
    try dsimp only at h
    have hmem2 : (some (idx s1 x y) : Square) ∈
        (s1.activated ++ [some (idx s1 x y)] : List Square) := by simp
    have final : ∀ t : GameState, Ext { s1 with
        activated := s1.activated ++ [some (idx s1 x y)],
        undiscovered := s1.undiscovered - 1,
        img := updImg s1.img (idx s1 x y)
          (calculate_mines_and_flags
            { s1 with activated := s1.activated ++ [some (idx s1 x y)],
                      undiscovered := s1.undiscovered - 1 }
            (idx s1 x y)).1 } t → r.1 = t →
        r.1.mines.length = m ∧ r.1.mines.Nodup ∧
        (∀ i ∈ r.1.mines, i < n * n) ∧ idx s0 x y ∉ r.1.mines ∧
        some (idx s0 x y) ∈ r.1.activated := by
      intro t het hrt
      subst hrt
      have hm2 : r.1.mines = rng := by
        rw [het.mines_eq (by simp)]
        exact hmines1
      refine ⟨by rw [hm2, hlen], by rw [hm2]; exact hnd, ?_, ?_, ?_⟩
      · intro i hi
        rw [hm2] at hi
        exact (hsmem i hi).1
      · rw [hm2]
        intro hc
        exact absurd rfl (hsmem _ hc).2
      · exact het.act_mono (by rw [← hidx1]; exact hmem2)
    split at h
    · -- zero adjacent mines: cascade, then check the win
      cases heq : activate_adjacent f
          { s1 with activated := s1.activated ++ [some (idx s1 x y)],
                    undiscovered := s1.undiscovered - 1,
                    img := updImg s1.img (idx s1 x y)
                      (calculate_mines_and_flags
                        { s1 with
                            activated := s1.activated ++ [some (idx s1 x y)],
                            undiscovered := s1.undiscovered - 1 }
                        (idx s1 x y)).1 } (idx s1 x y) rng with
      | none =>
        rw [heq] at h
        exact absurd h (by simp)
      | some pr =>
        rw [heq] at h
        obtain ⟨s5, ok5⟩ := pr
        have hok5 : ok5 = true := ((aux_all f).2.1 _ _ rng s5 ok5
          (by simp) heq).2
        subst hok5
        dsimp only at h
        have hne5 : s5.activated ≠ [] := by
          obtain ⟨l, hl⟩ := (ext_adjacent heq).act_ext
          rw [hl]
          simp
        have hokW : r.2 = true := by
          obtain ⟨t, okt⟩ := r
          exact ((aux_all f).2.2.2.2.2 s5 rng t okt hne5 h).2
        obtain ⟨t, okt⟩ := r
        refine ⟨?_, ?_, ?_, ?_, ?_, hokW⟩ <;>
          · have := final t ((ext_adjacent heq).trans (ext_check_win h)) rfl
            tauto
    · have hokW : r.2 = true := by
        obtain ⟨t, okt⟩ := r
        exact ((aux_all f).2.2.2.2.2 _ rng t okt (by simp) h).2
      obtain ⟨t, okt⟩ := r
      refine ⟨?_, ?_, ?_, ?_, ?_, hokW⟩ <;>
        · have := final t (ext_check_win h) rfl
          tauto

/-- A concrete run of the first reveal: fresh 10x10 game with one mine,
click at `(0, 0)`, sample `[11]`. -/
def c1r : GameState × Bool :=
  (activate_square 5 (new_game 10 1) 0 0 true [11]).getD (new_game 10 1, false)

/-- Witness for C1 at a concrete input. -/
theorem C1_witness :
    (1 < 10 * 10 ∧ InRange (new_game 10 1) 0 0 ∧
      SampleOk (sampleUniverse (new_game 10 1) (idx (new_game 10 1) 0 0))
        1 [11]) ∧
    (c1r.1.mines.length = 1 ∧ c1r.1.mines.Nodup ∧
      (∀ i ∈ c1r.1.mines, i < 10 * 10) ∧
      idx (new_game 10 1) 0 0 ∉ c1r.1.mines ∧
      some (idx (new_game 10 1) 0 0) ∈ c1r.1.activated ∧ c1r.2 = true) :=
  ⟨⟨by norm_num, by decide, by decide⟩,
    C1_first_click_safety 10 1 0 0 [11] 5 c1r (by norm_num) (by decide)
      (by decide) (by rfl)⟩

/-! ## C3: the mine list is generated again by a reveal issued while no
square is activated -/

/-- 10x10 game with 2 mines after flagging `(0, 0)`. -/
def c3s1 : GameState :=
  { size := 10, mineCount := 2, marked := [some 0], activated := [],
    mines := [], minesLabel := 1, undiscovered := 98,
    img := updImg (fun _ => 10) 0 11, ending := "", bound := true }

/-- The same game after the rejected reveal of the flagged `(0, 0)`:
nothing is activated, but a first batch of mines was generated. -/
def c3s2 : GameState :=
  { size := 10, mineCount := 2, marked := [some 0], activated := [],
    mines := [2, 12], minesLabel := 1, undiscovered := 98,
    img := updImg (fun _ => 10) 0 11, ending := "", bound := true }

/-- The same game after the next reveal, at `(1, 1)`: a second batch of
mines was generated and appended. -/
def c3s3 : GameState :=
  { size := 10, mineCount := 2, marked := [some 0], activated := [some 11],
    mines := [2, 12, 3, 13], minesLabel := 1, undiscovered := 97,
    img := updImg (updImg (fun _ => 10) 0 11) 11 2, ending := "",
    bound := true }

/-- C3.  The mine list is not generated exactly once: a reveal of a flagged
square on a fresh board generates mines but activates nothing, and the next
reveal generates a second batch, leaving `2 * mineCount` mines.  Each step
below is a legitimate in-range game command with a legitimate sample. -/
theorem C3_mines_generated_twice :
    mark_square (new_game 10 2) 0 0 = (c3s1, true) ∧
    activate_square 5 c3s1 0 0 true [2, 12] = some (c3s2, true) ∧
    activate_square 5 c3s2 1 1 true [3, 13] = some (c3s3, true) ∧
    SampleOk (sampleUniverse c3s1 (idx c3s1 0 0)) c3s1.mineCount [2, 12] ∧
    SampleOk (sampleUniverse c3s2 (idx c3s2 1 1)) c3s2.mineCount [3, 13] ∧
    c3s2.mines = [2, 12] ∧ c3s2.activated = [] ∧
    c3s3.mines.length = 2 * c3s3.mineCount ∧
    InRange c3s1 0 0 ∧ InRange c3s2 1 1 :=
  ⟨rfl, rfl, rfl, by decide, by decide, rfl, rfl, by decide, by decide,
    by decide⟩

/-! ## C7: out-of-range commands mutate state before raising -/

/-- C7.  An out-of-range `mark_square` call appends the `None` sentinel to
the flag list before `square.configure` raises: the flag list is mutated,
so the rejected command is not a no-op.  An out-of-range reveal on a
started game likewise appends the sentinel to the activated list and
decrements the safe counter before `calculate_mines_and_flags` raises. -/
theorem C7_out_of_range_mutates :
    ((mark_square (start_game 10) 10 0).1.marked = [none] ∧
      (mark_square (start_game 10) 10 0).2 = false ∧
      (start_game 10).marked = []) ∧
    ((activate_square 5 c3s3 10 0 true []).map
        (fun r => (r.1.activated, r.1.undiscovered, r.2)) =
      some ([some 11, none], 96, false) ∧
      c3s3.activated = [some 11] ∧ c3s3.undiscovered = 97) :=
  ⟨⟨rfl, rfl, rfl⟩, ⟨rfl, rfl, rfl⟩⟩

/-! ## Termination: enough fuel always exists -/

/-- Number of grid squares not yet activated: the measure that bounds the
recursion (each recursive descent activates a fresh square first). -/
def unact (s : GameState) : Nat :=
  ((Finset.range (nsq s)).filter (fun i => some i ∉ s.activated)).card

theorem unact_append {s t : GameState} {i : Nat} (hsz : t.size = s.size)
    (hact : t.activated = s.activated ++ [some i]) (hi : i < nsq s)
    (hna : some i ∉ s.activated) : unact t + 1 = unact s := by
  unfold unact
  have hn : nsq t = nsq s := by
    unfold nsq
    rw [hsz]
  rw [hn]
  have hset : (Finset.range (nsq s)).filter (fun j => some j ∉ t.activated) =
      ((Finset.range (nsq s)).filter (fun j => some j ∉ s.activated)).erase i := by
    ext j
    simp only [Finset.mem_filter, Finset.mem_erase, Finset.mem_range, hact,
      List.mem_append, List.mem_singleton, Option.some.injEq]
    constructor
    · rintro ⟨h1, h2⟩
      push_neg at h2
      exact ⟨h2.2, h1, h2.1⟩
    · rintro ⟨h1, h2, h3⟩
      refine ⟨h2, ?_⟩
      push_neg
      exact ⟨h3, h1⟩
  rw [hset]
  have hmem : i ∈ (Finset.range (nsq s)).filter
      (fun j => some j ∉ s.activated) := by
    simp only [Finset.mem_filter, Finset.mem_range]
    exact ⟨hi, hna⟩
  rw [Finset.card_erase_of_mem hmem]
  have := Finset.card_pos.mpr ⟨i, hmem⟩
  omega

theorem unact_mono {s t : GameState} (e : Ext s t) : unact t ≤ unact s := by
  unfold unact
  have hn : nsq t = nsq s := by
    unfold nsq
    rw [e.size_eq]
  rw [hn]
  apply Finset.card_le_card
  intro j hj
  simp only [Finset.mem_filter, Finset.mem_range] at hj ⊢
  refine ⟨hj.1, fun hc => hj.2 (e.act_mono hc)⟩

theorem allCoords_length (s : GameState) : (allCoords s).length = nsq s := by
  unfold allCoords nsq
  rw [List.length_flatMap]
  have key : ∀ l : List Nat, (l.map
      (List.length ∘ fun y => ((List.range s.size).map
        (fun x => (Int.ofNat x, Int.ofNat y))))).sum = l.length * s.size := by
    intro l
    induction l with
    | nil => simp
    | cons a l ih =>
      simp only [List.map_cons, List.sum_cons, List.length_cons,
        Function.comp_apply, List.length_map, List.length_range, ih]
      ring
  rw [key]
  simp [Nat.mul_comm]


/-- The linear step in the fuel accounting: a call at one more activated
square, plus an overhead of at most `n + 12`, fits under the caller's
budget. -/
theorem term_arith {u2 u1 n f k : Nat} (hu : u2 + 1 ≤ u1)
    (hb : (u1 + 1) * (n + 13) ≤ f + 1) (hk : k ≤ n + 12) :
    k + (u2 + 1) * (n + 13) ≤ f := by
  have h1 : (u2 + 2) * (n + 13) ≤ (u1 + 1) * (n + 13) :=
    Nat.mul_le_mul (by omega) (le_refl _)
  have h2 : (u2 + 2) * (n + 13) = (u2 + 1) * (n + 13) + (n + 13) := by ring
  omega

/-- Fuel sufficiency for the six mutually recursive functions: with fuel
proportional to the number of unactivated squares times the grid size (plus
a constant), no call runs out of fuel.  Since the fuel parameter only
models the call depth of the Python recursion, this is the termination of
`activate_square` and its helpers. -/
theorem term_all (f : Nat) :
    (∀ s x y ca rng, get_square s x y ∉ s.activated →
      (unact s + 1) * (nsq s + 13) ≤ f →
      (activate_square f s x y ca rng).isSome) ∧
    (∀ s x y ca rng, (unact s + 2) * (nsq s + 13) ≤ f →
      (activate_square f s x y ca rng).isSome) ∧
    (∀ s i rng, 11 + (unact s + 1) * (nsq s + 13) ≤ f →
      (activate_adjacent f s i rng).isSome) ∧
    (∀ s ps rng, ps.length + 1 + (unact s + 1) * (nsq s + 13) ≤ f →
      (adjacent_go f s ps rng).isSome) ∧
    (∀ s msg rng, nsq s + 2 + (unact s + 1) * (nsq s + 13) ≤ f →
      (end_game f s msg rng).isSome) ∧
    (∀ s ps rng, ps.length + 1 + (unact s + 1) * (nsq s + 13) ≤ f →
      (end_go f s ps rng).isSome) ∧
    (∀ s rng, nsq s + 3 + (unact s + 1) * (nsq s + 13) ≤ f →
      (check_win f s rng).isSome) := by
  induction f with
  | zero =>
    have hpos : ∀ s : GameState, 0 < (unact s + 1) * (nsq s + 13) :=
      fun s => Nat.mul_pos (Nat.succ_pos _) (by omega)
    have hpos2 : ∀ s : GameState, (unact s + 1) * (nsq s + 13) ≤
        (unact s + 2) * (nsq s + 13) :=
      fun s => Nat.mul_le_mul (by omega) (le_refl _)
    refine ⟨fun s x y ca rng _ hb => ?_, fun s x y ca rng hb => ?_,
      fun s i rng hb => ?_, fun s ps rng hb => ?_, fun s msg rng hb => ?_,
      fun s ps rng hb => ?_, fun s rng hb => ?_⟩ <;>
      (exfalso; have h1 := hpos s; have h2 := hpos2 s; omega)
  | succ f ih =>
    obtain ⟨ihF, ihA, ihJ, ihG, ihE, ihO, ihW⟩ := ih
    have A1 : ∀ s : GameState, ∀ x y : Int, ∀ ca : Bool, ∀ rng : List Nat,
        get_square s x y ∉ s.activated →
        (unact s + 1) * (nsq s + 13) ≤ f + 1 →
        (activate_square (f + 1) s x y ca rng).isSome := by
      intro s x y ca rng hfr hb
      simp only [activate_square]
      cases hfc : (if s.activated = [] then
          generate_mines s (y * (s.size : Int) + x) rng else some s) with
      | none => simp
      | some s1 =>
        obtain ⟨hext1, ha1, hmk1, hsz1, hund1, hend1, hbd1, hlb1, hmc1⟩ :=
          first_click_ext hfc
        have hgc : get_square s1 x y = get_square s x y :=
          get_square_congr hsz1 x y
        have hu1 : unact s1 = unact s := by
          unfold unact nsq
          rw [hsz1, ha1]
        have hn1 : nsq s1 = nsq s := by
          unfold nsq
          rw [hsz1]
        have hb1 : (unact s1 + 1) * (nsq s1 + 13) ≤ f + 1 := by
          rw [hu1, hn1]
          exact hb
        dsimp only
        by_cases hm : get_square s1 x y ∈ s1.marked
        · rw [if_pos hm]
          simp
        · rw [if_neg hm]
          have hac : get_square s1 x y ∉ s1.activated := by
            rw [hgc, ha1]
            exact hfr
          rw [if_neg hac]
          cases hsq : get_square s1 x y with
          | none =>
            dsimp only
            simp [memMines]
          | some i =>
            rw [hsq] at hac
            have hi : i < nsq s1 := (get_square_eq_some hsq).2.2
            dsimp only
            by_cases hmn : memMines (some i) s1.mines = true
            · rw [if_pos hmn]
              have hu3 : unact { s1 with
                  activated := s1.activated ++ [some i],
                  img := updImg s1.img i (if ca then 12 else 9) } + 1 =
                  unact s1 := unact_append rfl rfl hi hac
              refine ihE _ "You lose" rng ?_
              exact term_arith hu3.le hb1 (by omega)
            · rw [if_neg hmn]
              have hu4 : unact { s1 with
                  activated := s1.activated ++ [some i],
                  undiscovered := s1.undiscovered - 1,
                  img := updImg s1.img i
                    (calculate_mines_and_flags
                      { s1 with activated := s1.activated ++ [some i],
                                undiscovered := s1.undiscovered - 1 } i).1 } + 1 =
                  unact s1 := unact_append rfl rfl hi hac
              split
              · cases heq : activate_adjacent f
                    { s1 with activated := s1.activated ++ [some i],
                              undiscovered := s1.undiscovered - 1,
                              img := updImg s1.img i
                                (calculate_mines_and_flags
                                  { s1 with
                                      activated := s1.activated ++ [some i],
                                      undiscovered := s1.undiscovered - 1 }
                                  i).1 } i rng with
                | none =>
                  have hs := ihJ
                    { s1 with activated := s1.activated ++ [some i],
                              undiscovered := s1.undiscovered - 1,
                              img := updImg s1.img i
                                (calculate_mines_and_flags
                                  { s1 with
                                      activated := s1.activated ++ [some i],
                                      undiscovered := s1.undiscovered - 1 }
                                  i).1 } i rng
                    (term_arith hu4.le hb1 (by omega))
                  rw [heq] at hs
                  simp at hs
                | some pr =>
                  obtain ⟨s5, ok5⟩ := pr
                  cases ok5 with
                  | false => simp
                  | true =>
                    dsimp only
                    have e5 := ext_adjacent heq
                    dsimp only at e5
                    have h15 := unact_mono e5
                    have hu5 : unact s5 + 1 ≤ unact s1 := by omega
                    have hn5 : nsq s5 = nsq s1 := by
                      unfold nsq
                      rw [e5.size_eq]
                    refine ihW s5 rng ?_
                    rw [hn5]
                    exact term_arith hu5 hb1 (by omega)
              · refine ihW _ rng ?_
                exact term_arith hu4.le hb1 (by omega)
    refine ⟨A1, ?_, ?_, ?_, ?_, ?_, ?_⟩
    · -- activate_square on an arbitrary square
      intro s x y ca rng hb
      by_cases hfr : get_square s x y ∈ s.activated
      · have hne : s.activated ≠ [] := by
          intro h0
          rw [h0] at hfr
          simp at hfr
        simp only [activate_square]
        rw [if_neg hne]
        dsimp only
        by_cases hm : get_square s x y ∈ s.marked
        · rw [if_pos hm]
          simp
        · rw [if_neg hm]
          rw [if_pos hfr]
          cases hsq : get_square s x y with
          | none => simp
          | some i =>
            dsimp only
            by_cases hmf : (calculate_mines_and_flags s i).1 =
                (calculate_mines_and_flags s i).2
            · rw [if_pos hmf]
              have hb2 : (unact s + 1 + 1) * (nsq s + 13) ≤ f + 1 := by
                have he : unact s + 1 + 1 = unact s + 2 := rfl
                rw [he]
                exact hb
              exact ihJ s i rng (term_arith (le_refl _) hb2 (by omega))
            · rw [if_neg hmf]
              simp
      · have hmul : (unact s + 1) * (nsq s + 13) ≤
            (unact s + 2) * (nsq s + 13) :=
          Nat.mul_le_mul (by omega) (le_refl _)
        exact A1 s x y ca rng hfr (le_trans hmul hb)
    · -- activate_adjacent
      intro s i rng hb
      simp only [activate_adjacent]
      refine ihG s (nbhd s i) rng ?_
      have h9 : (nbhd s i).length = 9 := rfl
      rw [h9]
      omega
    · -- adjacent_go
      intro s ps rng hb
      cases ps with
      | nil => simp [adjacent_go]
      | cons p rest =>
        simp only [adjacent_go]
        simp only [List.length_cons] at hb
        by_cases hac : get_square s p.1 p.2 ∈ s.activated
        · rw [if_pos hac]
          exact ihG s rest rng (by omega)
        · rw [if_neg hac]
          cases hsq : get_square s p.1 p.2 with
          | none =>
            exact ihG s rest rng (by omega)
          | some j =>
            have hs := ihF s p.1 p.2 true rng hac (by omega)
            cases heq : activate_square f s p.1 p.2 true rng with
            | none =>
              rw [heq] at hs
              simp at hs
            | some pr =>
              obtain ⟨s', ok⟩ := pr
              cases ok with
              | false => simp
              | true =>
                dsimp only
                have e' := ext_activate heq
                dsimp only at e'
                have hup := unact_mono e'
                have hn' : nsq s' = nsq s := by
                  unfold nsq
                  rw [e'.size_eq]
                refine ihG s' rest rng ?_
                rw [hn']
                have hmul : (unact s' + 1) * (nsq s + 13) ≤
                    (unact s + 1) * (nsq s + 13) :=
                  Nat.mul_le_mul (by omega) (le_refl _)
                omega
    · -- end_game
      intro s msg rng hb
      simp only [end_game]
      have hs := ihO s (allCoords s) rng (by rw [allCoords_length]; omega)
      cases heq : end_go f s (allCoords s) rng with
      | none =>
        rw [heq] at hs
        simp at hs
      | some pr =>
        obtain ⟨s', ok⟩ := pr
        cases ok <;> simp
    · -- end_go
      intro s ps rng hb
      cases ps with
      | nil => simp [end_go]
      | cons p rest =>
        simp only [end_go]
        simp only [List.length_cons] at hb
        by_cases hac : get_square s p.1 p.2 ∈ s.activated
        · rw [if_pos hac]
          exact ihO s rest rng (by omega)
        · rw [if_neg hac]
          have hs := ihF s p.1 p.2 false rng hac (by omega)
          cases heq : activate_square f s p.1 p.2 false rng with
          | none =>
            rw [heq] at hs
            simp at hs
          | some pr =>
            obtain ⟨s', ok⟩ := pr
            cases ok with
            | false => simp
            | true =>
              dsimp only
              have e' := ext_activate heq
              dsimp only at e'
              have hup := unact_mono e'
              have hn' : nsq s' = nsq s := by
                unfold nsq
                rw [e'.size_eq]
              refine ihO s' rest rng ?_
              rw [hn']
              have hmul : (unact s' + 1) * (nsq s + 13) ≤
                  (unact s + 1) * (nsq s + 13) :=
                Nat.mul_le_mul (by omega) (le_refl _)
              omega
    · -- check_win
      intro s rng hb
      simp only [check_win]
      by_cases hc : s.undiscovered ≤ 0
      · rw [if_pos hc]
        exact ihE s "You won" rng (by omega)
      · rw [if_neg hc]
        simp

theorem unact_le_nsq (s : GameState) : unact s ≤ nsq s := by
  unfold unact
  calc ((Finset.range (nsq s)).filter (fun i => some i ∉ s.activated)).card
      ≤ (Finset.range (nsq s)).card := Finset.card_filter_le _ _
    _ = nsq s := Finset.card_range _

/-- C9: every reveal command terminates — call depth (modelled by the fuel
parameter) at most `(size² + 2) * (size² + 13)`, a bound depending only on
the grid cell count, for every state and every input, cascades and
end-of-game sweep included; and because an activated square is never
recursed on again, a run from a duplicate-free activated list keeps the
list duplicate-free (each square is revealed at most once). -/
theorem C9_reveal_terminates (s : GameState) (x y : Int) (ca : Bool)
    (rng : List Nat) (f : Nat)
    (hf : (nsq s + 2) * (nsq s + 13) ≤ f) :
    ∃ r : GameState × Bool, activate_square f s x y ca rng = some r ∧
      (s.activated.Nodup → r.1.activated.Nodup) := by
  have hu : unact s ≤ nsq s := unact_le_nsq s
  have hb : (unact s + 2) * (nsq s + 13) ≤ f :=
    le_trans (Nat.mul_le_mul (by omega) (le_refl _)) hf
  have hs := (term_all f).2.1 s x y ca rng hb
  obtain ⟨r, hr⟩ := Option.isSome_iff_exists.mp hs
  exact ⟨r, hr, fun hn => (ext_activate hr).nodup hn⟩

/-- Coverage of the 3x3 loop: a successful `adjacent_go` run leaves every
listed coordinate activated, flagged, or out of range. -/
theorem chord_cover (f : Nat) :
    ∀ s ps rng s', adjacent_go f s ps rng = some (s', true) →
      ∀ p ∈ ps, get_square s p.1 p.2 ∈ s'.activated ∨
        get_square s p.1 p.2 ∈ s'.marked ∨ get_square s p.1 p.2 = none := by
  induction f with
  | zero =>
    intro s ps rng s' h
    simp [adjacent_go] at h
  | succ f ih =>
    intro s ps rng s' h
    cases ps with
    | nil =>
      intro q hq
      simp at hq
    | cons p rest =>
      simp only [adjacent_go] at h
      by_cases hac : get_square s p.1 p.2 ∈ s.activated
      · rw [if_pos hac] at h
        intro q hq
        simp only [List.mem_cons] at hq
        rcases hq with rfl | hq
        · exact Or.inl ((ext_adjacent_go h).act_mono hac)
        · exact ih s rest rng s' h q hq
      · rw [if_neg hac] at h
        cases hsq : get_square s p.1 p.2 with
        | none =>
          rw [hsq] at h
          intro q hq
          simp only [List.mem_cons] at hq
          rcases hq with rfl | hq
          · exact Or.inr (Or.inr hsq)
          · exact ih s rest rng s' h q hq
        | some j =>
          rw [hsq] at h
          cases heq : activate_square f s p.1 p.2 true rng with
          | none =>
            rw [heq] at h
            exact absurd h (by simp)
          | some pr =>
            rw [heq] at h
            obtain ⟨t, okt⟩ := pr
            cases okt with
            | false =>
              dsimp only at h
              simp only [Option.some.injEq, Prod.mk.injEq] at h
              exact absurd h.2 (by simp)
            | true =>
              dsimp only at h
              have hszt : t.size = s.size := (ext_activate heq).size_eq
              intro q hq
              simp only [List.mem_cons] at hq
              rcases hq with rfl | hq
              · rcases activate_clicked heq with h2 | h2
                · exact Or.inl ((ext_adjacent_go h).act_mono h2)
                · rw [(ext_adjacent_go h).marked_eq,
                    (ext_activate heq).marked_eq]
                  exact Or.inr (Or.inl h2)
              · have := ih t rest rng s' h q hq
                rw [get_square_congr hszt] at this
                exact this

/-- A call that returns `ok = true` never appends the `None` sentinel to the
activated list: the sentinel is only appended on the exception paths, which
return `false`. -/
theorem none_all (f : Nat) :
    (∀ s x y ca rng s', activate_square f s x y ca rng = some (s', true) →
      none ∈ s'.activated → none ∈ s.activated) ∧
    (∀ s i rng s', activate_adjacent f s i rng = some (s', true) →
      none ∈ s'.activated → none ∈ s.activated) ∧
    (∀ s ps rng s', adjacent_go f s ps rng = some (s', true) →
      none ∈ s'.activated → none ∈ s.activated) ∧
    (∀ s msg rng s', end_game f s msg rng = some (s', true) →
      none ∈ s'.activated → none ∈ s.activated) ∧
    (∀ s ps rng s', end_go f s ps rng = some (s', true) →
      none ∈ s'.activated → none ∈ s.activated) ∧
    (∀ s rng s', check_win f s rng = some (s', true) →
      none ∈ s'.activated → none ∈ s.activated) := by
  induction f with
  | zero =>
    refine ⟨fun s x y ca rng s' h => ?_, fun s i rng s' h => ?_,
      fun s ps rng s' h => ?_, fun s msg rng s' h => ?_,
      fun s ps rng s' h => ?_, fun s rng s' h => ?_⟩ <;>
      simp [activate_square, activate_adjacent, adjacent_go, end_game,
        end_go, check_win] at h
  | succ f ih =>
    obtain ⟨ihA, ihJ, ihG, ihE, ihO, ihW⟩ := ih
    refine ⟨?_, ?_, ?_, ?_, ?_, ?_⟩
    · -- activate_square
      intro s x y ca rng s' h hn
      simp only [activate_square] at h
      split at h
      · simp at h
      · next s1 hfc =>
        obtain ⟨hext1, ha1, hmk1, hsz1, _, _, _, _, _⟩ := first_click_ext hfc
        have key : none ∈ s1.activated → none ∈ s.activated := by
          rw [ha1]
          exact id
        apply key
        by_cases hm : get_square s1 x y ∈ s1.marked
        · rw [if_pos hm] at h
          simp only [Option.some.injEq, Prod.mk.injEq] at h
          obtain ⟨h1, _⟩ := h
          subst h1
          exact hn
        · rw [if_neg hm] at h
          by_cases hac : get_square s1 x y ∈ s1.activated
          · rw [if_pos hac] at h
            cases hsq : get_square s1 x y with
            | none =>
              rw [hsq] at h
              dsimp only at h
              simp at h
            | some i =>
              rw [hsq] at h
              dsimp only at h
              split at h
              · exact ihJ s1 i rng s' h hn
              · simp only [Option.some.injEq, Prod.mk.injEq] at h
                obtain ⟨h1, _⟩ := h
                subst h1
                exact hn
          · rw [if_neg hac] at h
            cases hsq : get_square s1 x y with
            | none =>
              rw [hsq] at h
              dsimp only at h
              simp only [memMines, Bool.false_eq_true, if_false,
                Option.some.injEq, Prod.mk.injEq] at h
              exact absurd h.2 (by simp)
            | some i =>
              rw [hsq] at h
              dsimp only at h
              by_cases hmn : memMines (some i) s1.mines = true
              · rw [if_pos hmn] at h
                have h2 := ihE _ "You lose" rng s' h hn
                simp only [List.mem_append, List.mem_singleton] at h2
                rcases h2 with h2 | h2
                · exact h2
                · exact absurd h2 (by simp)
              · rw [if_neg hmn] at h
                split at h
                · cases heq : activate_adjacent f
                      { s1 with activated := s1.activated ++ [some i],
                                undiscovered := s1.undiscovered - 1,
                                img := updImg s1.img i
                                  (calculate_mines_and_flags
                                    { s1 with
                                        activated := s1.activated ++ [some i],
                                        undiscovered := s1.undiscovered - 1 }
                                    i).1 } i rng with
                  | none =>
                    rw [heq] at h
                    exact absurd h (by simp)
                  | some pr =>
                    rw [heq] at h
                    obtain ⟨s5, ok5⟩ := pr
                    cases ok5 with
                    | false =>
                      dsimp only at h
                      simp only [Option.some.injEq, Prod.mk.injEq] at h
                      exact absurd h.2 (by simp)
                    | true =>
                      dsimp only at h
                      have h2 := ihW s5 rng s' h hn
                      have h3 := ihJ _ i rng s5 heq h2
                      simp only [List.mem_append, List.mem_singleton] at h3
                      rcases h3 with h3 | h3
                      · exact h3
                      · exact absurd h3 (by simp)
                · have h2 := ihW _ rng s' h hn
                  simp only [List.mem_append, List.mem_singleton] at h2
                  rcases h2 with h2 | h2
                  · exact h2
                  · exact absurd h2 (by simp)
    · -- activate_adjacent
      intro s i rng s' h hn
      simp only [activate_adjacent] at h
      exact ihG s (nbhd s i) rng s' h hn
    · -- adjacent_go
      intro s ps rng s' h hn
      cases ps with
      | nil =>
        simp only [adjacent_go, Option.some.injEq, Prod.mk.injEq] at h
        obtain ⟨h1, _⟩ := h
        subst h1
        exact hn
      | cons p rest =>
        simp only [adjacent_go] at h
        by_cases hac : get_square s p.1 p.2 ∈ s.activated
        · rw [if_pos hac] at h
          exact ihG s rest rng s' h hn
        · rw [if_neg hac] at h
          cases hsq : get_square s p.1 p.2 with
          | none =>
            rw [hsq] at h
            exact ihG s rest rng s' h hn
          | some j =>
            rw [hsq] at h
            cases heq : activate_square f s p.1 p.2 true rng with
            | none =>
              rw [heq] at h
              exact absurd h (by simp)
            | some pr =>
              rw [heq] at h
              obtain ⟨t, okt⟩ := pr
              cases okt with
              | false =>
                dsimp only at h
                simp only [Option.some.injEq, Prod.mk.injEq] at h
                exact absurd h.2 (by simp)
              | true =>
                dsimp only at h
                exact ihA s p.1 p.2 true rng t heq (ihG t rest rng s' h hn)
    · -- end_game
      intro s msg rng s' h hn
      simp only [end_game] at h
      cases heq : end_go f s (allCoords s) rng with
      | none =>
        rw [heq] at h
        exact absurd h (by simp)
      | some pr =>
        rw [heq] at h
        obtain ⟨t, okt⟩ := pr
        cases okt with
        | false =>
          dsimp only at h
          simp only [Option.some.injEq, Prod.mk.injEq] at h
          exact absurd h.2 (by simp)
        | true =>
          dsimp only at h
          simp only [Option.some.injEq, Prod.mk.injEq] at h
          obtain ⟨h1, _⟩ := h
          rw [← h1] at hn
          exact ihO s (allCoords s) rng t heq hn
    · -- end_go
      intro s ps rng s' h hn
      cases ps with
      | nil =>
        simp only [end_go, Option.some.injEq, Prod.mk.injEq] at h
        obtain ⟨h1, _⟩ := h
        subst h1
        exact hn
      | cons p rest =>
        simp only [end_go] at h
        by_cases hac : get_square s p.1 p.2 ∈ s.activated
        · rw [if_pos hac] at h
          exact ihO s rest rng s' h hn
        · rw [if_neg hac] at h
          cases heq : activate_square f s p.1 p.2 false rng with
          | none =>
            rw [heq] at h
            exact absurd h (by simp)
          | some pr =>
            rw [heq] at h
            obtain ⟨t, okt⟩ := pr
            cases okt with
            | false =>
              dsimp only at h
              simp only [Option.some.injEq, Prod.mk.injEq] at h
              exact absurd h.2 (by simp)
            | true =>
              dsimp only at h
              exact ihA s p.1 p.2 false rng t heq (ihO t rest rng s' h hn)
    · -- check_win
      intro s rng s' h hn
      simp only [check_win] at h
      by_cases hc : s.undiscovered ≤ 0
      · rw [if_pos hc] at h
        exact ihE s "You won" rng s' h hn
      · rw [if_neg hc] at h
        simp only [Option.some.injEq, Prod.mk.injEq] at h
        obtain ⟨h1, _⟩ := h
        subst h1
        exact hn

/-- The mine test of the `calculate_mines_and_flags` loop body (skipping the
centre square). -/
def nbMine (s : GameState) (i : Nat) (p : Int × Int) : Bool :=
  !(get_square s p.1 p.2 == some i) && memMines (get_square s p.1 p.2) s.mines

/-- The flag test of the `calculate_mines_and_flags` loop body. -/
def nbFlag (s : GameState) (i : Nat) (p : Int × Int) : Bool :=
  !(get_square s p.1 p.2 == some i) && decide (get_square s p.1 p.2 ∈ s.marked)

theorem calc_eq_countP (s : GameState) (i : Nat) :
    calculate_mines_and_flags s i =
      ((nbhd s i).countP (nbMine s i), (nbhd s i).countP (nbFlag s i)) := by
  unfold calculate_mines_and_flags
  have key : ∀ (l : List (Int × Int)) (a b : Nat),
      l.foldl
        (fun mf p =>
          let cur := get_square s p.1 p.2
          if cur = some i then mf
          else
            (if memMines cur s.mines then mf.1 + 1 else mf.1,
             if cur ∈ s.marked then mf.2 + 1 else mf.2)) (a, b) =
      (a + l.countP (nbMine s i), b + l.countP (nbFlag s i)) := by
    intro l
    induction l with
    | nil =>
      intro a b
      simp
    | cons p rest ihl =>
      intro a b
      rw [List.foldl_cons]
      dsimp only
      by_cases hsk : get_square s p.1 p.2 = some i
      · rw [if_pos hsk, ihl a b]
        have hm0 : nbMine s i p = false := by
          simp [nbMine, hsk]
        have hf0 : nbFlag s i p = false := by
          simp [nbFlag, hsk]
        simp [List.countP_cons, hm0, hf0]
      · rw [if_neg hsk]
        have hbeq : (get_square s p.1 p.2 == some i) = false := by
          simp [hsk]
        by_cases hmm : memMines (get_square s p.1 p.2) s.mines = true
        · rw [if_pos hmm]
          have hm1 : nbMine s i p = true := by
            simp [nbMine, hbeq, hmm]
          by_cases hfl : get_square s p.1 p.2 ∈ s.marked
          · rw [if_pos hfl, ihl (a + 1) (b + 1)]
            have hf1 : nbFlag s i p = true := by
              simp [nbFlag, hbeq, hfl]
            simp only [List.countP_cons, hm1, hf1, Prod.mk.injEq]
            constructor <;> simp <;> omega
          · rw [if_neg hfl, ihl (a + 1) b]
            have hf1 : nbFlag s i p = false := by
              simp [nbFlag, hfl]
            simp only [List.countP_cons, hm1, hf1, Prod.mk.injEq]
            constructor <;> simp <;> omega
        · rw [if_neg hmm]
          have hm1 : nbMine s i p = false := by
            simp only [Bool.not_eq_true] at hmm
            simp [nbMine, hmm]
          by_cases hfl : get_square s p.1 p.2 ∈ s.marked
          · rw [if_pos hfl, ihl a (b + 1)]
            have hf1 : nbFlag s i p = true := by
              simp [nbFlag, hbeq, hfl]
            simp only [List.countP_cons, hm1, hf1, Prod.mk.injEq]
            constructor <;> simp <;> omega
          · rw [if_neg hfl, ihl a b]
            have hf1 : nbFlag s i p = false := by
              simp [nbFlag, hfl]
            simp only [List.countP_cons, hm1, hf1, Prod.mk.injEq]
            constructor <;> simp <;> omega
  rw [key]
  simp

theorem countP_split {α : Type} (l : List α) (p q : α → Bool) :
    l.countP p = l.countP (fun a => p a && q a) +
      l.countP (fun a => p a && !(q a)) := by
  induction l with
  | nil => simp
  | cons a l ihl =>
    simp only [List.countP_cons, ihl]
    cases hp : p a <;> cases hq : q a <;> (simp [hp, hq]; try omega)

/-- Pigeonhole behind the "trust the flags" behaviour: when the mine and
flag counts of the 3x3 block agree and some non-centre neighbour is an
unflagged mine, some other neighbour is a flagged non-mine. -/
theorem flagged_safe_exists {s : GameState} {i : Nat}
    (hmf : (calculate_mines_and_flags s i).1 =
      (calculate_mines_and_flags s i).2)
    {p0 : Int × Int} (hp0 : p0 ∈ nbhd s i)
    (hm0 : nbMine s i p0 = true) (hf0 : nbFlag s i p0 = false) :
    ∃ p ∈ nbhd s i, nbFlag s i p = true ∧ nbMine s i p = false := by
  have hc := calc_eq_countP s i
  rw [hc] at hmf
  dsimp only at hmf
  have hM := countP_split (nbhd s i) (nbMine s i) (nbFlag s i)
  have hF := countP_split (nbhd s i) (nbFlag s i) (nbMine s i)
  have hcomm : (nbhd s i).countP (fun p => nbMine s i p && nbFlag s i p) =
      (nbhd s i).countP (fun p => nbFlag s i p && nbMine s i p) := by
    apply List.countP_congr
    intro p _
    cases nbMine s i p <;> cases nbFlag s i p <;> rfl
  have hpos : 0 < (nbhd s i).countP
      (fun p => nbMine s i p && !(nbFlag s i p)) := by
    rw [List.countP_pos]
    exact ⟨p0, hp0, by simp [hm0, hf0]⟩
  have hpos2 : 0 < (nbhd s i).countP
      (fun p => nbFlag s i p && !(nbMine s i p)) := by
    omega
  rw [List.countP_pos] at hpos2
  obtain ⟨p, hp, hcond⟩ := hpos2
  simp only [Bool.and_eq_true, Bool.not_eq_true'] at hcond
  exact ⟨p, hp, hcond.1, hcond.2⟩

/-- Counting bound: with a duplicate-free, sentinel-free, in-range activated
list and one safe square `w` still hidden, fewer than all safe squares are
activated. -/
theorem actSafe_lt {t : GameState} {w : Nat}
    (hnd : t.activated.Nodup)
    (hnone : (none : Square) ∉ t.activated)
    (hval : ∀ q ∈ t.activated, ∀ j, q = some j → j < nsq t)
    (hw : w < nsq t) (hwm : w ∉ t.mines) (hwa : some w ∉ t.activated) :
    actSafe t <
      ((Finset.range (nsq t)).filter (fun j => j ∉ t.mines)).card := by
  classical
  set lf := t.activated.filter (fun q => !(memMines q t.mines)) with hlf
  have hsubf : ∀ q ∈ lf, q ∈ t.activated := by
    intro q hq
    exact (List.mem_filter.mp hq).1
  have hndf : lf.Nodup := hnd.filter _
  set ln := lf.map (fun q => q.getD 0) with hln
  have hsome : ∀ q ∈ lf, ∃ j, q = some j := by
    intro q hq
    cases q with
    | none => exact absurd (hsubf _ hq) hnone
    | some j => exact ⟨j, rfl⟩
  have hndn : ln.Nodup := by
    refine hndf.map_on ?_
    intro q hq q' hq' he
    obtain ⟨j, rfl⟩ := hsome q hq
    obtain ⟨j', rfl⟩ := hsome q' hq'
    simp only [Option.getD_some] at he
    rw [he]
  have hsub : ln.toFinset ⊆
      (((Finset.range (nsq t)).filter (fun j => j ∉ t.mines)).erase w) := by
    intro j hj
    rw [List.mem_toFinset] at hj
    obtain ⟨q, hq, hqj⟩ := List.mem_map.mp hj
    obtain ⟨j', rfl⟩ := hsome q hq
    simp only [Option.getD_some] at hqj
    subst hqj
    obtain ⟨hqa, hqm⟩ := List.mem_filter.mp hq
    simp only [Finset.mem_erase, Finset.mem_filter, Finset.mem_range]
    refine ⟨?_, hval _ hqa j' rfl, ?_⟩
    · intro hc
      subst hc
      exact hwa hqa
    · intro hc
      rw [Bool.not_eq_true'] at hqm
      rw [← memMines_some] at hc
      rw [hqm] at hc
      exact absurd hc (by simp)
  have hwmem : w ∈ (Finset.range (nsq t)).filter (fun j => j ∉ t.mines) := by
    simp only [Finset.mem_filter, Finset.mem_range]
    exact ⟨hw, hwm⟩
  have hcard1 : ln.toFinset.card = ln.length :=
    List.toFinset_card_of_nodup hndn
  have hlen : ln.length = actSafe t := by
    rw [hln]
    simp only [List.length_map]
    rfl
  have hle := Finset.card_le_card hsub
  rw [Finset.card_erase_of_mem hwmem] at hle
  have hpos := Finset.card_pos.mpr ⟨w, hwmem⟩
  omega

/-- A flagged square that is hidden stays hidden across any engine call:
the flag is never removed and a flagged square is never activated. -/
theorem Ext.marked_stays_hidden {s s' : GameState} (e : Ext s s')
    {q : Square} (hm : q ∈ s.marked) (hna : q ∉ s.activated) :
    q ∉ s'.activated :=
  fun hq => (e.new_unmarked q hq hna) hm

theorem C9_witness :
    (nsq (new_game 4 2) + 2) * (nsq (new_game 4 2) + 13) ≤ 522 ∧
    ∃ r : GameState × Bool,
      activate_square 522 (new_game 4 2) 0 0 true [] = some r ∧
      ((new_game 4 2).activated.Nodup → r.1.activated.Nodup) :=
  ⟨by decide, C9_reveal_terminates (new_game 4 2) 0 0 true [] 522 (by decide)⟩

/-- C10: the chord logic applies to every already-revealed square no matter
its adjacent mine count: a reveal on a revealed square whose mine and flag
counts are both zero re-runs the neighbour reveal, and every unflagged,
unrevealed, in-range neighbour ends up revealed. -/
theorem C10_zero_chord (f : Nat) (s : GameState) (x y : Int) (i : Nat)
    (ca : Bool) (rng : List Nat) (s' : GameState) (ok : Bool)
    (hne : s.activated ≠ [])
    (hdisi : some i ∉ s.marked)
    (hsq : get_square s x y = some i)
    (hact : some i ∈ s.activated)
    (hmf : calculate_mines_and_flags s i = (0, 0))
    (h : activate_square f s x y ca rng = some (s', ok)) :
    ok = true ∧ ∀ p ∈ nbhd s i, get_square s p.1 p.2 ∉ s.marked →
      get_square s p.1 p.2 ≠ none → get_square s p.1 p.2 ∈ s'.activated := by
  have hinr : InRange s x y := (get_square_eq_some hsq).1
  have hok : ok = true := okt_activate hne hinr h
  subst hok
  refine ⟨rfl, ?_⟩
  match f with
  | 0 => simp [activate_square] at h
  | f + 1 =>
    simp only [activate_square] at h
    rw [if_neg hne] at h
    dsimp only at h
    rw [hsq] at h
    rw [if_neg hdisi, if_pos hact] at h
    dsimp only at h
    have hc : (calculate_mines_and_flags s i).1 =
        (calculate_mines_and_flags s i).2 := by
      rw [hmf]
    rw [if_pos hc] at h
    match f with
    | 0 => simp [activate_adjacent] at h
    | f + 1 =>
      simp only [activate_adjacent] at h
      intro p hp hm hn
      rcases chord_cover f s (nbhd s i) rng s' h p hp with h1 | h1 | h1
      · exact h1
      · rw [(ext_adjacent_go h).marked_eq] at h1
        exact absurd h1 hm
      · exact absurd h1 hn

/-- The state for the C10 scenario: a 3x3 board with no mines whose centre
square is revealed; every square has adjacent count 0 and no flags are
placed. -/
def c10w : GameState :=
  { size := 3
    mineCount := 0
    marked := []
    activated := [some 4]
    mines := []
    minesLabel := 0
    undiscovered := 8
    img := fun _ => 10
    ending := ""
    bound := true }

theorem C10_witness :
    c10w.activated ≠ [] ∧ some 4 ∉ c10w.marked ∧
    get_square c10w 1 1 = some 4 ∧ some 4 ∈ c10w.activated ∧
    calculate_mines_and_flags c10w 4 = (0, 0) ∧
    ∃ s' ok, activate_square 220 c10w 1 1 true [] = some (s', ok) ∧
      (ok = true ∧ ∀ p ∈ nbhd c10w 4,
        get_square c10w p.1 p.2 ∉ c10w.marked →
        get_square c10w p.1 p.2 ≠ none →
        get_square c10w p.1 p.2 ∈ s'.activated) := by
  have hterm := (term_all 220).2.1 c10w 1 1 true [] (by decide)
  obtain ⟨pr, hpr⟩ := Option.isSome_iff_exists.mp hterm
  obtain ⟨s', ok⟩ := pr
  exact ⟨by decide, by decide, by decide, by decide, by decide,
    s', ok, hpr, C10_zero_chord 220 c10w 1 1 4 true [] s' ok (by decide)
      (by decide) (by decide) (by decide) (by decide) hpr⟩

/-- C6: chording.  On an in-progress well-formed position, a reveal call on
an already revealed square `i` is a strict no-op when the flag count differs
from the mine count; when the counts agree it reveals every unflagged,
unrevealed, in-range neighbour, and if one of those neighbours is a mine
the game ends lost. -/
theorem C6_chord_trust (f : Nat) (s : GameState) (x y : Int) (i : Nat)
    (ca : Bool) (rng : List Nat) (s' : GameState) (ok : Bool)
    (hne : s.activated ≠ [])
    (hnd : s.activated.Nodup)
    (hval : ∀ q ∈ s.activated, ∃ j, j < nsq s ∧ q = some j)
    (hmval : ∀ q ∈ s.marked, ∃ j, j < nsq s ∧ q = some j)
    (hdis : ∀ q ∈ s.marked, q ∉ s.activated)
    (hcnt : s.undiscovered + (actSafe s : Int) =
      (((Finset.range (nsq s)).filter (fun j => j ∉ s.mines)).card : Int))
    (hend : s.ending = "")
    (hsq : get_square s x y = some i)
    (hact : some i ∈ s.activated)
    (h : activate_square f s x y ca rng = some (s', ok)) :
    ok = true ∧
    ((calculate_mines_and_flags s i).1 ≠ (calculate_mines_and_flags s i).2 →
      s' = s) ∧
    ((calculate_mines_and_flags s i).1 = (calculate_mines_and_flags s i).2 →
      (∀ p ∈ nbhd s i, get_square s p.1 p.2 ∉ s.marked →
        get_square s p.1 p.2 ≠ none → get_square s p.1 p.2 ∈ s'.activated) ∧
      (∀ p ∈ nbhd s i, ∀ j, get_square s p.1 p.2 = some j →
        some j ∉ s.marked → some j ∉ s.activated → j ∈ s.mines →
        s'.ending = "You lose")) := by
  have hinr : InRange s x y := (get_square_eq_some hsq).1
  have hok : ok = true := okt_activate hne hinr h
  subst hok
  have h0 := h
  have hdisi : some i ∉ s.marked := fun hc => hdis _ hc hact
  match f with
  | 0 => simp [activate_square] at h
  | f + 1 =>
    simp only [activate_square] at h
    rw [if_neg hne] at h
    dsimp only at h
    rw [hsq] at h
    rw [if_neg hdisi, if_pos hact] at h
    dsimp only at h
    by_cases hmf : (calculate_mines_and_flags s i).1 =
        (calculate_mines_and_flags s i).2
    · rw [if_pos hmf] at h
      refine ⟨rfl, fun hc => absurd hmf hc, fun _ => ?_⟩
      match f with
      | 0 => simp [activate_adjacent] at h
      | f + 1 =>
        simp only [activate_adjacent] at h
        have hmarked : s'.marked = s.marked := (ext_adjacent_go h).marked_eq
        have hcov : ∀ p ∈ nbhd s i, get_square s p.1 p.2 ∉ s.marked →
            get_square s p.1 p.2 ≠ none →
            get_square s p.1 p.2 ∈ s'.activated := by
          intro p hp hm hn
          rcases chord_cover f s (nbhd s i) rng s' h p hp with h1 | h1 | h1
          · exact h1
          · rw [hmarked] at h1
            exact absurd h1 hm
          · exact absurd h1 hn
        refine ⟨hcov, ?_⟩
        intro p hp j hgj hjm hja hjmine
        have hjact : some j ∈ s'.activated := by
          have := hcov p hp (by rw [hgj]; exact hjm) (by rw [hgj]; simp)
          rwa [hgj] at this
        have aux := aux_activate h0
        have e := ext_activate h0
        dsimp only at e
        have hne' : s'.ending ≠ "" := by
          intro hc
          have hjm' : j ∈ s'.mines := by
            rw [e.mines_eq hne]
            exact hjmine
          exact hja (aux.nomine hc j hjm' hjact)
        rcases aux.text3 with h1 | h1 | h1
        · rw [hend] at h1
          exact absurd h1 hne'
        · exact h1
        · exfalso
          obtain ⟨hwon, hund⟩ := h1
          have hji : j ≠ i := fun hc => hja (hc ▸ hact)
          have hm0 : nbMine s i p = true := by
            unfold nbMine
            rw [hgj]
            have hb : (some j == some i) = false := by
              simp [hji]
            rw [hb, memMines_some.mpr hjmine]
            rfl
          have hf0 : nbFlag s i p = false := by
            unfold nbFlag
            rw [hgj]
            simp [hjm]
          obtain ⟨pw, hpw, hwf, hwm⟩ := flagged_safe_exists hmf hp hm0 hf0
          unfold nbFlag at hwf
          unfold nbMine at hwm
          simp only [Bool.and_eq_true, Bool.not_eq_true',
            decide_eq_true_eq] at hwf
          obtain ⟨hwne, hwmk⟩ := hwf
          rw [hwne] at hwm
          simp only [Bool.not_false, Bool.true_and] at hwm
          obtain ⟨w, hwlt, hwq⟩ := hmval _ hwmk
          rw [hwq] at hwmk hwm
          have hwmine : w ∉ s.mines := by
            intro hc
            rw [memMines_some.mpr hc] at hwm
            exact absurd hwm (by simp)
          have hwact : some w ∉ s.activated := hdis _ hwmk
          have hnsq : nsq s' = nsq s := by
            unfold nsq
            rw [e.size_eq]
          have hnd' : s'.activated.Nodup := e.nodup hnd
          have hnone : (none : Square) ∉ s.activated := by
            intro hc
            obtain ⟨j0, _, hj0⟩ := hval _ hc
            exact absurd hj0.symm (by simp)
          have hnone' : (none : Square) ∉ s'.activated :=
            fun hc => hnone ((none_all _).1 s x y ca rng s' h0 hc)
          have hval' : ∀ q ∈ s'.activated, ∀ j0, q = some j0 →
              j0 < nsq s' := by
            intro q hq j0 hqj
            subst hqj
            rw [hnsq]
            by_cases hqo : some j0 ∈ s.activated
            · obtain ⟨j1, hj1, hq1⟩ := hval _ hqo
              simp only [Option.some.injEq] at hq1
              omega
            · rcases e.new_shape _ hq hqo with h2 | ⟨j1, hj1, hq1⟩
              · exact absurd h2 (by simp)
              · simp only [Option.some.injEq] at hq1
                show j0 < s.size * s.size
                omega
          have hw' : w < nsq s' := by
            rw [hnsq]
            exact hwlt
          have hwm' : w ∉ s'.mines := by
            rw [e.mines_eq hne]
            exact hwmine
          have hwa' : some w ∉ s'.activated :=
            e.marked_stays_hidden hwmk hwact
          have hlt := actSafe_lt hnd' hnone' hval' hw' hwm' hwa'
          have hcount := e.counter hne
          have hcard : ((Finset.range (nsq s')).filter
              (fun j0 => j0 ∉ s'.mines)).card =
              ((Finset.range (nsq s)).filter (fun j0 => j0 ∉ s.mines)).card := by
            rw [e.mines_eq hne, hnsq]
          rw [hcard] at hlt
          omega
    · rw [if_neg hmf] at h
      simp only [Option.some.injEq, Prod.mk.injEq] at h
      obtain ⟨h1, _⟩ := h
      subst h1
      exact ⟨rfl, fun _ => rfl, fun hc => absurd hc hmf⟩

/-- The state for the C6 scenario: a 3x3 board, one mine at the centre,
corner square 0 revealed; the reveal on square 0 is a chord call with mine
count 1 and flag count 0, hence a no-op. -/
def c6w : GameState :=
  { size := 3
    mineCount := 1
    marked := []
    activated := [some 0]
    mines := [4]
    minesLabel := 1
    undiscovered := 7
    img := fun _ => 10
    ending := ""
    bound := true }

theorem C6_witness :
    (c6w.activated ≠ [] ∧ c6w.activated.Nodup ∧ c6w.ending = "" ∧
      get_square c6w 0 0 = some 0 ∧ some 0 ∈ c6w.activated ∧
      c6w.undiscovered + (actSafe c6w : Int) =
        (((Finset.range (nsq c6w)).filter (fun j => j ∉ c6w.mines)).card :
          Int)) ∧
    ∃ s' ok, activate_square 3 c6w 0 0 true [] = some (s', ok) ∧
      (ok = true ∧
       ((calculate_mines_and_flags c6w 0).1 ≠
          (calculate_mines_and_flags c6w 0).2 → s' = c6w) ∧
       ((calculate_mines_and_flags c6w 0).1 =
          (calculate_mines_and_flags c6w 0).2 →
        (∀ p ∈ nbhd c6w 0, get_square c6w p.1 p.2 ∉ c6w.marked →
          get_square c6w p.1 p.2 ≠ none →
          get_square c6w p.1 p.2 ∈ s'.activated) ∧
        (∀ p ∈ nbhd c6w 0, ∀ j, get_square c6w p.1 p.2 = some j →
          some j ∉ c6w.marked → some j ∉ c6w.activated → j ∈ c6w.mines →
          s'.ending = "You lose"))) := by
  have hrun : activate_square 3 c6w 0 0 true [] = some (c6w, true) := rfl
  refine ⟨⟨by decide, by decide, rfl, by decide, by decide, by decide⟩,
    c6w, true, hrun, ?_⟩
  refine C6_chord_trust 3 c6w 0 0 0 true [] c6w true (by decide) (by decide)
    ?_ ?_ ?_ (by decide) rfl (by decide) (by decide) hrun
  · intro q hq
    simp only [c6w, List.mem_singleton] at hq
    subst hq
    exact ⟨0, by decide, rfl⟩
  · intro q hq
    simp [c6w] at hq
  · intro q hq
    simp [c6w] at hq

/-! ## The reachable-state invariant -/

/-- Positivity of the safe counter while the game is in progress: a counter
drop to zero is immediately followed by `check_win`, which ends the game, so
a result whose ending text is still empty has a positive counter. -/
theorem undpos_all (f : Nat) :
    (∀ s x y ca rng s', (s.ending = "" → 0 < s.undiscovered) →
      activate_square f s x y ca rng = some (s', true) →
      s'.ending = "" → 0 < s'.undiscovered) ∧
    (∀ s i rng s', (s.ending = "" → 0 < s.undiscovered) →
      activate_adjacent f s i rng = some (s', true) →
      s'.ending = "" → 0 < s'.undiscovered) ∧
    (∀ s ps rng s', (s.ending = "" → 0 < s.undiscovered) →
      adjacent_go f s ps rng = some (s', true) →
      s'.ending = "" → 0 < s'.undiscovered) ∧
    (∀ s rng s', s.activated ≠ [] → check_win f s rng = some (s', true) →
      s'.ending = "" → 0 < s'.undiscovered) := by
  induction f with
  | zero =>
    refine ⟨fun s x y ca rng s' _ h => ?_, fun s i rng s' _ h => ?_,
      fun s ps rng s' _ h => ?_, fun s rng s' _ h => ?_⟩ <;>
      simp [activate_square, activate_adjacent, adjacent_go, check_win] at h
  | succ f ih =>
    obtain ⟨ihA, ihJ, ihG, ihW⟩ := ih
    refine ⟨?_, ?_, ?_, ?_⟩
    · -- activate_square
      intro s x y ca rng s' hp h hend
      simp only [activate_square] at h
      split at h
      · simp at h
      · next s1 hfc =>
        obtain ⟨hext1, ha1, hmk1, hsz1, hund1, hend1, hbd1, hlb1, hmc1⟩ :=
          first_click_ext hfc
        have hp1 : s1.ending = "" → 0 < s1.undiscovered := by
          rw [hend1, hund1]
          exact hp
        by_cases hm : get_square s1 x y ∈ s1.marked
        · rw [if_pos hm] at h
          simp only [Option.some.injEq, Prod.mk.injEq] at h
          obtain ⟨h1, _⟩ := h
          subst h1
          exact hp1 hend
        · rw [if_neg hm] at h
          by_cases hac : get_square s1 x y ∈ s1.activated
          · rw [if_pos hac] at h
            cases hsq : get_square s1 x y with
            | none =>
              rw [hsq] at h
              dsimp only at h
              simp at h
            | some i =>
              rw [hsq] at h
              dsimp only at h
              split at h
              · exact ihJ s1 i rng s' hp1 h hend
              · simp only [Option.some.injEq, Prod.mk.injEq] at h
                obtain ⟨h1, _⟩ := h
                subst h1
                exact hp1 hend
          · rw [if_neg hac] at h
            cases hsq : get_square s1 x y with
            | none =>
              rw [hsq] at h
              dsimp only at h
              simp only [memMines, Bool.false_eq_true, if_false,
                Option.some.injEq, Prod.mk.injEq] at h
              exact absurd h.2 (by simp)
            | some i =>
              rw [hsq] at h
              dsimp only at h
              by_cases hmn : memMines (some i) s1.mines = true
              · rw [if_pos hmn] at h
                obtain ⟨_, _, hmsg, _⟩ := end_game_spec (by simp) h
                rw [hmsg] at hend
                exact absurd hend (by simp)
              · rw [if_neg hmn] at h
                split at h
                · cases heq : activate_adjacent f
                      { s1 with activated := s1.activated ++ [some i],
                                undiscovered := s1.undiscovered - 1,
                                img := updImg s1.img i
                                  (calculate_mines_and_flags
                                    { s1 with
                                        activated := s1.activated ++ [some i],
                                        undiscovered := s1.undiscovered - 1 }
                                    i).1 } i rng with
                  | none =>
                    rw [heq] at h
                    exact absurd h (by simp)
                  | some pr =>
                    rw [heq] at h
                    obtain ⟨s5, ok5⟩ := pr
                    cases ok5 with
                    | false =>
                      dsimp only at h
                      simp only [Option.some.injEq, Prod.mk.injEq] at h
                      exact absurd h.2 (by simp)
                    | true =>
                      dsimp only at h
                      have hne5 : s5.activated ≠ [] := by
                        obtain ⟨l, hl⟩ := (ext_adjacent heq).act_ext
                        rw [hl]
                        simp
                      exact ihW s5 rng s' hne5 h hend
                · exact ihW _ rng s' (by simp) h hend
    · -- activate_adjacent
      intro s i rng s' hp h hend
      simp only [activate_adjacent] at h
      exact ihG s (nbhd s i) rng s' hp h hend
    · -- adjacent_go
      intro s ps rng s' hp h hend
      cases ps with
      | nil =>
        simp only [adjacent_go, Option.some.injEq, Prod.mk.injEq] at h
        obtain ⟨h1, _⟩ := h
        subst h1
        exact hp hend
      | cons p rest =>
        simp only [adjacent_go] at h
        by_cases hac : get_square s p.1 p.2 ∈ s.activated
        · rw [if_pos hac] at h
          exact ihG s rest rng s' hp h hend
        · rw [if_neg hac] at h
          cases hsq : get_square s p.1 p.2 with
          | none =>
            rw [hsq] at h
            exact ihG s rest rng s' hp h hend
          | some j =>
            rw [hsq] at h
            cases heq : activate_square f s p.1 p.2 true rng with
            | none =>
              rw [heq] at h
              exact absurd h (by simp)
            | some pr =>
              rw [heq] at h
              obtain ⟨t, okt⟩ := pr
              cases okt with
              | false =>
                dsimp only at h
                simp only [Option.some.injEq, Prod.mk.injEq] at h
                exact absurd h.2 (by simp)
              | true =>
                dsimp only at h
                exact ihG t rest rng s'
                  (ihA s p.1 p.2 true rng t hp heq) h hend
    · -- check_win
      intro s rng s' hne h hend
      simp only [check_win] at h
      by_cases hc : s.undiscovered ≤ 0
      · rw [if_pos hc] at h
        obtain ⟨_, _, hmsg, _⟩ := end_game_spec hne h
        rw [hmsg] at hend
        exact absurd hend (by simp)
      · rw [if_neg hc] at h
        simp only [Option.some.injEq, Prod.mk.injEq] at h
        obtain ⟨h1, _⟩ := h
        subst h1
        omega

/-- Counter bookkeeping for a run that starts by activating a mine from a
position with nothing activated. -/
theorem counter_step_mine {s1 T s' : GameState} {i : Nat}
    (hs1 : s1.activated = []) (hmn : memMines (some i) s1.mines = true)
    (e2 : Ext T s')
    (hTa : T.activated = s1.activated ++ [some i])
    (hTm : T.mines = s1.mines) (hTu : T.undiscovered = s1.undiscovered) :
    s'.undiscovered + (actSafe s' : Int) = s1.undiscovered := by
  have hne : T.activated ≠ [] := by
    rw [hTa]
    simp
  have hc := e2.counter hne
  have hat : actSafe T = 0 := by
    unfold actSafe
    rw [hTa, hs1, hTm]
    simp [hmn]
  rw [hat, hTu] at hc
  omega

/-- Counter bookkeeping for a run that starts by activating a safe square
from a position with nothing activated. -/
theorem counter_step_safe {s1 T s' : GameState} {i : Nat}
    (hs1 : s1.activated = []) (hmn : memMines (some i) s1.mines = false)
    (e2 : Ext T s')
    (hTa : T.activated = s1.activated ++ [some i])
    (hTm : T.mines = s1.mines)
    (hTu : T.undiscovered = s1.undiscovered - 1) :
    s'.undiscovered + (actSafe s' : Int) = s1.undiscovered := by
  have hne : T.activated ≠ [] := by
    rw [hTa]
    simp
  have hc := e2.counter hne
  have hat : actSafe T = 1 := by
    unfold actSafe
    rw [hTa, hs1, hTm]
    simp [hmn]
  rw [hat, hTu] at hc
  omega

/-- The safe counter equation across the first reveal of a game: whatever
the reveal cascades into, counter plus revealed-safe count is conserved
(the pre-state has nothing activated, so its revealed-safe count is zero). -/
theorem first_reveal_counter {f : Nat} {s : GameState} {x y : Int}
    {ca : Bool} {rng : List Nat} {s' : GameState}
    (hemp : s.activated = [])
    (h : activate_square f s x y ca rng = some (s', true)) :
    s'.undiscovered + (actSafe s' : Int) = s.undiscovered := by
  match f with
  | 0 => simp [activate_square] at h
  | f + 1 =>
    simp only [activate_square] at h
    split at h
    · simp at h
    · next s1 hfc =>
      obtain ⟨hext1, ha1, hmk1, hsz1, hund1, hend1, hbd1, hlb1, hmc1⟩ :=
        first_click_ext hfc
      have hemp1 : s1.activated = [] := by
        rw [ha1]
        exact hemp
      rw [← hund1]
      by_cases hm : get_square s1 x y ∈ s1.marked
      · rw [if_pos hm] at h
        simp only [Option.some.injEq, Prod.mk.injEq] at h
        obtain ⟨h1, _⟩ := h
        subst h1
        have haz : actSafe s1 = 0 := by
          unfold actSafe
          rw [hemp1]
          rfl
        rw [haz]
        simp
      · rw [if_neg hm] at h
        have hac : get_square s1 x y ∉ s1.activated := by
          rw [hemp1]
          simp
        rw [if_neg hac] at h
        cases hsq : get_square s1 x y with
        | none =>
          rw [hsq] at h
          dsimp only at h
          simp only [memMines, Bool.false_eq_true, if_false,
            Option.some.injEq, Prod.mk.injEq] at h
          exact absurd h.2 (by simp)
        | some i =>
          rw [hsq] at h
          dsimp only at h
          by_cases hmn : memMines (some i) s1.mines = true
          · rw [if_pos hmn] at h
            exact counter_step_mine hemp1 hmn
              (ext_end_game (Or.inl rfl) h) rfl rfl rfl
          · rw [if_neg hmn] at h
            rw [Bool.not_eq_true] at hmn
            split at h
            · cases heq : activate_adjacent f
                  { s1 with activated := s1.activated ++ [some i],
                            undiscovered := s1.undiscovered - 1,
                            img := updImg s1.img i
                              (calculate_mines_and_flags
                                { s1 with
                                    activated := s1.activated ++ [some i],
                                    undiscovered := s1.undiscovered - 1 }
                                i).1 } i rng with
              | none =>
                rw [heq] at h
                exact absurd h (by simp)
              | some pr =>
                rw [heq] at h
                obtain ⟨s5, ok5⟩ := pr
                cases ok5 with
                | false =>
                  dsimp only at h
                  simp only [Option.some.injEq, Prod.mk.injEq] at h
                  exact absurd h.2 (by simp)
                | true =>
                  dsimp only at h
                  exact counter_step_safe hemp1 hmn
                    ((ext_adjacent heq).trans (ext_check_win h)) rfl rfl rfl
            · exact counter_step_safe hemp1 hmn (ext_check_win h) rfl rfl rfl

/-- The state invariant every reachable game satisfies: flag bookkeeping,
activated-list well-formedness, mine-list shape, the safe-counter equation,
and the ending-text facts. -/
structure Inv (s : GameState) : Prop where
  imk_nd : s.marked.Nodup
  imk_val : ∀ q ∈ s.marked, ∃ j, j < nsq s ∧ q = some j
  imk_dis : ∀ q ∈ s.marked, q ∉ s.activated
  ilabel : s.minesLabel = (s.mineCount : Int) - s.marked.length
  ilabel_nn : 0 ≤ s.minesLabel
  iact_nd : s.activated.Nodup
  iact_val : ∀ q ∈ s.activated, ∃ j, j < nsq s ∧ q = some j
  imc_lt : s.mineCount < nsq s
  imines_good : s.mines.length = s.mineCount →
    s.mines.Nodup ∧ ∀ j ∈ s.mines, j < nsq s
  icounter : s.undiscovered + (actSafe s : Int) = (nsq s : Int) - s.mineCount
  iund_pos : s.ending = "" → 0 < s.undiscovered
  inomine : s.ending = "" → ∀ j ∈ s.mines, some j ∉ s.activated
  itext3 : s.ending = "" ∨ s.ending = "You lose" ∨ s.ending = "You won"
  iwon_le : s.ending = "You won" → s.undiscovered ≤ 0

theorem inv_mark {s : GameState} {x y : Int} (hr : InRange s x y)
    (hinv : Inv s) : Inv (mark_square s x y).1 := by
  obtain ⟨m1, m2, m3, m4, m5, a1, a2, mc, mg, cnt, up, nm, t3, w⟩ := hinv
  simp only [mark_square]
  by_cases hac : get_square s x y ∈ s.activated
  · rw [if_pos hac]
    exact ⟨m1, m2, m3, m4, m5, a1, a2, mc, mg, cnt, up, nm, t3, w⟩
  · rw [if_neg hac]
    by_cases hm : get_square s x y ∈ s.marked
    · rw [if_pos hm]
      obtain ⟨i, hi, hq⟩ := m2 _ hm
      rw [hq]
      rw [hq] at hm
      dsimp only
      refine ⟨List.Nodup.erase _ m1, ?_, ?_, ?_, ?_, a1, a2, mc, mg,
        cnt, up, nm, t3, w⟩
      · intro q hq2
        exact m2 q (List.mem_of_mem_erase hq2)
      · intro q hq2
        exact m3 q (List.mem_of_mem_erase hq2)
      · show s.minesLabel + 1 =
          (s.mineCount : Int) - (s.marked.erase (some i)).length
        rw [List.length_erase_of_mem hm]
        have hpos : 0 < s.marked.length := List.length_pos_of_mem hm
        omega
      · show 0 ≤ s.minesLabel + 1
        omega
    · rw [if_neg hm]
      by_cases hl : 0 < s.minesLabel
      · rw [if_pos hl]
        have hq : get_square s x y = some (idx s x y) := get_square_inRange hr
        have hi : idx s x y < nsq s := (get_square_eq_some hq).2.2
        rw [hq] at hm hac ⊢
        dsimp only
        refine ⟨?_, ?_, ?_, ?_, ?_, a1, a2, mc, mg, cnt, up, nm, t3, w⟩
        · simp [List.nodup_append, m1, hm]
        · intro q hq2
          simp only [List.mem_append, List.mem_singleton] at hq2
          rcases hq2 with hq2 | hq2
          · exact m2 q hq2
          · subst hq2
            exact ⟨idx s x y, hi, rfl⟩
        · intro q hq2
          simp only [List.mem_append, List.mem_singleton] at hq2
          rcases hq2 with hq2 | hq2
          · exact m3 q hq2
          · subst hq2
            exact hac
        · show s.minesLabel - 1 =
            (s.mineCount : Int) - (s.marked ++ [some (idx s x y)]).length
          rw [List.length_append]
          simp only [List.length_singleton]
          push_cast
          omega
        · show 0 ≤ s.minesLabel - 1
          omega
      · rw [if_neg hl]
        exact ⟨m1, m2, m3, m4, m5, a1, a2, mc, mg, cnt, up, nm, t3, w⟩

theorem inv_reveal {f : Nat} {s : GameState} {x y : Int} {rng : List Nat}
    {s' : GameState} (hr : InRange s x y) (hsmp : SampleFor s x y rng)
    (hinv : Inv s) (h : activate_square f s x y true rng = some (s', true)) :
    Inv s' := by
  obtain ⟨m1, m2, m3, m4, m5, a1, a2, mc, mg, cnt, up, nm, t3, w⟩ := hinv
  have e : Ext s s' := ext_activate h
  have aux : AuxFacts s s' := aux_activate h
  have hnsq : nsq s' = nsq s := by
    unfold nsq
    rw [e.size_eq]
  have hnone : (none : Square) ∉ s.activated := by
    intro hc
    obtain ⟨j, _, hj⟩ := a2 _ hc
    exact absurd hj (by simp)
  refine ⟨?_, ?_, ?_, ?_, ?_, ?_, ?_, ?_, ?_, ?_, ?_, ?_, ?_, ?_⟩
  · rw [e.marked_eq]
    exact m1
  · rw [e.marked_eq]
    intro q hq
    obtain ⟨j, hj, hq2⟩ := m2 q hq
    refine ⟨j, ?_, hq2⟩
    rw [hnsq]
    exact hj
  · rw [e.marked_eq]
    intro q hq
    exact e.marked_stays_hidden hq (m3 q hq)
  · rw [e.marked_eq, e.label_eq, e.mc_eq]
    exact m4
  · rw [e.label_eq]
    exact m5
  · exact e.nodup a1
  · intro q hq
    by_cases hq0 : q ∈ s.activated
    · obtain ⟨j, hj, hq2⟩ := a2 q hq0
      refine ⟨j, ?_, hq2⟩
      rw [hnsq]
      exact hj
    · rcases e.new_shape q hq hq0 with h2 | ⟨j, hj, hq2⟩
      · subst h2
        exact absurd ((none_all f).1 s x y true rng s' h hq) hnone
      · refine ⟨j, ?_, hq2⟩
        rw [hnsq]
        exact hj
  · rw [e.mc_eq, hnsq]
    exact mc
  · intro hlen
    rcases activate_mines h with hm1 | ⟨hemp, hm2⟩
    · have hm1' : s'.mines = s.mines := hm1
      rw [hm1', e.mc_eq] at hlen
      obtain ⟨hnd2, hv2⟩ := mg hlen
      rw [hm1']
      refine ⟨hnd2, ?_⟩
      intro j hj
      rw [hnsq]
      exact hv2 j hj
    · have hm2' : s'.mines = s.mines ++ rng := hm2
      obtain ⟨hrnd, hrlen, hrmem⟩ := hsmp hemp
      rw [hm2', e.mc_eq, List.length_append, hrlen] at hlen
      have hm0 : s.mines = [] := by
        cases hmm : s.mines with
        | nil => rfl
        | cons a l =>
          rw [hmm] at hlen
          simp at hlen
      rw [hm2', hm0]
      simp only [List.nil_append]
      have hidx : idx s x y < nsq s :=
        (get_square_eq_some (get_square_inRange hr)).2.2
      refine ⟨hrnd, ?_⟩
      intro j hj
      have hj2 := hrmem j hj
      rw [mem_sampleUniverse hidx] at hj2
      rw [hnsq]
      exact hj2.1
  · by_cases hemp : s.activated = []
    · have hfr := first_reveal_counter hemp h
      have haz : actSafe s = 0 := by
        unfold actSafe
        rw [hemp]
        rfl
      rw [haz] at cnt
      rw [hnsq, e.mc_eq]
      omega
    · have hc := e.counter hemp
      rw [hnsq, e.mc_eq]
      omega
  · exact (undpos_all f).1 s x y true rng s' up h
  · intro hend' j hjm hc
    have hj0 := aux.nomine hend' j hjm hc
    have hends : s.ending = "" := (e.text hend').1
    by_cases hemp : s.activated = []
    · rw [hemp] at hj0
      simp at hj0
    · have hjs : j ∈ s.mines := by
        rw [← e.mines_eq hemp]
        exact hjm
      exact nm hends j hjs hj0
  · rcases e.text_cases with h1 | h1 | h1
    · rw [h1]
      exact t3
    · exact Or.inr (Or.inl h1)
    · exact Or.inr (Or.inr h1)
  · intro hw'
    rcases aux.text3 with h1 | h1 | h1
    · rw [hw'] at h1
      have hw2 := w h1.symm
      have hw3 := e.und_le
      omega
    · rw [hw'] at h1
      exact absurd h1 (by decide)
    · exact h1.2

/-- Every reachable state satisfies the invariant. -/
theorem reachable_inv {s : GameState} (hs : Reachable s) : Inv s := by
  induction hs with
  | start n m hn hm =>
    have hmi : (m : Int) < ((n * n : Nat) : Int) := by
      exact_mod_cast hm
    refine ⟨?_, ?_, ?_, ?_, ?_, ?_, ?_, ?_, ?_, ?_, ?_, ?_, ?_, ?_⟩
    · simp [new_game]
    · simp [new_game]
    · simp [new_game]
    · simp [new_game]
    · simp [new_game]
    · simp [new_game]
    · simp [new_game]
    · simpa [new_game, nsq] using hm
    · intro _
      exact ⟨by simp [new_game], by simp [new_game]⟩
    · simp [new_game, actSafe, nsq]
    · intro _
      simp only [new_game]
      omega
    · intro _ j hj
      simp [new_game] at hj
    · exact Or.inl rfl
    · intro hc
      simp [new_game] at hc
  | flag s x y hs hb hr ih => exact inv_mark hr ih
  | reveal s x y rng f s' hs hb hr hsmp h ih => exact inv_reveal hr hsmp ih h

/-- C8: the flag cap.  In every reachable state at most `mineCount` flags
are placed and the remaining-mines label is never negative; once the cap is
reached, flagging another hidden square is an exact no-op; unflagging a
flagged square always succeeds and increments the label. -/
theorem C8_flag_cap (s : GameState) (hs : Reachable s) (x y : Int) :
    s.marked.length ≤ s.mineCount ∧ 0 ≤ s.minesLabel ∧
    (s.marked.length = s.mineCount → get_square s x y ∉ s.marked →
      get_square s x y ∉ s.activated → mark_square s x y = (s, true)) ∧
    (get_square s x y ∈ s.marked →
      (mark_square s x y).2 = true ∧
      (mark_square s x y).1.minesLabel = s.minesLabel + 1) := by
  obtain ⟨m1, m2, m3, m4, m5, a1, a2, mc, mg, cnt, up, nm, t3, w⟩ :=
    reachable_inv hs
  refine ⟨by omega, m5, ?_, ?_⟩
  · intro hfull hm hac
    have hz : ¬(0 < s.minesLabel) := by
      rw [hfull] at m4
      omega
    simp only [mark_square]
    rw [if_neg hac]
    rw [if_neg hm, if_neg hz]
  · intro hm
    obtain ⟨i, hi, hq⟩ := m2 _ hm
    have hac : get_square s x y ∉ s.activated := m3 _ hm
    simp only [mark_square]
    rw [if_neg hac]
    rw [if_pos hm, hq]
    exact ⟨rfl, rfl⟩

theorem C8_witness :
    Reachable (new_game 3 1) ∧
    ((new_game 3 1).marked.length ≤ (new_game 3 1).mineCount ∧
     0 ≤ (new_game 3 1).minesLabel ∧
     ((new_game 3 1).marked.length = (new_game 3 1).mineCount →
       get_square (new_game 3 1) 0 0 ∉ (new_game 3 1).marked →
       get_square (new_game 3 1) 0 0 ∉ (new_game 3 1).activated →
       mark_square (new_game 3 1) 0 0 = (new_game 3 1, true)) ∧
     (get_square (new_game 3 1) 0 0 ∈ (new_game 3 1).marked →
       (mark_square (new_game 3 1) 0 0).2 = true ∧
       (mark_square (new_game 3 1) 0 0).1.minesLabel =
         (new_game 3 1).minesLabel + 1)) :=
  ⟨Reachable.start 3 1 (by decide) (by decide),
   C8_flag_cap (new_game 3 1)
     (Reachable.start 3 1 (by decide) (by decide)) 0 0⟩

/-! ## Win detection -/

theorem safe_card {t : GameState} (hnd : t.mines.Nodup)
    (hval : ∀ j ∈ t.mines, j < nsq t) :
    ((Finset.range (nsq t)).filter (fun j => j ∉ t.mines)).card +
      t.mines.length = nsq t := by
  classical
  have hsub : t.mines.toFinset ⊆ Finset.range (nsq t) := by
    intro j hj
    rw [List.mem_toFinset] at hj
    rw [Finset.mem_range]
    exact hval j hj
  have h1 : (Finset.range (nsq t)).filter (fun j => j ∉ t.mines) =
      Finset.range (nsq t) \ t.mines.toFinset := by
    ext j
    simp [List.mem_toFinset]
  rw [h1, Finset.card_sdiff hsub, List.toFinset_card_of_nodup hnd]
  have hle := Finset.card_le_card hsub
  rw [List.toFinset_card_of_nodup hnd] at hle
  rw [Finset.card_range] at hle ⊢
  omega

/-- If at least as many squares are revealed safe as there are safe squares,
then every safe square is revealed. -/
theorem all_safe_of_actSafe_ge {t : GameState}
    (hnd : t.activated.Nodup)
    (hnone : (none : Square) ∉ t.activated)
    (hval : ∀ q ∈ t.activated, ∀ j, q = some j → j < nsq t)
    (hge : ((Finset.range (nsq t)).filter (fun j => j ∉ t.mines)).card ≤
      actSafe t) :
    ∀ j, j < nsq t → j ∉ t.mines → some j ∈ t.activated := by
  classical
  set lf := t.activated.filter (fun q => !(memMines q t.mines)) with hlf
  have hsubf : ∀ q ∈ lf, q ∈ t.activated := by
    intro q hq
    exact (List.mem_filter.mp hq).1
  have hndf : lf.Nodup := hnd.filter _
  set ln := lf.map (fun q => q.getD 0) with hln
  have hsome : ∀ q ∈ lf, ∃ j, q = some j := by
    intro q hq
    cases q with
    | none => exact absurd (hsubf _ hq) hnone
    | some j => exact ⟨j, rfl⟩
  have hndn : ln.Nodup := by
    refine hndf.map_on ?_
    intro q hq q' hq' he
    obtain ⟨j, rfl⟩ := hsome q hq
    obtain ⟨j', rfl⟩ := hsome q' hq'
    simp only [Option.getD_some] at he
    rw [he]
  have hsub : ln.toFinset ⊆
      (Finset.range (nsq t)).filter (fun j => j ∉ t.mines) := by
    intro j hj
    rw [List.mem_toFinset] at hj
    obtain ⟨q, hq, hqj⟩ := List.mem_map.mp hj
    obtain ⟨j', rfl⟩ := hsome q hq
    simp only [Option.getD_some] at hqj
    subst hqj
    obtain ⟨hqa, hqm⟩ := List.mem_filter.mp hq
    simp only [Finset.mem_filter, Finset.mem_range]
    refine ⟨hval _ hqa j' rfl, ?_⟩
    intro hc
    rw [Bool.not_eq_true'] at hqm
    rw [← memMines_some] at hc
    rw [hqm] at hc
    exact absurd hc (by simp)
  have hcard1 : ln.toFinset.card = ln.length :=
    List.toFinset_card_of_nodup hndn
  have hlen : ln.length = actSafe t := by
    rw [hln]
    simp only [List.length_map]
    rfl
  have heq : ln.toFinset =
      (Finset.range (nsq t)).filter (fun j => j ∉ t.mines) := by
    apply Finset.eq_of_subset_of_card_le hsub
    rw [hcard1, hlen]
    exact hge
  intro j hj hjm
  have hjmem : j ∈ ln.toFinset := by
    rw [heq]
    simp only [Finset.mem_filter, Finset.mem_range]
    exact ⟨hj, hjm⟩
  rw [List.mem_toFinset] at hjmem
  obtain ⟨q, hq, hqj⟩ := List.mem_map.mp hjmem
  obtain ⟨j', rfl⟩ := hsome q hq
  simp only [Option.getD_some] at hqj
  subst hqj
  exact hsubf _ hq

/-- Conversely, if every safe square is revealed, the revealed-safe count
reaches the number of safe squares. -/
theorem actSafe_ge_of_all_safe {t : GameState}
    (hall : ∀ j, j < nsq t → j ∉ t.mines → some j ∈ t.activated) :
    ((Finset.range (nsq t)).filter (fun j => j ∉ t.mines)).card ≤
      actSafe t := by
  classical
  set lf := t.activated.filter (fun q => !(memMines q t.mines)) with hlf
  set ln := lf.map (fun q => q.getD 0) with hln
  have hsub : (Finset.range (nsq t)).filter (fun j => j ∉ t.mines) ⊆
      ln.toFinset := by
    intro j hj
    simp only [Finset.mem_filter, Finset.mem_range] at hj
    have hact := hall j hj.1 hj.2
    have hmem : some j ∈ lf := by
      rw [hlf, List.mem_filter]
      refine ⟨hact, ?_⟩
      cases hmm : memMines (some j) t.mines with
      | true => exact absurd (memMines_some.mp hmm) hj.2
      | false => rfl
    rw [List.mem_toFinset, hln]
    exact List.mem_map.mpr ⟨some j, hmem, rfl⟩
  have h1 := Finset.card_le_card hsub
  have h2 : ln.toFinset.card ≤ ln.length := ln.toFinset_card_le
  have h3 : ln.length = actSafe t := by
    rw [hln]
    simp only [List.length_map]
    rfl
  omega

/-- After a full sweep, every unflagged in-range square is revealed. -/
theorem fullySwept_unmarked {t : GameState} (hfs : FullySwept t) :
    ∀ j, j < nsq t → some j ∉ t.marked → some j ∈ t.activated := by
  intro j hj hjm
  have hszp : 0 < t.size := by
    rcases Nat.eq_zero_or_pos t.size with h0 | h0
    · unfold nsq at hj
      rw [h0] at hj
      simp at hj
    · exact h0
  have hdiv : j / t.size < t.size := by
    rw [Nat.div_lt_iff_lt_mul hszp]
    unfold nsq at hj
    rw [Nat.mul_comm]
    exact hj
  have hinr : InRange t ((j % t.size : Nat) : Int) ((j / t.size : Nat) : Int) := by
    refine ⟨Int.natCast_nonneg _, ?_, Int.natCast_nonneg _, ?_⟩
    · exact_mod_cast Nat.mod_lt j hszp
    · exact_mod_cast hdiv
  have hidx : idx t ((j % t.size : Nat) : Int) ((j / t.size : Nat) : Int) = j := by
    unfold idx
    have h0 := Nat.div_add_mod j t.size
    rw [Nat.mul_comm] at h0
    have h1 : ((j / t.size : Nat) : Int) * (t.size : Int) +
        ((j % t.size : Nat) : Int) = (j : Int) := by
      exact_mod_cast h0
    rw [h1]
    simp
  rcases hfs _ _ hinr with h | h
  · rwa [hidx] at h
  · rw [hidx] at h
    exact absurd h hjm

/-- C2 (amended): on a reachable position whose mine list was generated
exactly once (its length equals `mineCount`), the game shows the winning
text exactly when it does not show the losing text, something is revealed,
and every safe square is revealed.  The restriction to positions that are
not lost is necessary: the end-of-game sweep of a loss also reveals every
unflagged safe square (see the counterexample). -/
theorem C2_win_detection (s : GameState) (hs : Reachable s)
    (hm : s.mines.length = s.mineCount) :
    s.ending = "You won" ↔
      (s.ending ≠ "You lose" ∧ s.activated ≠ [] ∧
        ∀ j, j < nsq s → j ∉ s.mines → some j ∈ s.activated) := by
  obtain ⟨m1, m2, m3, m4, m5, a1, a2, mc, mg, cnt, up, nm, t3, w⟩ :=
    reachable_inv hs
  obtain ⟨mnd, mval⟩ := mg hm
  have hnone : (none : Square) ∉ s.activated := by
    intro hc
    obtain ⟨j, _, hj⟩ := a2 _ hc
    exact absurd hj (by simp)
  have hval' : ∀ q ∈ s.activated, ∀ j, q = some j → j < nsq s := by
    intro q hq j hqj
    obtain ⟨j2, hj2, hq2⟩ := a2 q hq
    rw [hq2] at hqj
    simp only [Option.some.injEq] at hqj
    omega
  have hcard : ((Finset.range (nsq s)).filter (fun j => j ∉ s.mines)).card +
      s.mines.length = nsq s := safe_card mnd mval
  constructor
  · intro hwon
    have hund := w hwon
    have hge : ((Finset.range (nsq s)).filter
        (fun j => j ∉ s.mines)).card ≤ actSafe s := by
      omega
    refine ⟨by rw [hwon]; decide, ?_, ?_⟩
    · intro hc
      have haz : actSafe s = 0 := by
        unfold actSafe
        rw [hc]
        rfl
      omega
    · exact all_safe_of_actSafe_ge a1 hnone hval' hge
  · rintro ⟨hnl, hna, hall⟩
    have hge := actSafe_ge_of_all_safe hall
    have hund : s.undiscovered ≤ 0 := by
      omega
    have hne : s.ending ≠ "" := by
      intro hc
      have := up hc
      omega
    rcases t3 with h | h | h
    · exact absurd h hne
    · exact absurd h hnl
    · exact h

/-- The board after the first reveal of a 2x2 game with one mine: square 0
revealed with count 1 and the mine on square 3. -/
def c2s1 : GameState :=
  { size := 2
    mineCount := 1
    marked := []
    activated := [some 0]
    mines := [3]
    minesLabel := 1
    undiscovered := 2
    img := updImg (fun _ => 10) 0 1
    ending := ""
    bound := true }

/-- The original C2 sentence is false: a lost game can have every safe
square revealed (the loss sweep reveals them), so "Won iff every non-mine
cell is revealed" fails.  Witnessed by a reachable 2x2 game that reveals
the safe corner and then the mine. -/
theorem C2_counterexample :
    ∃ t : GameState, Reachable t ∧ t.mines.length = t.mineCount ∧
      t.ending ≠ "You won" ∧
      ∀ j, j < nsq t → j ∉ t.mines → some j ∈ t.activated := by
  have h1 : activate_square 30 (new_game 2 1) 0 0 true [3] =
      some (c2s1, true) := rfl
  have hr1 : Reachable c2s1 :=
    Reachable.reveal (new_game 2 1) 0 0 [3] 30 c2s1
      (Reachable.start 2 1 (by decide) (by decide)) rfl (by decide)
      (fun _ => by decide) h1
  obtain ⟨pr, hpr⟩ := Option.isSome_iff_exists.mp
    ((term_all 85).2.1 c2s1 1 1 true [] (by decide))
  obtain ⟨t, ok⟩ := pr
  obtain ⟨hok, hend, hbd, hact, himg⟩ := activate_mine_lose (i := 3)
    (by decide) (by decide) (by decide) (by decide) (by decide) hpr
  subst hok
  have hr2 : Reachable t :=
    Reachable.reveal c2s1 1 1 [] 85 t hr1 rfl (by decide)
      (fun hc => absurd hc (by decide)) hpr
  have e : Ext c2s1 t := ext_activate hpr
  have hmines : t.mines = c2s1.mines := e.mines_eq (by decide)
  refine ⟨t, hr2, ?_, ?_, ?_⟩
  · rw [hmines, e.mc_eq]
    decide
  · rw [hend]
    decide
  · rcases (sweep_all 85).1 c2s1 1 1 true [] t (by decide) hpr with h2 | h2
    · rw [hend] at h2
      exact absurd h2 (by decide)
    · intro j hj hjm
      refine fullySwept_unmarked h2 j hj ?_
      rw [e.marked_eq]
      simp [c2s1]

theorem C2_witness :
    Reachable (new_game 2 0) ∧
    (new_game 2 0).mines.length = (new_game 2 0).mineCount ∧
    ((new_game 2 0).ending = "You won" ↔
      ((new_game 2 0).ending ≠ "You lose" ∧
        (new_game 2 0).activated ≠ [] ∧
        ∀ j, j < nsq (new_game 2 0) → j ∉ (new_game 2 0).mines →
          some j ∈ (new_game 2 0).activated)) :=
  ⟨Reachable.start 2 0 (by decide) (by decide), rfl,
   C2_win_detection (new_game 2 0)
     (Reachable.start 2 0 (by decide) (by decide)) rfl⟩

/-! ## The end-of-game sweep -/

/-- Through the end-of-game sweep (reveals with `check_adjacent = false` on
fresh squares, and the loops around them), an unflagged mine square only
ever gets the plain-bomb image 9: once the property "if `j` is revealed its
image is 9" holds it is preserved, because the sweep reveals `j` with the
`ca = false` branch. -/
theorem img9_all (f : Nat) :
    (∀ s x y rng s' j, s.activated ≠ [] → j ∈ s.mines →
      some j ∉ s.marked → get_square s x y ∉ s.activated →
      (some j ∈ s.activated → s.img j = 9) →
      activate_square f s x y false rng = some (s', true) →
      (some j ∈ s'.activated → s'.img j = 9)) ∧
    (∀ s msg rng s' j, s.activated ≠ [] → j ∈ s.mines →
      some j ∉ s.marked →
      (some j ∈ s.activated → s.img j = 9) →
      end_game f s msg rng = some (s', true) →
      (some j ∈ s'.activated → s'.img j = 9)) ∧
    (∀ s ps rng s' j, s.activated ≠ [] → j ∈ s.mines →
      some j ∉ s.marked →
      (some j ∈ s.activated → s.img j = 9) →
      end_go f s ps rng = some (s', true) →
      (some j ∈ s'.activated → s'.img j = 9)) ∧
    (∀ s rng s' j, s.activated ≠ [] → j ∈ s.mines →
      some j ∉ s.marked →
      (some j ∈ s.activated → s.img j = 9) →
      check_win f s rng = some (s', true) →
      (some j ∈ s'.activated → s'.img j = 9)) := by
  induction f with
  | zero =>
    refine ⟨fun s x y rng s' j _ _ _ _ _ h => ?_,
      fun s msg rng s' j _ _ _ _ h => ?_, fun s ps rng s' j _ _ _ _ h => ?_,
      fun s rng s' j _ _ _ _ h => ?_⟩ <;>
      simp [activate_square, end_game, end_go, check_win] at h
  | succ f ih =>
    obtain ⟨ihA, ihE, ihO, ihW⟩ := ih
    refine ⟨?_, ?_, ?_, ?_⟩
    · -- activate_square with ca = false on a fresh square
      intro s x y rng s' j hne hjm hjmk htna hphi h
      simp only [activate_square] at h
      split at h
      · next hfc =>
        rw [if_neg hne] at hfc
        simp at hfc
      · next s1 hfc =>
        rw [if_neg hne] at hfc
        simp only [Option.some.injEq] at hfc
        subst hfc
        by_cases hm : get_square s x y ∈ s.marked
        · rw [if_pos hm] at h
          simp only [Option.some.injEq, Prod.mk.injEq] at h
          obtain ⟨h1, _⟩ := h
          subst h1
          exact hphi
        · rw [if_neg hm] at h
          rw [if_neg htna] at h
          cases hsq : get_square s x y with
          | none =>
            rw [hsq] at h
            dsimp only at h
            simp only [memMines, Bool.false_eq_true, if_false,
              Option.some.injEq, Prod.mk.injEq] at h
            exact absurd h.2 (by simp)
          | some k =>
            rw [hsq] at h
            rw [hsq] at htna
            dsimp only at h
            have hkj : some j ∈ s.activated ++ [some k] → s.img j = 9 ∨ j = k := by
              intro hjk
              simp only [List.mem_append, List.mem_singleton,
                Option.some.injEq] at hjk
              rcases hjk with hjk | hjk
              · exact Or.inl (hphi hjk)
              · exact Or.inr hjk
            by_cases hmn : memMines (some k) s.mines = true
            · rw [if_pos hmn] at h
              refine ihE _ "You lose" rng s' j ?_ ?_ ?_ ?_ h
              · simp
              · exact hjm
              · exact hjmk
              · intro hjT
                have := hkj hjT
                show updImg s.img k (if false = true then 12 else 9) j = 9
                unfold updImg
                by_cases hjk : j = k
                · simp [hjk]
                · rw [if_neg hjk]
                  rcases this with h2 | h2
                  · exact h2
                  · exact absurd h2 hjk
            · rw [if_neg hmn] at h
              have hkj2 : j ≠ k := by
                intro hc
                subst hc
                exact hmn (memMines_some.mpr hjm)
              split at h
              · next hc =>
                simp at hc
              · refine ihW _ rng s' j ?_ ?_ ?_ ?_ h
                · simp
                · exact hjm
                · exact hjmk
                · intro hjT
                  have := hkj hjT
                  show updImg s.img k _ j = 9
                  unfold updImg
                  rw [if_neg hkj2]
                  rcases this with h2 | h2
                  · exact h2
                  · exact absurd h2 hkj2
    · -- end_game
      intro s msg rng s' j hne hjm hjmk hphi h
      simp only [end_game] at h
      cases heq : end_go f s (allCoords s) rng with
      | none =>
        rw [heq] at h
        exact absurd h (by simp)
      | some pr =>
        rw [heq] at h
        obtain ⟨t, okt⟩ := pr
        cases okt with
        | false =>
          dsimp only at h
          simp only [Option.some.injEq, Prod.mk.injEq] at h
          exact absurd h.2 (by simp)
        | true =>
          dsimp only at h
          simp only [Option.some.injEq, Prod.mk.injEq] at h
          obtain ⟨h1, _⟩ := h
          have ht := ihO s (allCoords s) rng t j hne hjm hjmk hphi heq
          rw [← h1]
          exact ht
    · -- end_go
      intro s ps rng s' j hne hjm hjmk hphi h
      cases ps with
      | nil =>
        simp only [end_go, Option.some.injEq, Prod.mk.injEq] at h
        obtain ⟨h1, _⟩ := h
        subst h1
        exact hphi
      | cons p rest =>
        simp only [end_go] at h
        by_cases hac : get_square s p.1 p.2 ∈ s.activated
        · rw [if_pos hac] at h
          exact ihO s rest rng s' j hne hjm hjmk hphi h
        · rw [if_neg hac] at h
          cases heq : activate_square f s p.1 p.2 false rng with
          | none =>
            rw [heq] at h
            exact absurd h (by simp)
          | some pr =>
            rw [heq] at h
            obtain ⟨t, okt⟩ := pr
            cases okt with
            | false =>
              dsimp only at h
              simp only [Option.some.injEq, Prod.mk.injEq] at h
              exact absurd h.2 (by simp)
            | true =>
              dsimp only at h
              have hphit := ihA s p.1 p.2 rng t j hne hjm hjmk hac hphi heq
              have et : Ext s t := ext_activate heq
              have hnet : t.activated ≠ [] := by
                obtain ⟨l, hl⟩ := et.act_ext
                rw [hl]
                simp [hne]
              refine ihO t rest rng s' j hnet ?_ ?_ hphit h
              · rw [et.mines_eq hne]
                exact hjm
              · rw [et.marked_eq]
                exact hjmk
    · -- check_win
      intro s rng s' j hne hjm hjmk hphi h
      simp only [check_win] at h
      by_cases hc : s.undiscovered ≤ 0
      · rw [if_pos hc] at h
        exact ihE s "You won" rng s' j hne hjm hjmk hphi h
      · rw [if_neg hc] at h
        simp only [Option.some.injEq, Prod.mk.injEq] at h
        obtain ⟨h1, _⟩ := h
        subst h1
        exact hphi

/-- The board after flagging square 1 on `c2s1`. -/
def c5s2 : GameState :=
  { size := 2
    mineCount := 1
    marked := [some 1]
    activated := [some 0]
    mines := [3]
    minesLabel := 0
    undiscovered := 2
    img := updImg (updImg (fun _ => 10) 0 1) 1 11
    ending := ""
    bound := true }

/-- The original C5 sentence is false: the loss sweep skips flagged
squares, so "every cell not yet revealed becomes revealed" fails — in a
reachable lost 2x2 game the flagged safe square 1 is still hidden. -/
theorem C5_counterexample :
    ∃ t : GameState, Reachable t ∧ t.ending = "You lose" ∧
      ∃ j, j < nsq t ∧ j ∉ t.mines ∧ some j ∉ t.activated := by
  have h1 : activate_square 30 (new_game 2 1) 0 0 true [3] =
      some (c2s1, true) := rfl
  have hr1 : Reachable c2s1 :=
    Reachable.reveal (new_game 2 1) 0 0 [3] 30 c2s1
      (Reachable.start 2 1 (by decide) (by decide)) rfl (by decide)
      (fun _ => by decide) h1
  have hr2 : Reachable c5s2 := Reachable.flag c2s1 1 0 hr1 rfl (by decide)
  obtain ⟨pr, hpr⟩ := Option.isSome_iff_exists.mp
    ((term_all 85).2.1 c5s2 1 1 true [] (by decide))
  obtain ⟨t, ok⟩ := pr
  obtain ⟨hok, hend, hbd, hact, himg⟩ := activate_mine_lose (i := 3)
    (by decide) (by decide) (by decide) (by decide) (by decide) hpr
  subst hok
  have hr3 : Reachable t :=
    Reachable.reveal c5s2 1 1 [] 85 t hr2 rfl (by decide)
      (fun hc => absurd hc (by decide)) hpr
  have e : Ext c5s2 t := ext_activate hpr
  refine ⟨t, hr3, hend, 1, ?_, ?_, ?_⟩
  · have hnsq : nsq t = nsq c5s2 := by
      unfold nsq
      rw [e.size_eq]
    rw [hnsq]
    decide
  · rw [e.mines_eq (by decide)]
    decide
  · exact e.marked_stays_hidden (by decide) (by decide)

/-! ## C4: the cascade region -/

/-- The nine squares the 3x3 loop of `activate_adjacent_squares` inspects
around cell `a` (out-of-range coordinates give `none`). -/
def nbhdSquares (s : GameState) (a : Nat) : List Square :=
  (nbhd s a).map (fun p => get_square s p.1 p.2)

/-- Cell `b` lies in the 3x3 neighbourhood of cell `a`. -/
def cellAdj (s : GameState) (a b : Nat) : Prop :=
  some b ∈ nbhdSquares s a

/-- A hidden, unflagged cell with adjacent mine count zero: the cells the
cascade propagates through. -/
def Zcell (s : GameState) (k : Nat) : Prop :=
  (calculate_mines_and_flags s k).1 = 0 ∧ some k ∉ s.marked ∧
    some k ∉ s.activated

instance (s : GameState) (k : Nat) : Decidable (Zcell s k) := by
  unfold Zcell
  exact inferInstance

/-- One propagation step of the cascade: from a hidden unflagged zero-count
cell to any hidden unflagged neighbour. -/
def CascStep (s : GameState) (a b : Nat) : Prop :=
  Zcell s a ∧ cellAdj s a b ∧ some b ∉ s.marked ∧ some b ∉ s.activated

/-- The cells the cascade started at `i` reaches: the reflexive transitive
closure of `CascStep`. -/
def Casc (s : GameState) (i k : Nat) : Prop :=
  Relation.ReflTransGen (CascStep s) i k

theorem nbhd_congr {t s : GameState} (hsz : t.size = s.size) (a : Nat) :
    nbhd t a = nbhd s a := by
  unfold nbhd
  rw [hsz]

theorem nbhdSquares_congr {t s : GameState} (hsz : t.size = s.size)
    (a : Nat) : nbhdSquares t a = nbhdSquares s a := by
  unfold nbhdSquares
  rw [nbhd_congr hsz]
  exact List.map_congr_left (fun p _ => get_square_congr hsz p.1 p.2)

/-- The mine and flag counts of a cell depend only on the grid size, the
flag list and the mine list. -/
theorem calc_congr (t s : GameState) (hsz : t.size = s.size)
    (hmk : t.marked = s.marked) (hmn : t.mines = s.mines) (k : Nat) :
    calculate_mines_and_flags t k = calculate_mines_and_flags s k := by
  unfold calculate_mines_and_flags
  rw [nbhd_congr hsz]
  have hf : (fun (mf : Nat × Nat) (p : Int × Int) =>
      let cur := get_square t p.1 p.2
      if cur = some k then mf
      else (if memMines cur t.mines then mf.1 + 1 else mf.1,
            if cur ∈ t.marked then mf.2 + 1 else mf.2)) =
      (fun (mf : Nat × Nat) (p : Int × Int) =>
      let cur := get_square s p.1 p.2
      if cur = some k then mf
      else (if memMines cur s.mines then mf.1 + 1 else mf.1,
            if cur ∈ s.marked then mf.2 + 1 else mf.2)) := by
    funext mf p
    rw [get_square_congr hsz, hmk, hmn]
  rw [hf]

theorem calc_upd_act_und (u : GameState) (A : List Square) (U : Int)
    (k : Nat) :
    calculate_mines_and_flags { u with activated := A, undiscovered := U } k =
      calculate_mines_and_flags u k := rfl

theorem calc_upd_act (u : GameState) (A : List Square) (k : Nat) :
    calculate_mines_and_flags { u with activated := A } k =
      calculate_mines_and_flags u k := rfl

theorem calc_upd_und (u : GameState) (U : Int) (k : Nat) :
    calculate_mines_and_flags { u with undiscovered := U } k =
      calculate_mines_and_flags u k := rfl

theorem calc_upd_img (u : GameState) (g : Nat → Nat) (k : Nat) :
    calculate_mines_and_flags { u with img := g } k =
      calculate_mines_and_flags u k := rfl

/-- Every cell the cascade reaches from an unflagged hidden click is itself
unflagged and hidden in the base state. -/
theorem casc_fresh {s : GameState} {i b : Nat} (hZ : Zcell s i)
    (hc : Casc s i b) : some b ∉ s.marked ∧ some b ∉ s.activated := by
  induction hc with
  | refl => exact ⟨hZ.2.1, hZ.2.2⟩
  | tail _ hstep _ => exact ⟨hstep.2.2.1, hstep.2.2.2⟩

/-- A neighbour of a zero-count cell, other than the cell itself, is not a
mine. -/
theorem step_no_mine {s : GameState} {a b : Nat}
    (hz : (calculate_mines_and_flags s a).1 = 0)
    (hadj : cellAdj s a b) (hne : b ≠ a) : b ∉ s.mines := by
  have hc0 : (nbhd s a).countP (nbMine s a) = 0 := by
    have h1 := congrArg Prod.fst (calc_eq_countP s a)
    dsimp only at h1
    rw [hz] at h1
    exact h1.symm
  have hadj2 : some b ∈ (nbhd s a).map (fun p => get_square s p.1 p.2) := hadj
  obtain ⟨p, hp, hpb⟩ := List.mem_map.mp hadj2
  intro hbm
  have hnb : nbMine s a p = true := by
    unfold nbMine
    rw [hpb, memMines_some.mpr hbm]
    simp [hne]
  exact List.countP_eq_zero.mp hc0 p hp hnb

/-- Starting from a non-mine cell, every cell the cascade reaches is safe:
each step leaves a zero-count cell, whose neighbourhood holds no mine. -/
theorem casc_no_mine {s : GameState} {i k : Nat} (hi : i ∉ s.mines)
    (hc : Casc s i k) : k ∉ s.mines := by
  induction hc with
  | refl => exact hi
  | @tail b c _ hstep ih =>
    by_cases hbc : c = b
    · subst hbc
      exact ih
    · exact step_no_mine hstep.1.1 hstep.2.1 hbc

/-- Any list of cells containing the click and closed under one cascade
step contains every cell the cascade reaches. -/
theorem casc_closed {s : GameState} {i : Nat} (S : List Nat) (hiS : i ∈ S)
    (hcl : ∀ a ∈ S, Zcell s a → ∀ b ∈ (nbhdSquares s a).filterMap id,
      some b ∉ s.marked → some b ∉ s.activated → b ∈ S) :
    ∀ k, Casc s i k → k ∈ S := by
  intro k hk
  induction hk with
  | refl => exact hiS
  | tail _ hstep ih =>
    obtain ⟨hZ, hadj, hm, ha⟩ := hstep
    refine hcl _ ih hZ _ ?_ hm ha
    exact List.mem_filterMap.mpr ⟨_, hadj, rfl⟩

/-- A win check on a state that still has hidden safe squares returns the
state unchanged. -/
theorem check_win_keep {f : Nat} {t : GameState} {rng : List Nat}
    {s' : GameState} {ok : Bool} (h : check_win f t rng = some (s', ok))
    (hpos : 0 < t.undiscovered) : s' = t ∧ ok = true := by
  match f with
  | 0 => simp [check_win] at h
  | f + 1 =>
    unfold check_win at h
    rw [if_neg (by omega)] at h
    simp only [Option.some.injEq, Prod.mk.injEq] at h
    exact ⟨h.1.symm, h.2.symm⟩

/-- A duplicate-free list of squares whose members all come from a base
list or from `some` of a cell list is no longer than the two together. -/
theorem act_len_bound {L A : List Square} {S : List Nat} (hnd : L.Nodup)
    (hsub : ∀ q ∈ L, q ∈ A ∨ ∃ k, q = some k ∧ k ∈ S) :
    L.length ≤ A.length + S.length := by
  have hsub2 : ∀ q ∈ L, q ∈ A ++ S.map some := by
    intro q hq
    rcases hsub q hq with h | ⟨k, rfl, hk⟩
    · exact List.mem_append.mpr (Or.inl h)
    · exact List.mem_append.mpr (Or.inr (List.mem_map.mpr ⟨k, hk, rfl⟩))
  calc L.length = L.toFinset.card := (List.toFinset_card_of_nodup hnd).symm
    _ ≤ (A ++ S.map some).toFinset.card := by
        apply Finset.card_le_card
        intro q hq
        rw [List.mem_toFinset] at hq ⊢
        exact hsub2 q hq
    _ ≤ (A ++ S.map some).length := List.toFinset_card_le _
    _ = A.length + S.length := by simp

/-- A fully swept state shows every cell that exists on the grid of an
equally sized state as activated or flagged. -/
theorem fullySwept_covers {u t : GameState} (hfs : FullySwept u)
    (hsz : t.size = u.size) {x y : Int} {b : Nat}
    (hsq : get_square t x y = some b) :
    some b ∈ u.activated ∨ some b ∈ u.marked := by
  obtain ⟨hinr, hbi, _⟩ := get_square_eq_some hsq
  have hinr2 : InRange u x y := (InRange_congr hsz).mp hinr
  have hidx : idx u x y = b := by
    unfold idx
    rw [← hsz, ← hbi]
    simp
  rcases hfs x y hinr2 with h | h
  · rw [hidx] at h
    exact Or.inl h
  · rw [hidx] at h
    exact Or.inr h

/-- Invariant of a cascade run from base state `s` after clicking cell `i`:
the state extends the base, the ending label is unchanged, and every newly
activated square is a cell the cascade relation reaches. -/
def SRel (s : GameState) (i : Nat) (t : GameState) : Prop :=
  Ext s t ∧ t.ending = s.ending ∧
    ∀ q ∈ t.activated, q ∉ s.activated → ∃ k, q = some k ∧ Casc s i k

theorem ext_act_ne {s t : GameState} (e : Ext s t) (h : s.activated ≠ []) :
    t.activated ≠ [] := by
  obtain ⟨l, hl⟩ := e.act_ext
  rw [hl]
  intro hx
  have h1 := congrArg List.length hx
  simp only [List.length_append, List.length_nil] at h1
  exact h (List.length_eq_zero.mp (by omega))

/-- While a run only adds cascade cells of a closed overapproximation `S`
too small to exhaust the safe counter, the counter stays positive, so the
win check cannot fire. -/
theorem srel_und_pos {s0 : GameState} {i : Nat} {S : List Nat}
    (hne0 : s0.activated ≠ []) (hnd0 : s0.activated.Nodup)
    (hScl : ∀ a ∈ S, Zcell s0 a → ∀ b ∈ (nbhdSquares s0 a).filterMap id,
      some b ∉ s0.marked → some b ∉ s0.activated → b ∈ S)
    (hiS : i ∈ S)
    (hguard : (s0.activated.length : Int) + S.length <
      s0.undiscovered + actSafe s0)
    {t : GameState} (ht : SRel s0 i t) : 0 < t.undiscovered := by
  obtain ⟨e, _, hfr⟩ := ht
  have hcnt := e.counter hne0
  have h1 : actSafe t ≤ t.activated.length := List.length_filter_le _ _
  have h2 : t.activated.length ≤ s0.activated.length + S.length := by
    apply act_len_bound (e.nodup hnd0)
    intro q hq
    by_cases hq0 : q ∈ s0.activated
    · exact Or.inl hq0
    · obtain ⟨k, rfl, hk⟩ := hfr q hq hq0
      exact Or.inr ⟨k, rfl, casc_closed S hiS hScl k hk⟩
  have h3 : (actSafe s0 : Int) ≤ (s0.activated.length : Int) := by
    exact_mod_cast List.length_filter_le _ _
  omega

/-- Soundness of the cascade region: a reveal aimed at a cascade-reachable
(or flagged) fresh cell, run from a state that extends the base only by
cascade cells, again only adds cascade cells and leaves the ending label
alone — provided the closed overapproximation `S` of the region is too
small to empty the safe counter, so no end-of-game sweep can fire.  One
induction on the fuel across `activate_square`,
`activate_adjacent_squares`, its loop, and `check_victory`. -/
theorem casc_sound (s0 : GameState) (i : Nat) (S : List Nat)
    (hi0 : i ∉ s0.mines) (hne0 : s0.activated ≠ [])
    (hnd0 : s0.activated.Nodup) (hiS : i ∈ S)
    (hScl : ∀ a ∈ S, Zcell s0 a → ∀ b ∈ (nbhdSquares s0 a).filterMap id,
      some b ∉ s0.marked → some b ∉ s0.activated → b ∈ S)
    (hguard : (s0.activated.length : Int) + S.length <
      s0.undiscovered + actSafe s0) (f : Nat) :
    (∀ t x y b rng s', SRel s0 i t →
      get_square t x y = some b → (Casc s0 i b ∨ some b ∈ s0.marked) →
      get_square t x y ∉ t.activated →
      activate_square f t x y true rng = some (s', true) → SRel s0 i s') ∧
    (∀ t a rng s', SRel s0 i t → Casc s0 i a → Zcell s0 a →
      activate_adjacent f t a rng = some (s', true) → SRel s0 i s') ∧
    (∀ t a ps rng s', SRel s0 i t → Casc s0 i a → Zcell s0 a →
      (∀ p ∈ ps, p ∈ nbhd s0 a) →
      adjacent_go f t ps rng = some (s', true) → SRel s0 i s') ∧
    (∀ t rng s', SRel s0 i t →
      check_win f t rng = some (s', true) → SRel s0 i s') := by
  induction f with
  | zero =>
    refine ⟨fun t x y b rng s' _ _ _ _ h => ?_, fun t a rng s' _ _ _ h => ?_,
      fun t a ps rng s' _ _ _ _ h => ?_, fun t rng s' _ h => ?_⟩ <;>
      simp [activate_square, activate_adjacent, adjacent_go, check_win] at h
  | succ f ih =>
    obtain ⟨ihA, ihJ, ihG, ihW⟩ := ih
    refine ⟨?_, ?_, ?_, ?_⟩
    · -- activate_square
      intro t x y b rng s' hsrel htar htc hfr h
      obtain ⟨e, hendt, hfresh⟩ := hsrel
      have hnet : t.activated ≠ [] := ext_act_ne e hne0
      simp only [activate_square] at h
      split at h
      · simp at h
      · next s1 hfc =>
        rw [if_neg hnet] at hfc
        simp only [Option.some.injEq] at hfc
        subst hfc
        by_cases hm : get_square t x y ∈ t.marked
        · rw [if_pos hm] at h
          simp only [Option.some.injEq, Prod.mk.injEq] at h
          obtain ⟨h1, _⟩ := h
          subst h1
          exact ⟨e, hendt, hfresh⟩
        · rw [if_neg hm, if_neg hfr, htar] at h
          dsimp only at h
          have hbmt : some b ∉ t.marked := by
            rw [htar] at hm
            exact hm
          have hbm0 : some b ∉ s0.marked := by
            rw [← e.marked_eq]
            exact hbmt
          have hfrb : some b ∉ t.activated := by
            rw [htar] at hfr
            exact hfr
          have hb : Casc s0 i b := by
            rcases htc with hb | hb2
            · exact hb
            · exact absurd hb2 hbm0
          have hbmine : b ∉ s0.mines := casc_no_mine hi0 hb
          have hmn : ¬ memMines (some b) t.mines = true := by
            rw [e.mines_eq hne0]
            intro hx
            exact hbmine (memMines_some.mp hx)
          rw [if_neg hmn] at h
          have hblt : b < t.size * t.size := (get_square_eq_some htar).2.2
          have eT : Ext t { t with
              activated := t.activated ++ [some b],
              undiscovered := t.undiscovered - 1,
              img := updImg t.img b
                (calculate_mines_and_flags
                  { t with activated := t.activated ++ [some b],
                           undiscovered := t.undiscovered - 1 } b).1 } :=
            ext_append hfrb hbmt (Or.inr ⟨b, hblt, rfl⟩) (if_neg hmn).symm
          have hsrelT : SRel s0 i { t with
              activated := t.activated ++ [some b],
              undiscovered := t.undiscovered - 1,
              img := updImg t.img b
                (calculate_mines_and_flags
                  { t with activated := t.activated ++ [some b],
                           undiscovered := t.undiscovered - 1 } b).1 } := by
            refine ⟨Ext.trans e eT, hendt, ?_⟩
            intro q hq hq0
            rcases List.mem_append.mp hq with hq1 | hq1
            · exact hfresh q hq1 hq0
            · rw [List.mem_singleton] at hq1
              subst hq1
              exact ⟨b, rfl, hb⟩
          split at h
          · next hcz =>
            cases heq : activate_adjacent f { t with
                activated := t.activated ++ [some b],
                undiscovered := t.undiscovered - 1,
                img := updImg t.img b
                  (calculate_mines_and_flags
                    { t with activated := t.activated ++ [some b],
                             undiscovered := t.undiscovered - 1 } b).1 }
                b rng with
            | none =>
              rw [heq] at h
              exact absurd h (by simp)
            | some pr =>
              rw [heq] at h
              obtain ⟨s5, ok5⟩ := pr
              cases ok5 with
              | false =>
                dsimp only at h
                simp only [Option.some.injEq, Prod.mk.injEq] at h
                exact absurd h.2 (by simp)
              | true =>
                dsimp only at h
                have hZb : Zcell s0 b := by
                  have hz1 := hcz.1
                  rw [calc_upd_act_und,
                    calc_congr t s0 e.size_eq e.marked_eq
                      (e.mines_eq hne0) b] at hz1
                  exact ⟨hz1, hbm0, fun hx => hfrb (e.act_mono hx)⟩
                have hsrel5 := ihJ _ b rng s5 hsrelT hb hZb heq
                exact ihW s5 rng s' hsrel5 h
          · exact ihW _ rng s' hsrelT h
    · -- activate_adjacent
      intro t a rng s' hsrel ha hZa h
      simp only [activate_adjacent] at h
      refine ihG t a (nbhd t a) rng s' hsrel ha hZa ?_ h
      intro q hq
      rw [nbhd_congr (hsrel.1).size_eq] at hq
      exact hq
    · -- adjacent_go
      intro t a ps rng s' hsrel ha hZa hps h
      cases ps with
      | nil =>
        simp only [adjacent_go, Option.some.injEq, Prod.mk.injEq] at h
        obtain ⟨h1, _⟩ := h
        subst h1
        exact hsrel
      | cons p rest =>
        simp only [adjacent_go] at h
        by_cases hac : get_square t p.1 p.2 ∈ t.activated
        · rw [if_pos hac] at h
          exact ihG t a rest rng s' hsrel ha hZa
            (fun q hq => hps q (List.mem_cons_of_mem p hq)) h
        · rw [if_neg hac] at h
          cases hsq2 : get_square t p.1 p.2 with
          | none =>
            rw [hsq2] at h
            exact ihG t a rest rng s' hsrel ha hZa
              (fun q hq => hps q (List.mem_cons_of_mem p hq)) h
          | some c =>
            rw [hsq2] at h
            cases heq : activate_square f t p.1 p.2 true rng with
            | none =>
              rw [heq] at h
              exact absurd h (by simp)
            | some pr =>
              rw [heq] at h
              obtain ⟨t2, okt⟩ := pr
              cases okt with
              | false =>
                dsimp only at h
                simp only [Option.some.injEq, Prod.mk.injEq] at h
                exact absurd h.2 (by simp)
              | true =>
                dsimp only at h
                have hc0 : some c ∉ s0.activated := by
                  intro hx
                  have hx2 := (hsrel.1).act_mono hx
                  rw [← hsq2] at hx2
                  exact hac hx2
                have hsq0 : get_square s0 p.1 p.2 = some c := by
                  rw [← get_square_congr (hsrel.1).size_eq p.1 p.2]
                  exact hsq2
                have htar2 : Casc s0 i c ∨ some c ∈ s0.marked := by
                  by_cases hcm : some c ∈ s0.marked
                  · exact Or.inr hcm
                  · refine Or.inl (Relation.ReflTransGen.tail ha ?_)
                    refine ⟨hZa, ?_, hcm, hc0⟩
                    show some c ∈ (nbhd s0 a).map
                      (fun q => get_square s0 q.1 q.2)
                    exact List.mem_map.mpr
                      ⟨p, hps p (List.mem_cons_self p rest), hsq0⟩
                have hsrel2 :=
                  ihA t p.1 p.2 c rng t2 hsrel hsq2 htar2 hac heq
                exact ihG t2 a rest rng s' hsrel2 ha hZa
                  (fun q hq => hps q (List.mem_cons_of_mem p hq)) h
    · -- check_win
      intro t rng s' hsrel h
      have hpos := srel_und_pos hne0 hnd0 hScl hiS hguard hsrel
      obtain ⟨hst, _⟩ := check_win_keep h hpos
      subst hst
      exact hsrel

theorem calc_upd_aui (u : GameState) (A : List Square) (U : Int)
    (g : Nat → Nat) (k : Nat) :
    calculate_mines_and_flags
      { u with activated := A, undiscovered := U, img := g } k =
      calculate_mines_and_flags u k := rfl

/-- Completeness of the cascade walk: any zero-count cell freshly activated
by a reveal (or by a step of the cascade) ends with its whole 3x3
neighbourhood activated, flagged, or out of range — if an end-of-game
sweep fires instead, the whole grid is covered anyway.  One induction on
the fuel across `activate_square`, `activate_adjacent_squares` and its
loop. -/
theorem deep_cover (f : Nat) :
    (∀ t x y rng s', t.activated ≠ [] →
      activate_square f t x y true rng = some (s', true) →
      ∀ a, some a ∈ s'.activated → some a ∉ t.activated →
        (calculate_mines_and_flags t a).1 = 0 →
        ∀ p ∈ nbhd t a, get_square t p.1 p.2 ∈ s'.activated ∨
          get_square t p.1 p.2 ∈ s'.marked ∨ get_square t p.1 p.2 = none) ∧
    (∀ t c rng s', t.activated ≠ [] →
      activate_adjacent f t c rng = some (s', true) →
      ∀ a, some a ∈ s'.activated → some a ∉ t.activated →
        (calculate_mines_and_flags t a).1 = 0 →
        ∀ p ∈ nbhd t a, get_square t p.1 p.2 ∈ s'.activated ∨
          get_square t p.1 p.2 ∈ s'.marked ∨ get_square t p.1 p.2 = none) ∧
    (∀ t ps rng s', t.activated ≠ [] →
      adjacent_go f t ps rng = some (s', true) →
      ∀ a, some a ∈ s'.activated → some a ∉ t.activated →
        (calculate_mines_and_flags t a).1 = 0 →
        ∀ p ∈ nbhd t a, get_square t p.1 p.2 ∈ s'.activated ∨
          get_square t p.1 p.2 ∈ s'.marked ∨ get_square t p.1 p.2 = none) := by
  induction f with
  | zero =>
    refine ⟨fun t x y rng s' _ h => ?_, fun t c rng s' _ h => ?_,
      fun t ps rng s' _ h => ?_⟩ <;>
      simp [activate_square, activate_adjacent, adjacent_go] at h
  | succ f ih =>
    obtain ⟨ihA, ihJ, ihG⟩ := ih
    refine ⟨?_, ?_, ?_⟩
    · -- activate_square
      intro t x y rng s' hnet h a ha hfa hz0 p hp
      simp only [activate_square] at h
      split at h
      · simp at h
      · next s1 hfc =>
        rw [if_neg hnet] at hfc
        simp only [Option.some.injEq] at hfc
        subst hfc
        by_cases hm : get_square t x y ∈ t.marked
        · rw [if_pos hm] at h
          simp only [Option.some.injEq, Prod.mk.injEq] at h
          obtain ⟨h1, _⟩ := h
          subst h1
          exact absurd ha hfa
        · rw [if_neg hm] at h
          by_cases hac : get_square t x y ∈ t.activated
          · rw [if_pos hac] at h
            cases hsq : get_square t x y with
            | none =>
              rw [hsq] at h
              dsimp only at h
              simp at h
            | some c =>
              rw [hsq] at h
              dsimp only at h
              split at h
              · exact ihJ t c rng s' hnet h a ha hfa hz0 p hp
              · simp only [Option.some.injEq, Prod.mk.injEq] at h
                obtain ⟨h1, _⟩ := h
                subst h1
                exact absurd ha hfa
          · rw [if_neg hac] at h
            cases hsq : get_square t x y with
            | none =>
              rw [hsq] at h
              dsimp only at h
              simp only [memMines, Bool.false_eq_true, if_false,
                Option.some.injEq, Prod.mk.injEq] at h
              exact absurd h.2 (by simp)
            | some c =>
              rw [hsq] at h
              dsimp only at h
              by_cases hmn : memMines (some c) t.mines = true
              · rw [if_pos hmn] at h
                have hfs : FullySwept s' :=
                  (sweep_all f).2.2.2.1 _ "You lose" rng s' (by simp) h
                have hsz : t.size = s'.size :=
                  ((ext_end_game (Or.inl rfl) h).size_eq).symm
                cases hsqp : get_square t p.1 p.2 with
                | none => exact Or.inr (Or.inr rfl)
                | some d =>
                  rcases fullySwept_covers hfs hsz hsqp with h2 | h2
                  · exact Or.inl h2
                  · exact Or.inr (Or.inl h2)
              · rw [if_neg hmn] at h
                split at h
                · next hcz =>
                  cases heq : activate_adjacent f { t with
                      activated := t.activated ++ [some c],
                      undiscovered := t.undiscovered - 1,
                      img := updImg t.img c
                        (calculate_mines_and_flags
                          { t with activated := t.activated ++ [some c],
                                   undiscovered := t.undiscovered - 1 }
                          c).1 } c rng with
                  | none =>
                    rw [heq] at h
                    exact absurd h (by simp)
                  | some pr =>
                    rw [heq] at h
                    obtain ⟨s5, ok5⟩ := pr
                    cases ok5 with
                    | false =>
                      dsimp only at h
                      simp only [Option.some.injEq, Prod.mk.injEq] at h
                      exact absurd h.2 (by simp)
                    | true =>
                      dsimp only at h
                      have hne5 : s5.activated ≠ [] :=
                        ext_act_ne (ext_adjacent heq) (by simp)
                      have hsz5 : t.size = s5.size :=
                        ((ext_adjacent heq).size_eq).symm
                      by_cases hcw : s5.undiscovered ≤ 0
                      · match f, h with
                        | 0, h => simp [check_win] at h
                        | f2 + 1, h =>
                          unfold check_win at h
                          rw [if_pos hcw] at h
                          have hfs : FullySwept s' :=
                            (sweep_all f2).2.2.2.1 s5 "You won" rng s' hne5 h
                          have hsz : t.size = s'.size := by
                            rw [hsz5]
                            exact ((ext_end_game (Or.inr rfl) h).size_eq).symm
                          cases hsqp : get_square t p.1 p.2 with
                          | none => exact Or.inr (Or.inr rfl)
                          | some d =>
                            rcases fullySwept_covers hfs hsz hsqp with h2 | h2
                            · exact Or.inl h2
                            · exact Or.inr (Or.inl h2)
                      · obtain ⟨hst, _⟩ := check_win_keep h (by omega)
                        subst hst
                        by_cases haT : some a ∈ t.activated ++ [some c]
                        · have hae : a = c := by
                            rcases List.mem_append.mp haT with h2 | h2
                            · exact absurd h2 hfa
                            · rw [List.mem_singleton] at h2
                              simp only [Option.some.injEq] at h2
                              exact h2
                          subst hae
                          match f, heq with
                          | 0, heq => simp [activate_adjacent] at heq
                          | f2 + 1, heq =>
                            simp only [activate_adjacent] at heq
                            exact chord_cover f2 _ _ rng s' heq p hp
                        · exact ihJ _ c rng s' (by simp) heq a ha
                            (by exact haT)
                            (by rw [calc_upd_aui]; exact hz0) p (by exact hp)
                · next hcz =>
                  match f, h with
                  | 0, h => simp [check_win] at h
                  | f2 + 1, h =>
                    unfold check_win at h
                    split at h
                    · have hfs : FullySwept s' :=
                        (sweep_all f2).2.2.2.1 _ "You won" rng s' (by simp) h
                      have hsz : t.size = s'.size :=
                        ((ext_end_game (Or.inr rfl) h).size_eq).symm
                      cases hsqp : get_square t p.1 p.2 with
                      | none => exact Or.inr (Or.inr rfl)
                      | some d =>
                        rcases fullySwept_covers hfs hsz hsqp with h2 | h2
                        · exact Or.inl h2
                        · exact Or.inr (Or.inl h2)
                    · simp only [Option.some.injEq, Prod.mk.injEq] at h
                      obtain ⟨h1, _⟩ := h
                      subst h1
                      exfalso
                      rcases List.mem_append.mp ha with h2 | h2
                      · exact absurd h2 hfa
                      · rw [List.mem_singleton] at h2
                        simp only [Option.some.injEq] at h2
                        subst h2
                        refine hcz ⟨?_, trivial⟩
                        rw [calc_upd_act_und]
                        exact hz0
    · -- activate_adjacent
      intro t c rng s' hnet h a ha hfa hz0 p hp
      simp only [activate_adjacent] at h
      exact ihG t (nbhd t c) rng s' hnet h a ha hfa hz0 p hp
    · -- adjacent_go
      intro t ps rng s' hnet h a ha hfa hz0 p hp
      cases ps with
      | nil =>
        simp only [adjacent_go, Option.some.injEq, Prod.mk.injEq] at h
        obtain ⟨h1, _⟩ := h
        subst h1
        exact absurd ha hfa
      | cons q rest =>
        simp only [adjacent_go] at h
        by_cases hac : get_square t q.1 q.2 ∈ t.activated
        · rw [if_pos hac] at h
          exact ihG t rest rng s' hnet h a ha hfa hz0 p hp
        · rw [if_neg hac] at h
          cases hsq2 : get_square t q.1 q.2 with
          | none =>
            rw [hsq2] at h
            exact ihG t rest rng s' hnet h a ha hfa hz0 p hp
          | some c =>
            rw [hsq2] at h
            cases heq : activate_square f t q.1 q.2 true rng with
            | none =>
              rw [heq] at h
              exact absurd h (by simp)
            | some pr =>
              rw [heq] at h
              obtain ⟨t2, okt⟩ := pr
              cases okt with
              | false =>
                dsimp only at h
                simp only [Option.some.injEq, Prod.mk.injEq] at h
                exact absurd h.2 (by simp)
              | true =>
                dsimp only at h
                have e2 : Ext t t2 := ext_activate heq
                have hne2 : t2.activated ≠ [] := ext_act_ne e2 hnet
                by_cases ha2 : some a ∈ t2.activated
                · have hcov := ihA t q.1 q.2 rng t2 hnet heq a ha2 hfa hz0 p hp
                  have e3 : Ext t2 s' := ext_adjacent_go h
                  rcases hcov with h2 | h2 | h2
                  · exact Or.inl (e3.act_mono h2)
                  · refine Or.inr (Or.inl ?_)
                    rw [e3.marked_eq]
                    exact h2
                  · exact Or.inr (Or.inr h2)
                · have hz2 : (calculate_mines_and_flags t2 a).1 = 0 := by
                    rw [calc_congr t2 t e2.size_eq e2.marked_eq
                      (e2.mines_eq hnet) a]
                    exact hz0
                  have hp2 : p ∈ nbhd t2 a := by
                    rw [nbhd_congr e2.size_eq]
                    exact hp
                  have hcov := ihG t2 rest rng s' hne2 h a ha ha2 hz2 p hp2
                  rw [get_square_congr e2.size_eq p.1 p.2] at hcov
                  exact hcov

/-- Exactness of one reveal: soundness from `casc_sound`, completeness by
walking the cascade relation along `deep_cover`. -/
theorem casc_exact_run (f : Nat) (s : GameState) (x y : Int) (i : Nat)
    (rng : List Nat) (s' : GameState) (S : List Nat)
    (hne : s.activated ≠ []) (hnd : s.activated.Nodup)
    (hi0 : i ∉ s.mines)
    (hsq : get_square s x y = some i)
    (hZ : Zcell s i)
    (hiS : i ∈ S)
    (hScl : ∀ a ∈ S, Zcell s a → ∀ b ∈ (nbhdSquares s a).filterMap id,
      some b ∉ s.marked → some b ∉ s.activated → b ∈ S)
    (hguard : (s.activated.length : Int) + S.length <
      s.undiscovered + actSafe s)
    (h : activate_square f s x y true rng = some (s', true)) :
    s'.ending = s.ending ∧
    ∀ k, (some k ∈ s'.activated ↔ some k ∈ s.activated ∨ Casc s i k) := by
  have hsrel0 : SRel s i s :=
    ⟨Ext.refl s, rfl, fun q hq hq' => absurd hq hq'⟩
  have hfr : get_square s x y ∉ s.activated := by
    rw [hsq]
    exact hZ.2.2
  have hsrel := (casc_sound s i S hi0 hne hnd hiS hScl hguard f).1
    s x y i rng s' hsrel0 hsq (Or.inl Relation.ReflTransGen.refl) hfr h
  obtain ⟨e, hend, hfresh⟩ := hsrel
  refine ⟨hend, fun k => ⟨?_, ?_⟩⟩
  · intro hk
    by_cases hk0 : some k ∈ s.activated
    · exact Or.inl hk0
    · obtain ⟨k2, hk2, hc⟩ := hfresh (some k) hk hk0
      simp only [Option.some.injEq] at hk2
      subst hk2
      exact Or.inr hc
  · intro hk
    rcases hk with hk | hk
    · exact e.act_mono hk
    · have hclick : some i ∈ s'.activated := by
        rcases activate_clicked h with h2 | h2
        · rw [hsq] at h2
          exact h2
        · rw [hsq] at h2
          exact absurd h2 hZ.2.1
      induction hk with
      | refl => exact hclick
      | @tail b c hab hstep ih =>
        obtain ⟨hZb, hadj, hcm, hca⟩ := hstep
        have hadj2 : some c ∈ (nbhd s b).map
            (fun q => get_square s q.1 q.2) := hadj
        obtain ⟨p, hp, hpc⟩ := List.mem_map.mp hadj2
        have hcov := (deep_cover f).1 s x y rng s' hne h b ih hZb.2.2
          hZb.1 p hp
        rw [hpc] at hcov
        rcases hcov with h2 | h2 | h2
        · exact h2
        · rw [e.marked_eq] at h2
          exact absurd h2 hcm
        · exact absurd h2 (by simp)

instance (s : GameState) (a b : Nat) : Decidable (cellAdj s a b) := by
  unfold cellAdj
  exact inferInstance

instance (s : GameState) (a b : Nat) : Decidable (CascStep s a b) := by
  unfold CascStep
  exact inferInstance

/-- C4 (amended): cascade exactness.  On a game with something already
revealed, clicking a hidden, unflagged, zero-count, non-mine cell `i`
activates exactly the cells reached by `Casc s i`: the connected
zero-count region through cells that are both unflagged and still hidden,
together with its border of hidden unflagged neighbours; no other cell
changes from hidden to revealed, and the ending label does not change.
Scope: some closed overapproximation `S` of that region is small enough
that the run cannot exhaust the safe counter (otherwise the win sweep
takes over).  The original claim's connectivity through all unflagged
cells, revealed or not, is refuted by `C4_counterexample`. -/
theorem C4_cascade_exact (f : Nat) (s : GameState) (x y : Int) (i : Nat)
    (rng : List Nat) (s' : GameState) (S : List Nat)
    (hne : s.activated ≠ []) (hnd : s.activated.Nodup)
    (hi0 : i ∉ s.mines)
    (hsq : get_square s x y = some i)
    (hZ : Zcell s i)
    (hiS : i ∈ S)
    (hScl : ∀ a ∈ S, Zcell s a → ∀ b ∈ (nbhdSquares s a).filterMap id,
      some b ∉ s.marked → some b ∉ s.activated → b ∈ S)
    (hguard : (s.activated.length : Int) + S.length <
      s.undiscovered + actSafe s)
    (h : activate_square f s x y true rng = some (s', true)) :
    s'.ending = s.ending ∧
    ∀ k, (some k ∈ s'.activated ↔ some k ∈ s.activated ∨ Casc s i k) :=
  casc_exact_run f s x y i rng s' S hne hnd hi0 hsq hZ hiS hScl hguard h

/-- A 3x3 game with the mine in the lower-right corner, the centre
revealed and a flag on cell 5: clicking the zero-count corner 0 cascades
over the hidden unflagged zero cells. -/
def c4w : GameState :=
  { size := 3, mineCount := 1, marked := [some 5], activated := [some 4],
    mines := [8], minesLabel := 0, undiscovered := 7,
    img := fun _ => 10, ending := "", bound := true }

theorem C4_witness :
    (c4w.activated ≠ [] ∧ c4w.activated.Nodup ∧ 0 ∉ c4w.mines ∧
      get_square c4w 0 0 = some 0 ∧ Zcell c4w 0 ∧
      (0 : Nat) ∈ ([0, 1, 2, 3, 6, 7] : List Nat) ∧
      ((c4w.activated.length : Int) +
          (([0, 1, 2, 3, 6, 7] : List Nat)).length <
        c4w.undiscovered + actSafe c4w)) ∧
    ∃ s', activate_square 220 c4w 0 0 true [] = some (s', true) ∧
      s'.ending = c4w.ending ∧
      ∀ k, (some k ∈ s'.activated ↔ some k ∈ c4w.activated ∨ Casc c4w 0 k) := by
  obtain ⟨pr, hpr⟩ := Option.isSome_iff_exists.mp
    ((term_all 220).2.1 c4w 0 0 true [] (by decide))
  obtain ⟨s', ok⟩ := pr
  have hok : ok = true := okt_activate (by decide) (by decide) hpr
  subst hok
  exact ⟨⟨by decide, by decide, by decide, by decide, by decide, by decide,
      by decide⟩,
    s', hpr,
    C4_cascade_exact 220 c4w 0 0 0 [] s' [0, 1, 2, 3, 6, 7]
      (by decide) (by decide) (by decide) (by decide) (by decide) (by decide)
      (by decide) (by decide) hpr⟩

/-- The state after the first reveal of the run refuting the original C4
region claim: a 4x4 game, first click on cell 12 with the sample placing
the mines on the whole third row. -/
def c4p1 : GameState :=
  { size := 4, mineCount := 4, marked := [], activated := [some 12],
    mines := [8, 9, 10, 11], minesLabel := 4, undiscovered := 11,
    img := updImg (fun _ => 10) 12 2, ending := "", bound := true }

/-- `c4p1` with a flag on cell 0. -/
def c4p2 : GameState :=
  { size := 4, mineCount := 4, marked := [some 0], activated := [some 12],
    mines := [8, 9, 10, 11], minesLabel := 3, undiscovered := 11,
    img := updImg (updImg (fun _ => 10) 12 2) 0 11, ending := "",
    bound := true }

/-- `c4p2` with a flag on cell 2. -/
def c4p3 : GameState :=
  { size := 4, mineCount := 4, marked := [some 0, some 2],
    activated := [some 12], mines := [8, 9, 10, 11], minesLabel := 2,
    undiscovered := 11,
    img := updImg (updImg (updImg (fun _ => 10) 12 2) 0 11) 2 11,
    ending := "", bound := true }

/-- C4, counterexample to the original claim: a reachable in-progress 4x4
game (mines on the whole third row, two flags set before a cascade and
removed after it) in which cell 1 is revealed and zero-count.  Clicking
the hidden, unflagged, zero-count cell 0 should, by the claim, reveal the
zero-count region connected to it through unflagged cells — which
contains cell 2 via the unflagged zero-count chain 0, 1, 2 — but the
cascade skips the already revealed cell 1, so cell 2 stays hidden. -/
theorem C4_counterexample :
    ∃ (t : GameState) (f : Nat) (t' : GameState),
      Reachable t ∧ t.ending = "" ∧
      get_square t 0 0 = some 0 ∧
      (calculate_mines_and_flags t 0).1 = 0 ∧
      some 0 ∉ t.marked ∧ some 0 ∉ t.activated ∧
      (calculate_mines_and_flags t 1).1 = 0 ∧ some 1 ∉ t.marked ∧
      some 1 ∈ t.activated ∧
      (calculate_mines_and_flags t 2).1 = 0 ∧ some 2 ∉ t.marked ∧
      cellAdj t 0 1 ∧ cellAdj t 1 2 ∧
      activate_square f t 0 0 true [] = some (t', true) ∧
      some 2 ∉ t'.activated := by
  -- the reachable literal prefix: first reveal, then two flags
  have hr1 : Reachable c4p1 :=
    Reachable.reveal (new_game 4 4) 0 3 [8, 9, 10, 11] 30 c4p1
      (Reachable.start 4 4 (by decide) (by decide)) rfl (by decide)
      (fun _ => by decide) (by rfl)
  have hr2 : Reachable c4p2 := by
    have h2 := Reachable.flag c4p1 0 0 hr1 rfl (by decide)
    have e2 : (mark_square c4p1 0 0).1 = c4p2 := rfl
    rw [e2] at h2
    exact h2
  have hr3 : Reachable c4p3 := by
    have h2 := Reachable.flag c4p2 2 0 hr2 rfl (by decide)
    have e2 : (mark_square c4p2 2 0).1 = c4p3 := rfl
    rw [e2] at h2
    exact h2
  -- the mid reveal: cascade from cell 1 around the two flags
  obtain ⟨pr, hpr⟩ := Option.isSome_iff_exists.mp
    ((term_all 522).2.1 c4p3 1 0 true [] (by decide))
  obtain ⟨t, ok⟩ := pr
  have hok : ok = true := okt_activate (by decide) (by decide) hpr
  subst hok
  have hrt : Reachable t :=
    Reachable.reveal c4p3 1 0 [] 522 t hr3 rfl (by decide)
      (fun hc => absurd hc (by decide)) hpr
  have hmid := casc_exact_run 522 c4p3 1 0 1 [] t [1, 4, 5, 6]
    (by decide) (by decide) (by decide) (by decide) (by decide) (by decide)
    (by decide) (by decide) hpr
  have hch := hmid.2
  have hendt : t.ending = "" := hmid.1
  have et : Ext c4p3 t := ext_activate hpr
  -- membership in the mid state
  have h1t : some 1 ∈ t.activated :=
    (hch 1).mpr (Or.inr Relation.ReflTransGen.refl)
  have h4t : some 4 ∈ t.activated := (hch 4).mpr
    (Or.inr (Relation.ReflTransGen.tail Relation.ReflTransGen.refl
      (by decide)))
  have h5t : some 5 ∈ t.activated := (hch 5).mpr
    (Or.inr (Relation.ReflTransGen.tail Relation.ReflTransGen.refl
      (by decide)))
  have h12t : some 12 ∈ t.activated := (hch 12).mpr (Or.inl (by decide))
  have h0t : some 0 ∉ t.activated := by
    intro hx
    rcases (hch 0).mp hx with h2 | h2
    · exact absurd h2 (by decide)
    · exact (casc_fresh (by decide) h2).1 (by decide)
  have h2t : some 2 ∉ t.activated := by
    intro hx
    rcases (hch 2).mp hx with h2 | h2
    · exact absurd h2 (by decide)
    · exact (casc_fresh (by decide) h2).1 (by decide)
  have hnet : t.activated ≠ [] := List.ne_nil_of_mem h12t
  have hndt : t.activated.Nodup := et.nodup (by decide)
  have hmkt : t.marked = [some 0, some 2] := by
    rw [et.marked_eq]
    rfl
  have hmnt : t.mines = [8, 9, 10, 11] := by
    rw [et.mines_eq (by decide)]
    rfl
  have hszt : t.size = 4 := by
    rw [et.size_eq]
    rfl
  have hbt : t.bound = true := (et.text hendt).2
  have hcnt : t.undiscovered + (actSafe t : Int) = 12 := by
    rw [et.counter (by decide)]
    decide
  have hnonet : (none : Square) ∉ t.activated := by
    intro hx
    exact absurd ((none_all 522).1 c4p3 1 0 true [] t hpr hx) (by decide)
  have hlent : t.activated.length ≤ 5 := by
    have h2 : ∀ q ∈ t.activated,
        q ∈ c4p3.activated ∨ ∃ k, q = some k ∧
          k ∈ ([1, 4, 5, 6] : List Nat) := by
      intro q hq
      cases q with
      | none => exact absurd hq hnonet
      | some k =>
        rcases (hch k).mp hq with h2 | h2
        · exact Or.inl h2
        · exact Or.inr ⟨k, rfl,
            casc_closed [1, 4, 5, 6] (by decide) (by decide) k h2⟩
    have h3 := act_len_bound hndt h2
    have h4 : c4p3.activated.length +
        ([1, 4, 5, 6] : List Nat).length = 5 := rfl
    omega
  -- remove the flag on cell 0
  have hsqt0 : get_square t 0 0 = some 0 :=
    (get_square_congr et.size_eq 0 0).trans (by decide)
  have h0mt : some 0 ∈ t.marked := by
    rw [hmkt]
    decide
  have hmk5 : mark_square t 0 0 = ({ t with
      marked := t.marked.erase (some 0),
      img := updImg t.img 0 10, minesLabel := t.minesLabel + 1 }, true) := by
    simp only [mark_square]
    rw [hsqt0, if_neg h0t, if_pos h0mt]
  set u1 : GameState := { t with
    marked := t.marked.erase (some 0),
    img := updImg t.img 0 10, minesLabel := t.minesLabel + 1 }
  have hru1 : Reachable u1 := by
    have h2 := Reachable.flag t 0 0 hrt hbt
      ((InRange_congr et.size_eq).mpr (by decide))
    rw [hmk5] at h2
    exact h2
  have hmku1 : u1.marked = [some 2] := by
    show t.marked.erase (some 0) = [some 2]
    rw [hmkt]
    rfl
  -- remove the flag on cell 2
  have hsqu1 : get_square u1 2 0 = some 2 :=
    (get_square_congr (et.size_eq : u1.size = c4p3.size) 2 0).trans
      (by decide)
  have h2au1 : some 2 ∉ u1.activated := h2t
  have h2mu1 : some 2 ∈ u1.marked := by
    rw [hmku1]
    decide
  have hmk6 : mark_square u1 2 0 = ({ u1 with
      marked := u1.marked.erase (some 2),
      img := updImg u1.img 2 10,
      minesLabel := u1.minesLabel + 1 }, true) := by
    simp only [mark_square]
    rw [hsqu1, if_neg h2au1, if_pos h2mu1]
  set u2 : GameState := { u1 with
    marked := u1.marked.erase (some 2),
    img := updImg u1.img 2 10, minesLabel := u1.minesLabel + 1 }
  have hru2 : Reachable u2 := by
    have h2 := Reachable.flag u1 2 0 hru1 hbt
      ((InRange_congr (et.size_eq : u1.size = c4p3.size)).mpr (by decide))
    rw [hmk6] at h2
    exact h2
  have hmku2 : u2.marked = [] := by
    show u1.marked.erase (some 2) = []
    rw [hmku1]
    rfl
  -- the final reveal on cell 0
  have hszu2 : u2.size = 4 := hszt
  have hb7 : (unact u2 + 2) * (nsq u2 + 13) ≤ 522 := by
    have h1 := unact_le_nsq u2
    have h2 : nsq u2 = 16 := by
      show u2.size * u2.size = 16
      rw [hszu2]
    calc (unact u2 + 2) * (nsq u2 + 13) ≤ 18 * 29 :=
        Nat.mul_le_mul (by omega) (by omega)
      _ ≤ 522 := by omega
  obtain ⟨pr2, hw⟩ := Option.isSome_iff_exists.mp
    ((term_all 522).2.1 u2 0 0 true [] hb7)
  obtain ⟨w, okw⟩ := pr2
  have hnew : u2.activated ≠ [] := hnet
  have hokw : okw = true := okt_activate hnew
    ((InRange_congr (et.size_eq : u2.size = c4p3.size)).mpr (by decide)) hw
  subst hokw
  have hcalc : ∀ k, calculate_mines_and_flags u2 k =
      calculate_mines_and_flags c4p1 k := fun k =>
    calc_congr u2 c4p1 hszt hmku2 hmnt k
  have hZ0 : Zcell u2 0 := by
    refine ⟨?_, ?_, ?_⟩
    · rw [hcalc 0]
      decide
    · rw [hmku2]
      simp
    · exact h0t
  have hSclf : ∀ a ∈ ([0] : List Nat), Zcell u2 a →
      ∀ b ∈ (nbhdSquares u2 a).filterMap id,
      some b ∉ u2.marked → some b ∉ u2.activated →
      b ∈ ([0] : List Nat) := by
    intro a ha hZa b hb hbm hba
    rw [List.mem_singleton] at ha
    subst ha
    rw [nbhdSquares_congr (t := u2) (s := c4p1) hszt 0] at hb
    have he : (nbhdSquares c4p1 0).filterMap id = [0, 1, 4, 5] := by decide
    rw [he] at hb
    simp only [List.mem_cons, List.not_mem_nil, or_false] at hb
    rcases hb with rfl | rfl | rfl | rfl
    · decide
    · exact absurd h1t hba
    · exact absurd h4t hba
    · exact absurd h5t hba
  have hguardf : (u2.activated.length : Int) +
      (([0] : List Nat)).length < u2.undiscovered + actSafe u2 := by
    have h2 : u2.undiscovered + (actSafe u2 : Int) = 12 := hcnt
    have h3 : u2.activated.length ≤ 5 := hlent
    have h4 : (([0] : List Nat)).length = 1 := rfl
    rw [h4]
    omega
  have hfin := casc_exact_run 522 u2 0 0 0 [] w [0]
    hnew hndt (by rw [hmnt]; decide)
    ((get_square_congr (et.size_eq : u2.size = c4p3.size) 0 0).trans
      (by decide))
    hZ0 (by decide) hSclf hguardf hw
  have h2w : some 2 ∉ w.activated := by
    intro hx
    rcases (hfin.2 2).mp hx with h2 | h2
    · exact h2t h2
    · have h3 := casc_closed [0] (by decide) hSclf 2 h2
      rw [List.mem_singleton] at h3
      exact absurd h3 (by decide)
  refine ⟨u2, 522, w, hru2, hendt, ?_, hZ0.1, hZ0.2.1, hZ0.2.2,
    ?_, ?_, h1t, ?_, ?_, ?_, ?_, hw, h2w⟩
  · exact (get_square_congr (et.size_eq : u2.size = c4p3.size) 0 0).trans
      (by decide)
  · rw [hcalc 1]
    decide
  · rw [hmku2]
    simp
  · rw [hcalc 2]
    decide
  · rw [hmku2]
    simp
  · show some 1 ∈ nbhdSquares u2 0
    rw [nbhdSquares_congr (t := u2) (s := c4p1) hszt 0]
    decide
  · show some 2 ∈ nbhdSquares u2 1
    rw [nbhdSquares_congr (t := u2) (s := c4p1) hszt 1]
    decide

/-- The losing label only ever comes from the clicked mine itself: a
reveal whose fresh target is not a mine — cascades included, since the
cascade only walks neighbourhoods of zero-count cells, which hold no
mines — either leaves the ending label unchanged or ends the game with
the winning label (whose sweep may pass over mines without the nested
loss labels surviving).  One induction on the fuel across
`activate_square`, `activate_adjacent_squares`, its loop, and
`check_victory`. -/
theorem nolose_all (s0 : GameState) (hne0 : s0.activated ≠ []) (f : Nat) :
    (∀ t x y b rng s', Ext s0 t → get_square t x y = some b →
      b ∉ s0.mines → get_square t x y ∉ t.activated →
      activate_square f t x y true rng = some (s', true) →
      s'.ending = t.ending ∨ s'.ending = "You won") ∧
    (∀ t a rng s', Ext s0 t → (calculate_mines_and_flags s0 a).1 = 0 →
      some a ∈ t.activated →
      activate_adjacent f t a rng = some (s', true) →
      s'.ending = t.ending ∨ s'.ending = "You won") ∧
    (∀ t a ps rng s', Ext s0 t → (calculate_mines_and_flags s0 a).1 = 0 →
      some a ∈ t.activated → (∀ p ∈ ps, p ∈ nbhd s0 a) →
      adjacent_go f t ps rng = some (s', true) →
      s'.ending = t.ending ∨ s'.ending = "You won") ∧
    (∀ t rng s', t.activated ≠ [] → check_win f t rng = some (s', true) →
      s'.ending = t.ending ∨ s'.ending = "You won") := by
  induction f with
  | zero =>
    refine ⟨fun t x y b rng s' _ _ _ _ h => ?_,
      fun t a rng s' _ _ _ h => ?_, fun t a ps rng s' _ _ _ _ h => ?_,
      fun t rng s' _ h => ?_⟩ <;>
      simp [activate_square, activate_adjacent, adjacent_go, check_win] at h
  | succ f ih =>
    obtain ⟨ihA, ihJ, ihG, ihW⟩ := ih
    refine ⟨?_, ?_, ?_, ?_⟩
    · -- activate_square
      intro t x y b rng s' e htar hbmine hfr h
      have hnet : t.activated ≠ [] := ext_act_ne e hne0
      simp only [activate_square] at h
      split at h
      · simp at h
      · next s1 hfc =>
        rw [if_neg hnet] at hfc
        simp only [Option.some.injEq] at hfc
        subst hfc
        by_cases hm : get_square t x y ∈ t.marked
        · rw [if_pos hm] at h
          simp only [Option.some.injEq, Prod.mk.injEq] at h
          obtain ⟨h1, _⟩ := h
          subst h1
          exact Or.inl rfl
        · rw [if_neg hm, if_neg hfr, htar] at h
          dsimp only at h
          have hbmt : some b ∉ t.marked := by
            rw [htar] at hm
            exact hm
          have hfrb : some b ∉ t.activated := by
            rw [htar] at hfr
            exact hfr
          have hmn : ¬ memMines (some b) t.mines = true := by
            rw [e.mines_eq hne0]
            intro hx
            exact hbmine (memMines_some.mp hx)
          rw [if_neg hmn] at h
          have hblt : b < t.size * t.size := (get_square_eq_some htar).2.2
          have eT : Ext t { t with
              activated := t.activated ++ [some b],
              undiscovered := t.undiscovered - 1,
              img := updImg t.img b
                (calculate_mines_and_flags
                  { t with activated := t.activated ++ [some b],
                           undiscovered := t.undiscovered - 1 } b).1 } :=
            ext_append hfrb hbmt (Or.inr ⟨b, hblt, rfl⟩) (if_neg hmn).symm
          split at h
          · next hcz =>
            cases heq : activate_adjacent f { t with
                activated := t.activated ++ [some b],
                undiscovered := t.undiscovered - 1,
                img := updImg t.img b
                  (calculate_mines_and_flags
                    { t with activated := t.activated ++ [some b],
                             undiscovered := t.undiscovered - 1 } b).1 }
                b rng with
            | none =>
              rw [heq] at h
              exact absurd h (by simp)
            | some pr =>
              rw [heq] at h
              obtain ⟨s5, ok5⟩ := pr
              cases ok5 with
              | false =>
                dsimp only at h
                simp only [Option.some.injEq, Prod.mk.injEq] at h
                exact absurd h.2 (by simp)
              | true =>
                dsimp only at h
                have hz0 : (calculate_mines_and_flags s0 b).1 = 0 := by
                  have hz1 := hcz.1
                  rw [calc_upd_act_und,
                    calc_congr t s0 e.size_eq e.marked_eq
                      (e.mines_eq hne0) b] at hz1
                  exact hz1
                have h5 := ihJ _ b rng s5 (e.trans eT) hz0 (by simp) heq
                have hne5 : s5.activated ≠ [] :=
                  ext_act_ne (ext_adjacent heq) (by simp)
                have h6 := ihW s5 rng s' hne5 h
                rcases h6 with h6 | h6
                · rw [h6]
                  exact h5
                · exact Or.inr h6
          · have h6 := ihW _ rng s' (by simp) h
            exact h6
    · -- activate_adjacent
      intro t a rng s' e hz0 haT h
      simp only [activate_adjacent] at h
      refine ihG t a (nbhd t a) rng s' e hz0 haT ?_ h
      intro q hq
      rw [nbhd_congr e.size_eq] at hq
      exact hq
    · -- adjacent_go
      intro t a ps rng s' e hz0 haT hps h
      cases ps with
      | nil =>
        simp only [adjacent_go, Option.some.injEq, Prod.mk.injEq] at h
        obtain ⟨h1, _⟩ := h
        subst h1
        exact Or.inl rfl
      | cons p rest =>
        simp only [adjacent_go] at h
        by_cases hac : get_square t p.1 p.2 ∈ t.activated
        · rw [if_pos hac] at h
          exact ihG t a rest rng s' e hz0 haT
            (fun q hq => hps q (List.mem_cons_of_mem p hq)) h
        · rw [if_neg hac] at h
          cases hsq2 : get_square t p.1 p.2 with
          | none =>
            rw [hsq2] at h
            exact ihG t a rest rng s' e hz0 haT
              (fun q hq => hps q (List.mem_cons_of_mem p hq)) h
          | some c =>
            rw [hsq2] at h
            cases heq : activate_square f t p.1 p.2 true rng with
            | none =>
              rw [heq] at h
              exact absurd h (by simp)
            | some pr =>
              rw [heq] at h
              obtain ⟨t2, okt⟩ := pr
              cases okt with
              | false =>
                dsimp only at h
                simp only [Option.some.injEq, Prod.mk.injEq] at h
                exact absurd h.2 (by simp)
              | true =>
                dsimp only at h
                have hsq0 : get_square s0 p.1 p.2 = some c := by
                  rw [← get_square_congr e.size_eq p.1 p.2]
                  exact hsq2
                have hca : c ≠ a := by
                  intro hh
                  subst hh
                  rw [hsq2] at hac
                  exact hac haT
                have hcmine : c ∉ s0.mines :=
                  step_no_mine hz0
                    (show cellAdj s0 a c from List.mem_map.mpr
                      ⟨p, hps p (List.mem_cons_self p rest), hsq0⟩) hca
                have h5 := ihA t p.1 p.2 c rng t2 e hsq2 hcmine hac heq
                have e2 : Ext t t2 := ext_activate heq
                have h6 := ihG t2 a rest rng s' (e.trans e2) hz0
                  (e2.act_mono haT)
                  (fun q hq => hps q (List.mem_cons_of_mem p hq)) h
                rcases h6 with h6 | h6
                · rw [h6]
                  exact h5
                · exact Or.inr h6
    · -- check_win
      intro t rng s' hnet h
      simp only [check_win] at h
      by_cases hc : t.undiscovered ≤ 0
      · rw [if_pos hc] at h
        obtain ⟨_, _, hmsg, _⟩ := end_game_spec hnet h
        exact Or.inr hmsg
      · rw [if_neg hc] at h
        simp only [Option.some.injEq, Prod.mk.injEq] at h
        obtain ⟨h1, _⟩ := h
        subst h1
        exact Or.inl rfl

/-- C5 (amended): the end-of-game sweep.  On an in-progress started game
with consistent flags and no mine revealed, a completed reveal that ends
the game — the ending label becomes nonempty — sets the label to the
losing or the winning text and reveals every unflagged in-range cell,
while flagged cells stay hidden; the winning label only appears with the
safe counter exhausted; the losing label only comes from the clicked mine
itself, never from the mines the winning sweep passes over (the sweep's
nested win/loss calls cannot override the triggering label); and losing
by revealing a hidden unflagged mine unbinds the board, shows the
exploded mine as image 12 and every other unflagged in-range mine as the
plain mine image 9.  The original "every cell not yet revealed becomes
revealed" is refuted by `C5_counterexample`: flagged cells survive the
sweep hidden. -/
theorem C5_end_sweep (f : Nat) (s : GameState) (x y : Int) (i : Nat)
    (rng : List Nat) (s' : GameState) (ok : Bool)
    (hne : s.activated ≠ [])
    (hend0 : s.ending = "")
    (hdis : ∀ q ∈ s.marked, q ∉ s.activated)
    (hnomine : ∀ k ∈ s.mines, some k ∉ s.activated)
    (h : activate_square f s x y true rng = some (s', ok)) :
    (ok = true → s'.ending ≠ "" →
      (s'.ending = "You lose" ∨ s'.ending = "You won") ∧
      (∀ j, j < nsq s → some j ∉ s.marked → some j ∈ s'.activated) ∧
      (∀ q ∈ s.marked, q ∉ s'.activated)) ∧
    (s'.ending = "You won" → s'.undiscovered ≤ 0) ∧
    (∀ b, ok = true → get_square s x y = some b → b ∉ s.mines →
      get_square s x y ∉ s.activated →
      s'.ending = s.ending ∨ s'.ending = "You won") ∧
    (get_square s x y = some i → i ∈ s.mines → some i ∉ s.marked →
      some i ∉ s.activated →
      ok = true ∧ s'.ending = "You lose" ∧ s'.bound = false ∧
      s'.img i = 12 ∧
      (∀ j ∈ s.mines, j ≠ i → some j ∉ s.marked → j < nsq s →
        s'.img j = 9)) := by
  refine ⟨?_, ?_, ?_, ?_⟩
  · -- the sweep of any completed transition, Lost or Won
    intro hok hend'
    subst hok
    have e : Ext s s' := ext_activate h
    have hfs : FullySwept s' := by
      rcases (sweep_all f).1 s x y true rng s' hne h with h2 | h2
      · rw [hend0] at h2
        exact absurd h2 hend'
      · exact h2
    refine ⟨?_, ?_, ?_⟩
    · rcases e.text_cases with h2 | h2 | h2
      · rw [hend0] at h2
        exact absurd h2 hend'
      · exact Or.inl h2
      · exact Or.inr h2
    · intro j hj hjm
      refine fullySwept_unmarked hfs j ?_ ?_
      · rw [show nsq s' = nsq s from by unfold nsq; rw [e.size_eq]]
        exact hj
      · rw [e.marked_eq]
        exact hjm
    · intro q hq
      exact e.marked_stays_hidden hq (hdis q hq)
  · -- the winning label means the win condition genuinely fired
    intro hw
    rcases (aux_activate h).text3 with h2 | h2 | h2
    · rw [hw, hend0] at h2
      exact absurd h2 (by decide)
    · rw [hw] at h2
      exact absurd h2 (by decide)
    · exact h2.2
  · -- a fresh non-mine click never ends lost: the sweep does not
    -- re-trigger the loss logic
    intro b hok hsqb hbm hfr
    subst hok
    exact (nolose_all s hne f).1 s x y b rng s' (Ext.refl s) hsqb hbm hfr h
  · -- the losing trigger, with the exploded mine distinguished
    intro hsq hmn him hia
    have hinr : InRange s x y := (get_square_eq_some hsq).1
    have hok := okt_activate hne hinr h
    subst hok
    obtain ⟨_, hend, hbd, hact, himg⟩ :=
      activate_mine_lose hne hsq hmn him hia h
    have e : Ext s s' := ext_activate h
    have hnsq : nsq s' = nsq s := by
      unfold nsq
      rw [e.size_eq]
    have hfs : FullySwept s' := by
      rcases (sweep_all f).1 s x y true rng s' hne h with h2 | h2
      · rw [hend, hend0] at h2
        exact absurd h2 (by decide)
      · exact h2
    have hunm : ∀ j, j < nsq s → some j ∉ s.marked →
        some j ∈ s'.activated := by
      intro j hj hjm
      refine fullySwept_unmarked hfs j ?_ ?_
      · rw [hnsq]
        exact hj
      · rw [e.marked_eq]
        exact hjm
    refine ⟨rfl, hend, hbd, himg, ?_⟩
    intro j hjm hji hjmk hjn
    match f, h with
    | 0, h => simp [activate_square] at h
    | f + 1, h =>
      simp only [activate_square] at h
      rw [if_neg hne] at h
      dsimp only at h
      rw [hsq, if_neg him, if_neg hia] at h
      have hmemM : memMines (some i)
          ({ s with activated := s.activated ++ [some i] } :
            GameState).mines = true := memMines_some.mpr hmn
      rw [if_pos hmemM] at h
      dsimp only at h
      have h9 : some j ∈ s'.activated → s'.img j = 9 := by
        refine (img9_all f).2.1 _ "You lose" rng s' j ?_ ?_ ?_ ?_ h
        · simp
        · exact hjm
        · exact hjmk
        · intro hjT
          simp only [List.mem_append, List.mem_singleton,
            Option.some.injEq] at hjT
          rcases hjT with hjT | hjT
          · exact absurd hjT (hnomine j hjm)
          · exact absurd hjT hji
      exact h9 (hunm j hjn hjmk)

theorem C5_witness :
    (c2s1.activated ≠ [] ∧ c2s1.ending = "" ∧
      (∀ q ∈ c2s1.marked, q ∉ c2s1.activated) ∧
      (∀ k ∈ c2s1.mines, some k ∉ c2s1.activated) ∧
      get_square c2s1 1 1 = some 3 ∧ 3 ∈ c2s1.mines ∧
      some 3 ∉ c2s1.marked ∧ some 3 ∉ c2s1.activated) ∧
    ∃ s' ok, activate_square 85 c2s1 1 1 true [] = some (s', ok) ∧
      ((ok = true → s'.ending ≠ "" →
        (s'.ending = "You lose" ∨ s'.ending = "You won") ∧
        (∀ j, j < nsq c2s1 → some j ∉ c2s1.marked →
          some j ∈ s'.activated) ∧
        (∀ q ∈ c2s1.marked, q ∉ s'.activated)) ∧
       (s'.ending = "You won" → s'.undiscovered ≤ 0) ∧
       (∀ b, ok = true → get_square c2s1 1 1 = some b → b ∉ c2s1.mines →
         get_square c2s1 1 1 ∉ c2s1.activated →
         s'.ending = c2s1.ending ∨ s'.ending = "You won") ∧
       (get_square c2s1 1 1 = some 3 → 3 ∈ c2s1.mines →
         some 3 ∉ c2s1.marked → some 3 ∉ c2s1.activated →
         ok = true ∧ s'.ending = "You lose" ∧ s'.bound = false ∧
         s'.img 3 = 12 ∧
         (∀ j ∈ c2s1.mines, j ≠ 3 → some j ∉ c2s1.marked →
           j < nsq c2s1 → s'.img j = 9))) := by
  obtain ⟨pr, hpr⟩ := Option.isSome_iff_exists.mp
    ((term_all 85).2.1 c2s1 1 1 true [] (by decide))
  obtain ⟨s', ok⟩ := pr
  exact ⟨⟨by decide, rfl, by decide, by decide, by decide, by decide,
      by decide, by decide⟩,
    s', ok, hpr,
    C5_end_sweep 85 c2s1 1 1 3 [] s' ok (by decide) rfl (by decide)
      (by decide) hpr⟩

end Minesweeper
